import Mathlib

/-!
Verification of the range-merging slot tracker (`SliceMerger`) and the
batch-assembly engine (`Batcher` / `SavingBatcher`) from
`sample_factory/algo/learning/batcher.py`.

The Python classes are embedded shallowly: Python `dict`s become
insertion-ordered association lists (`PyDict`), Python `slice` objects become
the `Slice` structure over `Int`, and the stateful methods become pure
state-passing functions.  Tensor contents are outside the core (the spec
treats tensor storage/copy as an external collaborator); a training-batch
buffer is therefore modelled by the ordered list of `(device, slice)` source
ranges copied into it.
-/

set_option maxHeartbeats 1000000
set_option linter.unusedSectionVars false

namespace SampleFactory

/-- Half-open interval `[start, stop)` over a trajectory-buffer index space,
modelling a Python `slice` object with integer endpoints. -/
structure Slice where
  start : Int
  stop : Int
deriving DecidableEq

/-- Python `slice_len(s) = s.stop - s.start`. -/
def slice_len (s : Slice) : Int := s.stop - s.start

/-- Insertion-ordered association list modelling a Python `dict`:
iteration order is insertion order, deleting a key removes its entry without
reordering, and re-inserting a deleted key appends at the end. -/
abbrev PyDict (α β : Type) := List (α × β)

namespace PyDict

variable {α β : Type} [DecidableEq α]

/-- Python `d.get(k)`: the value stored under key `k`, if present. -/
def get (d : PyDict α β) (k : α) : Option β :=
  (d.find? (fun p => decide (p.1 = k))).map (fun p => p.2)

/-- Python `d[k] = v`: replaces the value in place when `k` is present,
otherwise appends a new entry at the end. -/
def set (d : PyDict α β) (k : α) (v : β) : PyDict α β :=
  if (d.find? (fun p => decide (p.1 = k))).isSome then
    d.map (fun p => if p.1 = k then (k, v) else p)
  else
    d ++ [(k, v)]

/-- Python `del d[k]` (a no-op when the key is absent; the well-formed states
reached by the code never delete an absent key). -/
def del (d : PyDict α β) (k : α) : PyDict α β :=
  d.filter (fun p => decide (p.1 ≠ k))

/-- Python `d.keys()`, in iteration order. -/
def keys (d : PyDict α β) : List α := d.map Prod.fst

/-- Python `d.values()`, in iteration order. -/
def values (d : PyDict α β) : List β := d.map Prod.snd

end PyDict

/-- State of `SliceMerger`: two maps indexing the stored slices by their
`start` and by their `stop`, plus the incrementally tracked total length. -/
structure SliceMerger where
  slice_starts : PyDict Int Slice
  slice_stops : PyDict Int Slice
  total_num : Int
deriving DecidableEq

namespace SliceMerger

/-- `SliceMerger.__init__`: both maps empty, total zero. -/
def empty : SliceMerger := ⟨[], [], 0⟩

/-- `SliceMerger._add_slice`. -/
def _add_slice (m : SliceMerger) (s : Slice) : SliceMerger :=
  { slice_starts := m.slice_starts.set s.start s
    slice_stops := m.slice_stops.set s.stop s
    total_num := m.total_num + slice_len s }

/-- `SliceMerger._del_slice`. -/
def _del_slice (m : SliceMerger) (s : Slice) : SliceMerger :=
  { slice_starts := m.slice_starts.del s.start
    slice_stops := m.slice_stops.del s.stop
    total_num := m.total_num - slice_len s }

/-- `SliceMerger.merge_slices`, unrolled with explicit fuel bounding the
recursion (merge-cascade) depth.  Every cascade step deletes one stored slice,
so the number of entries of `slice_starts` bounds the depth; `merge_slices`
below supplies sufficient fuel for all well-formed states. -/
def merge_slices_fuel : Nat → SliceMerger → Slice → SliceMerger
  | 0, m, ts => m._add_slice ts
  | fuel + 1, m, ts =>
    match m.slice_stops.get ts.start with
    | some prev_slice =>
        merge_slices_fuel fuel (m._del_slice prev_slice) ⟨prev_slice.start, ts.stop⟩
    | none =>
      match m.slice_starts.get ts.stop with
      | some next_slice =>
          merge_slices_fuel fuel (m._del_slice next_slice) ⟨ts.start, next_slice.stop⟩
      | none => m._add_slice ts

/-- `SliceMerger.merge_slices`. -/
def merge_slices (m : SliceMerger) (ts : Slice) : SliceMerger :=
  merge_slices_fuel (m.slice_starts.length + 1) m ts

/-- `SliceMerger._extract_at_most`: removes `s`, and when `s` is longer than
`batch_size` re-adds the remainder and returns only the prefix of length
`batch_size`.  The new state is returned alongside the extracted slice. -/
def _extract_at_most (m : SliceMerger) (s : Slice) (batch_size : Int) :
    Slice × SliceMerger :=
  if batch_size < slice_len s then
    (⟨s.start, s.start + batch_size⟩,
      (m._del_slice s)._add_slice ⟨s.start + batch_size, s.stop⟩)
  else
    (s, m._del_slice s)

/-- `SliceMerger.get_at_most`: extracts from the first slice in `slice_starts`
iteration (insertion) order, or returns `none` when no slices are stored. -/
def get_at_most (m : SliceMerger) (batch_size : Int) : Option (Slice × SliceMerger) :=
  match m.slice_starts with
  | [] => none
  | p :: _ => some (m._extract_at_most p.2 batch_size)

/-- `SliceMerger.get_exactly`: scans `slice_starts` in iteration (insertion)
order and extracts `batch_size` elements from the first slice of length at
least `batch_size`, or returns `none` when no such slice exists. -/
def get_exactly (m : SliceMerger) (batch_size : Int) : Option (Slice × SliceMerger) :=
  match m.slice_starts.find? (fun p => decide (batch_size ≤ slice_len p.2)) with
  | some p => some (m._extract_at_most p.2 batch_size)
  | none => none

/-- The stored slices, in `slice_starts` iteration order. -/
def ranges (m : SliceMerger) : List Slice := m.slice_starts.values

end SliceMerger

/-- Membership of an index in a slice's half-open interval. -/
def inSlice (i : Int) (s : Slice) : Prop := s.start ≤ i ∧ i < s.stop

instance (i : Int) (s : Slice) : Decidable (inSlice i s) :=
  inferInstanceAs (Decidable (_ ∧ _))

/-- Index `i` is covered by some slice currently stored in the merger. -/
def SliceMerger.covered (m : SliceMerger) (i : Int) : Prop :=
  ∃ s ∈ m.ranges, inSlice i s

instance (m : SliceMerger) (i : Int) : Decidable (m.covered i) :=
  List.decidableBEx _ _

/-- Two slices occupy disjoint index sets (they may touch at a boundary). -/
def disjointS (a b : Slice) : Prop := a.stop ≤ b.start ∨ b.stop ≤ a.start

instance (a b : Slice) : Decidable (disjointS a b) :=
  inferInstanceAs (Decidable (_ ∨ _))

/-- Two slices are strictly separated: disjoint and not even adjacent. -/
def separated (a b : Slice) : Prop := a.stop < b.start ∨ b.stop < a.start

instance (a b : Slice) : Decidable (separated a b) :=
  inferInstanceAs (Decidable (_ ∨ _))

namespace SliceMerger

/-- Well-formedness invariant of a `SliceMerger`: the two maps key each stored
slice by its `start` resp. `stop` without duplicate keys and track the same set
of slices; stored slices are nonempty and pairwise strictly separated (no two
even share a boundary); and `total_num` equals the recounted sum of lengths. -/
structure WF (m : SliceMerger) : Prop where
  starts_key : ∀ p ∈ m.slice_starts, p.1 = p.2.start
  stops_key : ∀ p ∈ m.slice_stops, p.1 = p.2.stop
  starts_nodup : (PyDict.keys m.slice_starts).Nodup
  stops_nodup : (PyDict.keys m.slice_stops).Nodup
  mem_iff : ∀ s : Slice, s ∈ m.ranges ↔ s ∈ PyDict.values m.slice_stops
  valid : ∀ s ∈ m.ranges, s.start < s.stop
  sep : ∀ s₁ ∈ m.ranges, ∀ s₂ ∈ m.ranges, s₁ ≠ s₂ → separated s₁ s₂
  total_eq : m.total_num = (m.ranges.map slice_len).sum

/-- Operations on a `SliceMerger` as invoked by the `Batcher`: a range
insertion via `merge_slices`, or an extraction via `get_at_most` or
`get_exactly` (whose `none` result leaves the state unchanged). -/
inductive MergerOp where
  | ins (s : Slice)
  | getAtMost (n : Int)
  | getExactly (n : Int)
deriving DecidableEq

/-- Applying one operation to a `SliceMerger` state. -/
def applyOp (m : SliceMerger) : MergerOp → SliceMerger
  | .ins s => m.merge_slices s
  | .getAtMost n =>
    match m.get_at_most n with
    | some (_, m') => m'
    | none => m
  | .getExactly n =>
    match m.get_exactly n with
    | some (_, m') => m'
    | none => m

/-- Validity of an operation: insertions do not overlap the stored ranges
(the producers' contract), and extraction sizes are positive (the batcher
only passes positive batch sizes). -/
def opValid (m : SliceMerger) : MergerOp → Prop
  | .ins s => s.start < s.stop ∧ ∀ t ∈ m.ranges, disjointS t s
  | .getAtMost n => 1 ≤ n
  | .getExactly n => 1 ≤ n

/-- States reachable from the empty `SliceMerger` by valid operations. -/
inductive ReachableM : SliceMerger → Prop where
  | empty : ReachableM SliceMerger.empty
  | step {m : SliceMerger} {op : MergerOp} :
      ReachableM m → opValid m op → ReachableM (applyOp m op)

/-- Insertion of an entry into a key-sorted entry list (used only to state the
spec's "start order" reading of the extraction operations). -/
def insertSorted (p : Int × Slice) : PyDict Int Slice → PyDict Int Slice
  | [] => [p]
  | q :: tl => if p.1 ≤ q.1 then p :: q :: tl else q :: insertSorted p tl

/-- Insertion sort of the entry list by key (range start). -/
def sortByStart : PyDict Int Slice → PyDict Int Slice
  | [] => []
  | p :: tl => insertSorted p (sortByStart tl)

/-- Modelled from the spec: the spec describes `extractExact(n)` as scanning
ranges in start order ("scans ranges in start order and returns the first
range whose length is `≥ n`"); this variant therefore sorts the stored
entries by range start before scanning.  It is compared against the source's
`get_exactly`, which scans in dict-insertion order. -/
def get_exactly_start_order (m : SliceMerger) (batch_size : Int) :
    Option (Slice × SliceMerger) :=
  match (sortByStart m.slice_starts).find?
      (fun p => decide (batch_size ≤ slice_len p.2)) with
  | some p => some (m._extract_at_most p.2 batch_size)
  | none => none

/-- Modelled from the spec: the spec describes `extractAtMost(n)` as picking
the first range in start order ("the reference policy iterates ranges in
start order"); this variant therefore sorts the stored entries by range start
before picking the first.  It is compared against the source's `get_at_most`,
which takes the first entry in dict-insertion order. -/
def get_at_most_start_order (m : SliceMerger) (batch_size : Int) :
    Option (Slice × SliceMerger) :=
  match sortByStart m.slice_starts with
  | [] => none
  | p :: _ => some (m._extract_at_most p.2 batch_size)

end SliceMerger

/-- Python dict in-place value update `d[k].method(...)` (a no-op when the key
is absent; the code only updates device keys created at construction). -/
def PyDict.modify {α β : Type} [DecidableEq α] (d : PyDict α β) (k : α) (f : β → β) :
    PyDict α β :=
  d.map (fun p => if p.1 = k then (p.1, f p.2) else p)

/-- Physical storage location ("device") identifier, e.g. "cpu". -/
abbrev Device := String

/-- Configuration flags of the batcher that the core logic branches on. -/
structure BatcherCfg where
  async_rl : Bool
  batched_sampling : Bool
deriving DecidableEq

/-- Observable events emitted by the batcher: the signals
`training_batches_available`, `stop_experience_collection`,
`resume_experience_collection` and `trajectory_buffers_available`, and the
hand-back of freed slots to a device's producer-facing queue
(`traj_buffer_queues[device].put_many`, whose payload is a list of flat slot
indices in unbatched-sampling mode and a list of slices in batched-sampling
mode). -/
inductive BEvent where
  | training_batches_available (batch_idx : Nat)
  | stop_experience_collection
  | resume_experience_collection
  | put_many (device : Device) (idxs : List Int)
  | put_many_slices (device : Device) (slices : List Slice)
  | trajectory_buffers_available (training_iteration : Int)
deriving DecidableEq

/-- Number of `stop_experience_collection` signals in an event list. -/
def countStop (evs : List BEvent) : Nat :=
  evs.count BEvent.stop_experience_collection

/-- Number of `resume_experience_collection` signals in an event list. -/
def countResume (evs : List BEvent) : Nat :=
  evs.count BEvent.resume_experience_collection

/-- Whether an event is a `training_batches_available` signal. -/
def isReady : BEvent → Bool
  | BEvent.training_batches_available _ => true
  | _ => false

/-- Number of `training_batches_available` signals in an event list. -/
def countReady (evs : List BEvent) : Nat := (evs.filter isReady).length

/-- State of a `Batcher`.  Tensor contents are outside the core (the spec
treats tensor storage and copying as an external collaborator), so a
training-batch buffer is modelled by the ordered list of `(device, slice)`
source ranges copied into it. -/
structure Batcher where
  cfg : BatcherCfg
  traj_per_training_iteration : Int
  traj_per_sampling_iteration : Int
  slices_for_training : PyDict Device SliceMerger
  slices_for_sampling : PyDict Device SliceMerger
  available_batches : List Nat
  traj_tensors_to_release : List (List (Device × Slice))
  training_batches : List (List (Device × Slice))
  training_iteration : Int
deriving DecidableEq

/-- `Batcher.__init__` and `Batcher.init`: one empty `SliceMerger` per device
for training and for sampling, all `K = max_batches_to_accumulate` batch
buffers free, and empty pending-release lists. -/
def Batcher.init (cfg : BatcherCfg) (trT trS : Int) (devices : List Device)
    (K : Nat) : Batcher :=
  { cfg := cfg
    traj_per_training_iteration := trT
    traj_per_sampling_iteration := trS
    slices_for_training := devices.map (fun d => (d, SliceMerger.empty))
    slices_for_sampling := devices.map (fun d => (d, SliceMerger.empty))
    available_batches := List.range K
    traj_tensors_to_release := List.replicate K []
    training_batches := List.replicate K []
    training_iteration := 0 }

/-- Total of `total_num` over all devices (the loop summing
`slices.total_num` over `self.slices_for_training.values()`). -/
def sumTotals (st : PyDict Device SliceMerger) : Int :=
  (st.map (fun p => p.2.total_num)).sum

/-- The inner extraction loop of `_maybe_enqueue_new_training_batches`
(`while remaining > 0 and (traj_slice := slices.get_at_most(remaining))`),
returning the extracted slices in copy order, with fuel bounding the
iteration count (on well-formed states every iteration extracts at least one
slot, so `remaining.toNat + 1` fuel suffices). -/
def drainLoop : Nat → SliceMerger → Int → List Slice × SliceMerger
  | 0, m, _ => ([], m)
  | fuel + 1, m, remaining =>
    if 0 < remaining then
      match m.get_at_most remaining with
      | some (s, m') =>
        let res := drainLoop fuel m' (remaining - slice_len s)
        (s :: res.1, res.2)
      | none => ([], m)
    else ([], m)

/-- The device loop of `_maybe_enqueue_new_training_batches`: visits the
devices in the (shuffled) order `devs`, draining each device's training
`SliceMerger` while fewer than `B` records have been copied; returns the
updated merger dict, the copied `(device, slice)` pairs in copy order
appended to `acc`, and the updated copied count. -/
def assembleOverDevices (B : Int) :
    List Device → PyDict Device SliceMerger → Int → List (Device × Slice) →
    PyDict Device SliceMerger × List (Device × Slice) × Int
  | [], st, copied, acc => (st, acc, copied)
  | dev :: devs, st, copied, acc =>
    match st.get dev with
    | none => assembleOverDevices B devs st copied acc
    | some m =>
      let res := drainLoop ((B - copied).toNat + 1) m (B - copied)
      assembleOverDevices B devs (st.set dev res.2)
        (copied + ((res.1.map slice_len).sum))
        (acc ++ res.1.map (fun s => (dev, s)))

/-- Python `range(s.start, s.stop)` as a list of integers. -/
def rangeList (s : Slice) : List Int :=
  (List.range (slice_len s).toNat).map (fun j => s.start + j)

/-- Total of a single device's training merger (0 when the device is absent). -/
def totalOf (st : PyDict Device SliceMerger) (d : Device) : Int :=
  match st.get d with
  | some m => m.total_num
  | none => 0

/-- Slot index `i` of device `d` is covered by the merger stored for `d`. -/
def coveredAt (st : PyDict Device SliceMerger) (d : Device) (i : Int) : Prop :=
  ∃ m, st.get d = some m ∧ m.covered i

/-- Slot index `i` of device `d` appears in one of the tagged slices. -/
def taggedIn (l : List (Device × Slice)) (d : Device) (i : Int) : Prop :=
  ∃ s : Slice, (d, s) ∈ l ∧ inSlice i s

/-- The flat list of slot indices recorded for device `d` in a pending-release
list, in record order (the order Python appends them). -/
def pendIdxs (l : List (Device × Slice)) (d : Device) : List Int :=
  ((l.filter (fun ds => decide (ds.1 = d))).map (fun ds => rangeList ds.2)).flatten

/-- Building `new_sampling_batches` in unbatched mode: append the expanded
indices under the device key, creating the entry (at the end, in
first-seen order) when absent. -/
def dictAppend (d : PyDict Device (List Int)) (k : Device) (xs : List Int) :
    PyDict Device (List Int) :=
  match d.get k with
  | some l => d.set k (l ++ xs)
  | none => d ++ [(k, xs)]

/-- The `while (sampling_batch := slices.get_exactly(n)) is not None` loop of
`_release_traj_tensors` (batched-sampling branch), with fuel (on well-formed
states each success removes `n ≥ 1` slots, so `total_num.toNat + 1`
suffices). -/
def getExactlyLoop : Nat → SliceMerger → Int → List Slice × SliceMerger
  | 0, m, _ => ([], m)
  | fuel + 1, m, n =>
    match m.get_exactly n with
    | some (s, m') =>
      let res := getExactlyLoop fuel m' n
      (s :: res.1, res.2)
    | none => ([], m)

/-- `Batcher._release_traj_tensors`: in batched-sampling mode, re-merges the
batch's pending-release ranges into the per-device sampling `SliceMerger`s
and extracts whole sampling batches; in unbatched mode, expands the ranges
into sorted flat index lists per device.  In both modes the pending-release
list of the batch is emptied, each device's payload is handed to its
producer-facing queue, and `trajectory_buffers_available` is emitted. -/
def releaseTrajTensors (b : Batcher) (batch_idx : Nat) : Batcher × List BEvent :=
  let pend := b.traj_tensors_to_release.getD batch_idx []
  if b.cfg.batched_sampling then
    let sampling1 := pend.foldl
      (fun sp ds => sp.modify ds.1 (fun m => m.merge_slices ds.2))
      b.slices_for_sampling
    let drained := sampling1.map (fun p =>
      (p.1, getExactlyLoop (p.2.total_num.toNat + 1) p.2 b.traj_per_sampling_iteration))
    let b' := { b with
      slices_for_sampling := drained.map (fun p => (p.1, p.2.2))
      traj_tensors_to_release := b.traj_tensors_to_release.set batch_idx [] }
    (b', drained.map (fun p => BEvent.put_many_slices p.1 p.2.1) ++
      [BEvent.trajectory_buffers_available b.training_iteration])
  else
    let nsb := pend.foldl (fun acc ds => dictAppend acc ds.1 (rangeList ds.2)) []
    let nsbSorted := nsb.map (fun p => (p.1, List.insertionSort (· ≤ ·) p.2))
    let b' := { b with
      traj_tensors_to_release := b.traj_tensors_to_release.set batch_idx [] }
    (b', nsbSorted.map (fun p => BEvent.put_many p.1 p.2) ++
      [BEvent.trajectory_buffers_available b.training_iteration])

/-- The `while self.available_batches:` loop of
`Batcher._maybe_enqueue_new_training_batches`.  `shuffles k` is the device
visiting order used by the `k`-th iteration (`random.shuffle` modelled as an
oracle); the fuel is initialized to the length of `available_batches`, which
bounds the iteration count since every iteration pops one entry and the loop
never appends. -/
def maybeEnqueueLoop (shuffles : Nat → List Device) :
    Nat → Nat → Batcher → Batcher × List BEvent
  | 0, _, b => (b, [])
  | fuel + 1, k, b =>
    match b.available_batches with
    | [] => (b, [])
    | batch_idx :: rest =>
      if sumTotals b.slices_for_training < b.traj_per_training_iteration then
        (b, [])
      else
        let res := assembleOverDevices b.traj_per_training_iteration (shuffles k)
          b.slices_for_training 0 []
        let b2 : Batcher := { b with
          available_batches := rest
          slices_for_training := res.1
          traj_tensors_to_release := b.traj_tensors_to_release.set batch_idx
            ((b.traj_tensors_to_release.getD batch_idx []) ++ res.2.1)
          training_batches := b.training_batches.set batch_idx res.2.1 }
        if b.cfg.async_rl then
          let rel := releaseTrajTensors b2 batch_idx
          let stopEvs := if rel.1.available_batches.isEmpty then
              [BEvent.stop_experience_collection] else []
          let cont := maybeEnqueueLoop shuffles fuel (k + 1) rel.1
          (cont.1, BEvent.training_batches_available batch_idx ::
            (rel.2 ++ stopEvs ++ cont.2))
        else
          let cont := maybeEnqueueLoop shuffles fuel (k + 1) b2
          (cont.1, BEvent.training_batches_available batch_idx :: cont.2)

/-- `Batcher._maybe_enqueue_new_training_batches`. -/
def maybeEnqueueNewTrainingBatches (shuffles : Nat → List Device) (b : Batcher) :
    Batcher × List BEvent :=
  maybeEnqueueLoop shuffles b.available_batches.length 0 b

/-- The intermediate batcher state inside one `maybeEnqueueLoop` iteration,
after buffer `idx` has been popped and filled and before the asynchronous
release (named so the loop can be unfolded compactly in proofs). -/
def enqueueMidState (shuffles : Nat → List Device) (k : Nat) (b : Batcher)
    (idx : Nat) (rest : List Nat) : Batcher :=
  { b with
    available_batches := rest
    slices_for_training := (assembleOverDevices b.traj_per_training_iteration
      (shuffles k) b.slices_for_training 0 []).1
    traj_tensors_to_release := b.traj_tensors_to_release.set idx
      ((b.traj_tensors_to_release.getD idx []) ++
        (assembleOverDevices b.traj_per_training_iteration (shuffles k)
          b.slices_for_training 0 []).2.1)
    training_batches := b.training_batches.set idx
      (assembleOverDevices b.traj_per_training_iteration (shuffles k)
        b.slices_for_training 0 []).2.1 }

/-- `Batcher.on_training_batch_released`: records the training iteration,
releases the batch's trajectories in synchronous mode, emits the resume
signal when the pool was exhausted in asynchronous mode, returns the buffer
to the free pool, and retries batch assembly. -/
def onTrainingBatchReleased (shuffles : Nat → List Device) (b : Batcher)
    (batch_idx : Nat) (training_iteration : Int) : Batcher × List BEvent :=
  let b0 : Batcher := { b with training_iteration := training_iteration }
  let r1 := if b0.cfg.async_rl = false then releaseTrajTensors b0 batch_idx else (b0, [])
  let resumeEvs := if r1.1.available_batches.isEmpty && b0.cfg.async_rl then
      [BEvent.resume_experience_collection] else []
  let b2 : Batcher := { r1.1 with
    available_batches := r1.1.available_batches ++ [batch_idx] }
  let r3 := maybeEnqueueNewTrainingBatches shuffles b2
  (r3.1, r1.2 ++ resumeEvs ++ r3.2)

/-- `Batcher.on_new_trajectories`: merges the reported trajectory slices into
the device's training `SliceMerger` and then tries to assemble batches (the
E3B bookkeeping writes tensor contents only, which are outside the model). -/
def onNewTrajectories (shuffles : Nat → List Device) (b : Batcher)
    (device : Device) (ss : List Slice) : Batcher × List BEvent :=
  let st := ss.foldl (fun st s => st.modify device (fun m => m.merge_slices s))
    b.slices_for_training
  maybeEnqueueNewTrainingBatches shuffles { b with slices_for_training := st }

/-- An external stimulus driving the batcher: a producer report or the
learner's batch acknowledgement, with the `random.shuffle` outcomes supplied
as an oracle. -/
inductive BatcherEvent where
  | newTrajectories (shuffles : Nat → List Device) (device : Device) (ss : List Slice)
  | batchReleased (shuffles : Nat → List Device) (batch_idx : Nat)
      (training_iteration : Int)

/-- One event-handler invocation of the batcher. -/
def batcherStep (b : Batcher) : BatcherEvent → Batcher × List BEvent
  | .newTrajectories sh dev ss => onNewTrajectories sh b dev ss
  | .batchReleased sh idx it => onTrainingBatchReleased sh b idx it

/-- The slot indices of device `d` currently owned by the batcher: covered by
the device's training RangeSet, recorded in some batch buffer's
pending-release list, or covered by the device's sampling RangeSet. -/
def ownedIdx (b : Batcher) (d : Device) (i : Int) : Prop :=
  (∃ m, b.slices_for_training.get d = some m ∧ m.covered i) ∨
  (∃ l ∈ b.traj_tensors_to_release, ∃ s : Slice, (d, s) ∈ l ∧ inSlice i s) ∨
  (∃ m, b.slices_for_sampling.get d = some m ∧ m.covered i)

/-- Contract on external stimuli: producers only report nonempty,
non-overlapping ranges of slots they own (slots not currently tracked by the
batcher), the learner only acknowledges a buffer index that is currently
out (emitted and not yet returned), and every `random.shuffle` outcome is a
permutation of `list(self.slices_for_training.keys())`. -/
def eventValid (b : Batcher) : BatcherEvent → Prop
  | .newTrajectories sh dev ss =>
      (∀ s ∈ ss, s.start < s.stop) ∧ ss.Pairwise disjointS ∧
      (∀ s ∈ ss, ∀ i : Int, ownedIdx b dev i → ¬ inSlice i s) ∧
      (∀ j, (sh j).Nodup ∧ (sh j).Perm (PyDict.keys b.slices_for_training))
  | .batchReleased sh idx _ =>
      idx < b.traj_tensors_to_release.length ∧ idx ∉ b.available_batches ∧
      (∀ j, (sh j).Nodup ∧ (sh j).Perm (PyDict.keys b.slices_for_training))

/-- Batcher states reachable from an initial state by valid stimuli. -/
inductive ReachableB (b0 : Batcher) : Batcher → Prop where
  | init : ReachableB b0 b0
  | step {b : Batcher} {e : BatcherEvent} :
      ReachableB b0 b → eventValid b e → ReachableB b0 (batcherStep b e).1

/-- The inductive invariant of the batcher's slot bookkeeping: the per-device
RangeSets are well-formed with distinct device keys; the free-buffer list has
no duplicates, is in bounds, and free buffers have empty pending-release
lists; every pending-release list records valid, per-device
pairwise-disjoint ranges; the pending-release lists of two distinct batch
buffers never share a slot; pending slots are tracked by neither the
training nor the sampling RangeSets, and the training and sampling RangeSets
are disjoint; in synchronous mode the recorded contents of every in-flight
batch buffer coincide with its pending-release list; in asynchronous mode
all pending-release lists are empty (slots are handed back the moment a
batch is marked ready). -/
structure BInv (b : Batcher) : Prop where
  wfT : ∀ p ∈ b.slices_for_training, SliceMerger.WF p.2
  wfS : ∀ p ∈ b.slices_for_sampling, SliceMerger.WF p.2
  keysT : (PyDict.keys b.slices_for_training).Nodup
  keysS : (PyDict.keys b.slices_for_sampling).Nodup
  Bnn : 0 ≤ b.traj_per_training_iteration
  Spos : 1 ≤ b.traj_per_sampling_iteration
  avail_nodup : b.available_batches.Nodup
  lenEq : b.training_batches.length = b.traj_tensors_to_release.length
  avail_lt : ∀ j ∈ b.available_batches, j < b.traj_tensors_to_release.length
  avail_pend : ∀ j ∈ b.available_batches,
    b.traj_tensors_to_release.getD j [] = []
  pend_valid : ∀ l ∈ b.traj_tensors_to_release, ∀ ds ∈ l,
    ds.2.start < ds.2.stop
  pend_self : ∀ l ∈ b.traj_tensors_to_release,
    l.Pairwise (fun p q => p.1 = q.1 → ∀ i : Int,
      inSlice i p.2 → ¬ inSlice i q.2)
  pend_disj : ∀ i j, i ≠ j → ∀ (d : Device) (k : Int),
    taggedIn (b.traj_tensors_to_release.getD i []) d k →
    ¬ taggedIn (b.traj_tensors_to_release.getD j []) d k
  pend_train : ∀ j (d : Device) (k : Int),
    taggedIn (b.traj_tensors_to_release.getD j []) d k →
    ¬ coveredAt b.slices_for_training d k
  pend_samp : ∀ j (d : Device) (k : Int),
    taggedIn (b.traj_tensors_to_release.getD j []) d k →
    ¬ coveredAt b.slices_for_sampling d k
  train_samp : ∀ (d : Device) (k : Int), coveredAt b.slices_for_training d k →
    ¬ coveredAt b.slices_for_sampling d k
  sync_content : b.cfg.async_rl = false → ∀ j, j ∉ b.available_batches →
    b.training_batches.getD j [] = b.traj_tensors_to_release.getD j []
  async_pend : b.cfg.async_rl = true → ∀ j,
    b.traj_tensors_to_release.getD j [] = []

/-- The numeric configuration fields read by
`SavingBatcher.on_training_batch_released`:
`cfg.saving_batcher.train_iter_to_data_collection_ratio` and the top-level
`cfg.min_initial_train_iters`. -/
structure SavingCfg where
  train_iter_to_data_collection_ratio : Int
  min_initial_train_iters : Int
deriving DecidableEq

/-- State of a `SavingBatcher`.  The RAM dataset, the dataloader and the
allocated training batches hold tensor contents only and are outside the
model, like `traj_tensors` in `Batcher`. -/
structure SavingState where
  cfg : BatcherCfg
  saving_cfg : SavingCfg
  available_batches : List Nat
  traj_tensors_to_release : List (List (Device × Slice))
  traj_slices_to_release : List (Device × Slice)
  slices_for_training : PyDict Device SliceMerger
  training_iteration : Int
  prev_data_collect_iteration : Int
deriving DecidableEq

/-- `SavingBatcher.__init__` plus `SavingBatcher.init`: allocates the batch
buffers, the dataset and the dataloader, and emits the initialized signal.
Neither method inspects `cfg.async_rl` or `cfg.batched_sampling`, so setup
returns `Except.ok` for every configuration. -/
def SavingBatcher.init (cfg : BatcherCfg) (scfg : SavingCfg) (K : Nat) :
    Except String SavingState :=
  Except.ok
    { cfg := cfg
      saving_cfg := scfg
      available_batches := List.range K
      traj_tensors_to_release := List.replicate K []
      traj_slices_to_release := []
      slices_for_training := []
      training_iteration := 0
      prev_data_collect_iteration := 0 }

/-- `SavingBatcher._release_traj_tensors`: raises `NotImplementedError` when
`batched_sampling` is set; otherwise expands every pending
`(device, slice)` pair into flat slot indices grouped per device, sorts each
device's list, clears the pending list, hands each list to the device's
producer-facing queue and emits `trajectory_buffers_available`. -/
def savingReleaseTrajTensors (s : SavingState) :
    Except String (SavingState × List BEvent) :=
  if s.cfg.batched_sampling then
    Except.error "NotImplementedError"
  else
    let nsb := s.traj_slices_to_release.foldl
      (fun acc ds => dictAppend acc ds.1 (rangeList ds.2)) []
    let nsbSorted := nsb.map (fun p => (p.1, List.insertionSort (· ≤ ·) p.2))
    Except.ok
      ({ s with traj_slices_to_release := [] },
        nsbSorted.map (fun p => BEvent.put_many p.1 p.2) ++
          [BEvent.trajectory_buffers_available s.training_iteration])

/-- The `while self.available_batches:` loop of
`SavingBatcher._maybe_enqueue_new_training_batches`: pops the head buffer,
asserts that its pending-release list is empty, draws the next dataset batch
(tensor contents, outside the model), signals `training_batches_available`,
and raises `NotImplementedError` when `async_rl` is set (in the source the
signal is emitted before the raise; the raise propagates, discarding the
iteration's effects, which the `Except.error` branch models). -/
def savingMaybeEnqueueLoop :
    Nat → SavingState → Except String (SavingState × List BEvent)
  | 0, s => Except.ok (s, [])
  | fuel + 1, s =>
    match s.available_batches with
    | [] => Except.ok (s, [])
    | batch_idx :: rest =>
      if s.traj_tensors_to_release.getD batch_idx [] ≠ [] then
        Except.error "AssertionError"
      else if s.cfg.async_rl then
        Except.error "NotImplementedError: not implemented for saving batcher"
      else
        match savingMaybeEnqueueLoop fuel { s with available_batches := rest } with
        | Except.ok (s', evs) =>
          Except.ok (s', BEvent.training_batches_available batch_idx :: evs)
        | Except.error e => Except.error e

/-- `SavingBatcher._maybe_enqueue_new_training_batches`; the fuel is the
length of `available_batches`, which bounds the iteration count since every
iteration pops one entry and the loop never appends. -/
def savingMaybeEnqueueNewTrainingBatches (s : SavingState) :
    Except String (SavingState × List BEvent) :=
  savingMaybeEnqueueLoop s.available_batches.length s

/-- The state of a `SavingBatcher` right after
`on_training_batch_released` has recorded the training iteration and
returned the acknowledged buffer to the pool. -/
def savingReleasedState (s : SavingState) (batch_idx : Nat) (it : Int) :
    SavingState :=
  { s with
    training_iteration := it
    available_batches := s.available_batches ++ [batch_idx] }

/-- `SavingBatcher.on_training_batch_released`: records the iteration,
returns the buffer to the pool, releases trajectories when the
data-collection ratio allows, retries batch assembly and finally raises
`NotImplementedError` when `async_rl` is set. -/
def savingOnTrainingBatchReleased (s : SavingState) (batch_idx : Nat)
    (it : Int) : Except String (SavingState × List BEvent) :=
  if s.saving_cfg.train_iter_to_data_collection_ratio ≤
      it - s.prev_data_collect_iteration ∧
      s.saving_cfg.min_initial_train_iters < it then
    (savingReleaseTrajTensors (savingReleasedState s batch_idx it)).bind fun p1 =>
      (savingMaybeEnqueueNewTrainingBatches
        { p1.1 with prev_data_collect_iteration := it }).bind fun p2 =>
        if s.cfg.async_rl then Except.error "NotImplementedError"
        else Except.ok (p2.1, p1.2 ++ p2.2)
  else
    (savingMaybeEnqueueNewTrainingBatches (savingReleasedState s batch_idx it)).bind
      fun p2 =>
        if s.cfg.async_rl then Except.error "NotImplementedError"
        else Except.ok (p2.1, p2.2)

/-- The payloads of the `put_many` hand-backs addressed to device `d`, in
emission order. -/
def putPayloads (evs : List BEvent) (d : Device) : List (List Int) :=
  evs.filterMap (fun e => match e with
    | BEvent.put_many d' l => if d' = d then some l else none
    | _ => none)

namespace PyDict

variable {α β : Type} [DecidableEq α]

theorem del_cons_of_ne {a k : α} {b : β} {tl : PyDict α β} (h : a ≠ k) :
    del ((a, b) :: tl) k = (a, b) :: del tl k := by
  simp [del, List.filter_cons, h]

theorem del_cons_of_eq {k : α} {b : β} {tl : PyDict α β} :
    del ((k, b) :: tl) k = del tl k := by
  simp [del, List.filter_cons]

theorem get_cons_of_eq {k : α} {b : β} {tl : PyDict α β} :
    get ((k, b) :: tl) k = some b := by
  unfold get
  rw [List.find?_cons_of_pos _ (by simp)]
  rfl

theorem get_cons_of_ne {a k : α} {b : β} {tl : PyDict α β} (h : a ≠ k) :
    get ((a, b) :: tl) k = get tl k := by
  unfold get
  rw [List.find?_cons_of_neg _ (by simp [h])]

theorem mem_del {d : PyDict α β} {k : α} {p : α × β} :
    p ∈ del d k ↔ p ∈ d ∧ p.1 ≠ k := by
  simp [del, List.mem_filter]

theorem get_eq_none_iff {d : PyDict α β} {k : α} :
    d.get k = none ↔ ∀ p ∈ d, p.1 ≠ k := by
  simp [get, List.find?_eq_none]

theorem get_mem {d : PyDict α β} {k : α} {v : β} (h : d.get k = some v) :
    (k, v) ∈ d := by
  unfold get at h
  rcases h1 : d.find? (fun p => decide (p.1 = k)) with _ | p
  · rw [h1] at h; simp at h
  · rw [h1] at h
    simp only [Option.map_some', Option.some.injEq] at h
    have hp := List.find?_some h1
    have hm := List.mem_of_find?_eq_some h1
    simp only [decide_eq_true_eq] at hp
    have : p = (k, v) := by
      rcases p with ⟨a, b⟩; simp_all
    rw [this] at hm; exact hm

theorem get_eq_some_of_mem {d : PyDict α β} {k : α} {v : β}
    (hnd : (keys d).Nodup) (hmem : (k, v) ∈ d) : d.get k = some v := by
  induction d with
  | nil => simp at hmem
  | cons hd tl ih =>
    rcases hd with ⟨a, b⟩
    simp only [keys, List.map_cons, List.nodup_cons] at hnd
    by_cases hk : a = k
    · subst hk
      have hv : b = v := by
        rcases List.mem_cons.mp hmem with h | h
        · simp_all
        · exact absurd (List.mem_map.mpr ⟨(a, v), h, rfl⟩) hnd.1
      subst hv
      exact get_cons_of_eq
    · have hmem' : (k, v) ∈ tl := by
        rcases List.mem_cons.mp hmem with h | h
        · exact absurd (congrArg Prod.fst h).symm hk
        · exact h
      rw [get_cons_of_ne hk]
      exact ih hnd.2 hmem'

theorem del_eq_self {d : PyDict α β} {k : α} (h : ∀ p ∈ d, p.1 ≠ k) :
    del d k = d := by
  unfold del
  exact List.filter_eq_self.mpr (fun p hp => by simpa using h p hp)

theorem length_del_le {d : PyDict α β} {k : α} : (del d k).length ≤ d.length :=
  List.length_filter_le _ _

theorem length_del_lt {d : PyDict α β} {k : α} (h : ∃ p ∈ d, p.1 = k) :
    (del d k).length < d.length := by
  induction d with
  | nil => simp at h
  | cons hd tl ih =>
    rcases hd with ⟨a, b⟩
    by_cases hk : a = k
    · subst hk
      rw [del_cons_of_eq]
      exact Nat.lt_succ_of_le length_del_le
    · rcases h with ⟨p, hp, hpk⟩
      have hptl : p ∈ tl := by
        rcases List.mem_cons.mp hp with h | h
        · rw [h] at hpk; exact absurd hpk hk
        · exact h
      rw [del_cons_of_ne hk]
      exact Nat.succ_lt_succ (ih ⟨p, hptl, hpk⟩)

theorem keys_nodup_del {d : PyDict α β} {k : α} (h : (keys d).Nodup) :
    (keys (del d k)).Nodup :=
  h.sublist ((List.filter_sublist d).map Prod.fst)

theorem get_none_of_not_mem_keys {d : PyDict α β} {k : α} (h : k ∉ keys d) :
    d.get k = none :=
  get_eq_none_iff.mpr fun p hp hpk => h (by rw [← hpk]; exact List.mem_map.mpr ⟨p, hp, rfl⟩)

theorem set_fresh {d : PyDict α β} {k : α} {v : β} (h : d.get k = none) :
    d.set k v = d ++ [(k, v)] := by
  unfold set
  have hf : d.find? (fun p => decide (p.1 = k)) = none := by
    unfold get at h
    rcases h1 : d.find? (fun p => decide (p.1 = k)) with _ | p
    · exact h1
    · rw [h1] at h; simp at h
  simp [hf]

theorem find?_isSome_iff {d : PyDict α β} {k : α} :
    (d.find? (fun p => decide (p.1 = k))).isSome ↔ ∃ p ∈ d, p.1 = k := by
  rw [List.find?_isSome]
  simp

theorem set_of_mem {d : PyDict α β} {k : α} {v : β} (h : ∃ p ∈ d, p.1 = k) :
    d.set k v = d.map (fun p => if p.1 = k then (k, v) else p) := by
  unfold set
  rw [if_pos (find?_isSome_iff.mpr h)]

theorem map_if_eq_self {d : PyDict α β} {k : α} {v : β}
    (h : ∀ p ∈ d, p.1 ≠ k) :
    d.map (fun p => if p.1 = k then (k, v) else p) = d := by
  induction d with
  | nil => rfl
  | cons hd tl ih =>
    rw [List.map_cons, if_neg (h hd (List.mem_cons_self _ _)),
      ih (fun p hp => h p (List.mem_cons_of_mem _ hp))]

theorem get_map_if_eq {d : PyDict α β} {k : α} {v : β}
    (h : ∃ p ∈ d, p.1 = k) :
    get (d.map (fun p => if p.1 = k then (k, v) else p)) k = some v := by
  induction d with
  | nil => simp at h
  | cons hd tl ih =>
    by_cases hk : hd.1 = k
    · rw [List.map_cons, if_pos hk]
      exact get_cons_of_eq
    · rw [List.map_cons, if_neg hk]
      rcases h with ⟨p, hp, hpk⟩
      rcases List.mem_cons.mp hp with he | htl
      · exact absurd (he ▸ hpk) hk
      · rcases hd with ⟨a, w⟩
        rw [get_cons_of_ne hk]
        exact ih ⟨p, htl, hpk⟩

theorem get_map_if_ne {d : PyDict α β} {k k' : α} {v : β} (hne : k' ≠ k) :
    get (d.map (fun p => if p.1 = k then (k, v) else p)) k' = get d k' := by
  induction d with
  | nil => rfl
  | cons hd tl ih =>
    rcases hd with ⟨a, w⟩
    by_cases hk : a = k
    · subst hk
      rw [List.map_cons, if_pos (show (a, w).1 = a from rfl)]
      rw [get_cons_of_ne (Ne.symm hne), get_cons_of_ne (fun h => hne h.symm)]
      exact ih
    · by_cases hk' : a = k'
      · subst hk'
        rw [List.map_cons]
        simp only [if_neg hk]
        rw [get_cons_of_eq, get_cons_of_eq]
      · rw [List.map_cons]
        simp only [if_neg hk]
        rw [get_cons_of_ne hk', get_cons_of_ne hk']
        exact ih

theorem get_append_singleton_eq {d : PyDict α β} {k : α} {v : β}
    (h : ∀ p ∈ d, p.1 ≠ k) : get (d ++ [(k, v)]) k = some v := by
  induction d with
  | nil => exact get_cons_of_eq
  | cons hd tl ih =>
    rcases hd with ⟨a, w⟩
    rw [List.cons_append, get_cons_of_ne (h (a, w) (List.mem_cons_self _ _))]
    exact ih (fun p hp => h p (List.mem_cons_of_mem _ hp))

theorem get_append_singleton_ne {d : PyDict α β} {k k' : α} {v : β}
    (hne : k' ≠ k) : get (d ++ [(k, v)]) k' = get d k' := by
  induction d with
  | nil =>
    rw [List.nil_append]
    rw [get_cons_of_ne (Ne.symm hne)]
  | cons hd tl ih =>
    rcases hd with ⟨a, w⟩
    by_cases hk' : a = k'
    · subst hk'
      rw [List.cons_append, get_cons_of_eq, get_cons_of_eq]
    · rw [List.cons_append, get_cons_of_ne hk', get_cons_of_ne hk']
      exact ih

theorem get_set_self {d : PyDict α β} (k : α) (v : β) :
    (d.set k v).get k = some v := by
  by_cases h : ∃ p ∈ d, p.1 = k
  · rw [set_of_mem h]
    exact get_map_if_eq h
  · push_neg at h
    rw [set_fresh (get_eq_none_iff.mpr h)]
    exact get_append_singleton_eq h

theorem get_set_ne {d : PyDict α β} {k k' : α} (v : β) (hne : k' ≠ k) :
    (d.set k v).get k' = d.get k' := by
  by_cases h : ∃ p ∈ d, p.1 = k
  · rw [set_of_mem h]
    exact get_map_if_ne hne
  · push_neg at h
    rw [set_fresh (get_eq_none_iff.mpr h)]
    exact get_append_singleton_ne hne

theorem keys_set_of_mem {d : PyDict α β} {k : α} {v : β}
    (h : ∃ p ∈ d, p.1 = k) : keys (d.set k v) = keys d := by
  rw [set_of_mem h]
  unfold keys
  rw [List.map_map]
  apply List.map_congr_left
  intro p _
  by_cases hk : p.1 = k
  · simp [hk]
  · simp [hk]

theorem mem_set_iff {d : PyDict α β} {k : α} {v : β}
    (hmem : ∃ p ∈ d, p.1 = k) {q : α × β} :
    q ∈ d.set k v ↔ q = (k, v) ∨ (q ∈ d ∧ q.1 ≠ k) := by
  rw [set_of_mem hmem]
  rw [List.mem_map]
  constructor
  · rintro ⟨p, hp, hq⟩
    by_cases hk : p.1 = k
    · rw [if_pos hk] at hq; exact Or.inl hq.symm
    · rw [if_neg hk] at hq; exact Or.inr ⟨hq ▸ hp, hq ▸ hk⟩
  · rintro (hq | ⟨hq, hqk⟩)
    · rcases hmem with ⟨p, hp, hpk⟩
      exact ⟨p, hp, by rw [if_pos hpk, hq]⟩
    · exact ⟨q, hq, by rw [if_neg hqk]⟩

theorem sum_map_values_set {d : PyDict α β} {k : α} {v₀ v : β} (f : β → Int)
    (hnd : (keys d).Nodup) (hmem : (k, v₀) ∈ d) :
    ((values (d.set k v)).map f).sum = ((values d).map f).sum - f v₀ + f v := by
  rw [set_of_mem ⟨(k, v₀), hmem, rfl⟩]
  induction d with
  | nil => simp at hmem
  | cons hd tl ih =>
    rcases hd with ⟨a, b⟩
    simp only [keys, List.map_cons, List.nodup_cons] at hnd
    by_cases hk : a = k
    · subst hk
      have hv : b = v₀ := by
        rcases List.mem_cons.mp hmem with h | h
        · simp_all
        · exact absurd (List.mem_map.mpr ⟨(a, v₀), h, rfl⟩) hnd.1
      subst hv
      have htl : tl.map (fun p => if p.1 = a then (a, v) else p) = tl :=
        map_if_eq_self fun p hp hpk =>
          hnd.1 (by rw [← hpk]; exact List.mem_map.mpr ⟨p, hp, rfl⟩)
      rw [List.map_cons, if_pos rfl, htl]
      simp only [values, List.map_cons, List.sum_cons]
      ring
    · have hmem' : (k, v₀) ∈ tl := by
        rcases List.mem_cons.mp hmem with h | h
        · exact absurd (congrArg Prod.fst h).symm hk
        · exact h
      rw [List.map_cons, if_neg hk]
      simp only [values, List.map_cons, List.sum_cons]
      have := ih hnd.2 hmem'
      simp only [values] at this
      rw [this]
      ring

theorem get_modify_ne {d : PyDict α β} {k k' : α} (f : β → β) (hne : k' ≠ k) :
    (d.modify k f).get k' = d.get k' := by
  induction d with
  | nil => rfl
  | cons hd tl ih =>
    rcases hd with ⟨a, w⟩
    unfold PyDict.modify at *
    by_cases hk : a = k
    · subst hk
      rw [List.map_cons, if_pos rfl, get_cons_of_ne (Ne.symm hne),
        get_cons_of_ne (fun h => hne h.symm)]
      exact ih
    · by_cases hk' : a = k'
      · subst hk'
        rw [List.map_cons]
        simp only [if_neg hk]
        rw [get_cons_of_eq, get_cons_of_eq]
      · rw [List.map_cons]
        simp only [if_neg hk]
        rw [get_cons_of_ne hk', get_cons_of_ne hk']
        exact ih

theorem get_modify_self {d : PyDict α β} {k : α} (f : β → β) :
    (d.modify k f).get k = (d.get k).map f := by
  induction d with
  | nil => rfl
  | cons hd tl ih =>
    rcases hd with ⟨a, w⟩
    unfold PyDict.modify at *
    by_cases hk : a = k
    · subst hk
      rw [List.map_cons, if_pos rfl, get_cons_of_eq, get_cons_of_eq]
      rfl
    · rw [List.map_cons, if_neg hk, get_cons_of_ne hk, get_cons_of_ne hk]
      exact ih

theorem keys_modify {d : PyDict α β} {k : α} (f : β → β) :
    keys (d.modify k f) = keys d := by
  unfold PyDict.modify keys
  rw [List.map_map]
  apply List.map_congr_left
  intro p _
  by_cases hk : p.1 = k
  · simp [hk]
  · simp [hk]

theorem mem_modify_iff {d : PyDict α β} {k : α} (f : β → β) {q : α × β} :
    q ∈ d.modify k f ↔
      (∃ v, (k, v) ∈ d ∧ q = (k, f v)) ∨ (q ∈ d ∧ q.1 ≠ k) := by
  unfold PyDict.modify
  rw [List.mem_map]
  constructor
  · rintro ⟨p, hp, hq⟩
    by_cases hk : p.1 = k
    · rw [if_pos hk] at hq
      exact Or.inl ⟨p.2, by rw [← hk]; exact hq ▸ ⟨hp, hq.symm ▸ rfl⟩⟩
    · rw [if_neg hk] at hq
      exact Or.inr ⟨hq ▸ hp, hq ▸ hk⟩
  · rintro (⟨v, hv, hq⟩ | ⟨hq, hqk⟩)
    · exact ⟨(k, v), hv, by rw [hq]; simp⟩
    · exact ⟨q, hq, by rw [if_neg hqk]⟩

theorem values_append {d₁ d₂ : PyDict α β} :
    values (d₁ ++ d₂) = values d₁ ++ values d₂ :=
  List.map_append _ _ _

theorem mem_values {d : PyDict α β} {v : β} :
    v ∈ values d ↔ ∃ p ∈ d, p.2 = v := by
  simp [values, List.mem_map]

theorem mem_values_del {d : PyDict α β} {k : α} (kf : β → α)
    (hk : ∀ p ∈ d, p.1 = kf p.2) {v : β} :
    v ∈ values (del d k) ↔ v ∈ values d ∧ kf v ≠ k := by
  constructor
  · intro h
    rcases mem_values.mp h with ⟨p, hp, hpv⟩
    rcases mem_del.mp hp with ⟨hpd, hpk⟩
    refine ⟨mem_values.mpr ⟨p, hpd, hpv⟩, ?_⟩
    rw [← hpv, ← hk p hpd]; exact hpk
  · rintro ⟨h, hne⟩
    rcases mem_values.mp h with ⟨p, hp, hpv⟩
    exact mem_values.mpr ⟨p, mem_del.mpr ⟨hp, by rw [hk p hp, hpv]; exact hne⟩, hpv⟩

theorem sum_map_values_del {d : PyDict α β} {k : α} {v : β} (f : β → Int)
    (hnd : (keys d).Nodup) (hmem : (k, v) ∈ d) :
    ((values (del d k)).map f).sum = ((values d).map f).sum - f v := by
  induction d with
  | nil => simp at hmem
  | cons hd tl ih =>
    rcases hd with ⟨a, b⟩
    simp only [keys, List.map_cons, List.nodup_cons] at hnd
    by_cases hk : a = k
    · subst hk
      have hv : b = v := by
        rcases List.mem_cons.mp hmem with h | h
        · simp_all
        · exact absurd (List.mem_map.mpr ⟨(a, v), h, rfl⟩) hnd.1
      subst hv
      have htl : del tl a = tl :=
        del_eq_self fun p hp hpk =>
          hnd.1 (by rw [← hpk]; exact List.mem_map.mpr ⟨p, hp, rfl⟩)
      rw [del_cons_of_eq, htl]
      simp [values]
    · have hmem' : (k, v) ∈ tl := by
        rcases List.mem_cons.mp hmem with h | h
        · exact absurd (congrArg Prod.fst h).symm hk
        · exact h
      rw [del_cons_of_ne hk]
      simp only [values, List.map_cons, List.sum_cons]
      have := ih hnd.2 hmem'
      simp only [values] at this
      rw [this]
      ring

end PyDict

theorem index_disjoint_of_disjointS {a b : Slice} {i : Int}
    (h : disjointS a b) (ha : inSlice i a) : ¬ inSlice i b := by
  rcases ha with ⟨ha1, ha2⟩
  rintro ⟨hb1, hb2⟩
  rcases h with h | h <;> omega

theorem disjointS_of_index_disjoint {a b : Slice}
    (ha : a.start < a.stop) (hb : b.start < b.stop)
    (h : ∀ i : Int, inSlice i a → ¬ inSlice i b) : disjointS a b := by
  by_contra hc
  unfold disjointS at hc
  push_neg at hc
  rcases le_total a.start b.start with hle | hle
  · exact h b.start ⟨hle, hc.1⟩ ⟨le_refl _, hb⟩
  · exact h a.start ⟨le_refl _, ha⟩ ⟨hle, hc.2⟩

theorem disjointS_of_separated {a b : Slice} (h : separated a b) : disjointS a b := by
  rcases h with h | h
  · exact Or.inl (le_of_lt h)
  · exact Or.inr (le_of_lt h)

theorem separated_symm {a b : Slice} (h : separated a b) : separated b a :=
  h.symm

namespace SliceMerger

theorem WF.empty : WF SliceMerger.empty := by
  constructor <;> simp [SliceMerger.empty, ranges, PyDict.values, PyDict.keys]

theorem WF.mem_starts {m : SliceMerger} (h : WF m) {s : Slice} :
    s ∈ m.ranges ↔ (s.start, s) ∈ m.slice_starts := by
  constructor
  · intro hs
    rcases PyDict.mem_values.mp hs with ⟨p, hp, hpv⟩
    have hkey := h.starts_key p hp
    have hps : (s.start, s) = p := by rw [← hpv, ← hkey]
    rw [hps]; exact hp
  · intro hs
    exact PyDict.mem_values.mpr ⟨(s.start, s), hs, rfl⟩

theorem WF.mem_stops {m : SliceMerger} (h : WF m) {s : Slice} :
    s ∈ m.ranges ↔ (s.stop, s) ∈ m.slice_stops := by
  rw [h.mem_iff]
  constructor
  · intro hs
    rcases PyDict.mem_values.mp hs with ⟨p, hp, hpv⟩
    have hkey := h.stops_key p hp
    have hps : (s.stop, s) = p := by rw [← hpv, ← hkey]
    rw [hps]; exact hp
  · intro hs
    exact PyDict.mem_values.mpr ⟨(s.stop, s), hs, rfl⟩

theorem WF.start_inj {m : SliceMerger} (h : WF m) {s₁ s₂ : Slice}
    (h₁ : s₁ ∈ m.ranges) (h₂ : s₂ ∈ m.ranges) (he : s₁.start = s₂.start) :
    s₁ = s₂ := by
  by_contra hne
  have hv₁ := h.valid s₁ h₁
  have hv₂ := h.valid s₂ h₂
  rcases h.sep s₁ h₁ s₂ h₂ hne with hs | hs <;> omega

theorem WF.stop_inj {m : SliceMerger} (h : WF m) {s₁ s₂ : Slice}
    (h₁ : s₁ ∈ m.ranges) (h₂ : s₂ ∈ m.ranges) (he : s₁.stop = s₂.stop) :
    s₁ = s₂ := by
  by_contra hne
  have hv₁ := h.valid s₁ h₁
  have hv₂ := h.valid s₂ h₂
  rcases h.sep s₁ h₁ s₂ h₂ hne with hs | hs <;> omega

theorem WF.get_stops_some {m : SliceMerger} (h : WF m) {k : Int} {s : Slice}
    (hg : m.slice_stops.get k = some s) : s ∈ m.ranges ∧ s.stop = k := by
  have hm := PyDict.get_mem hg
  have hk := h.stops_key _ hm
  exact ⟨h.mem_iff s |>.mpr (PyDict.mem_values.mpr ⟨(k, s), hm, rfl⟩), hk.symm⟩

theorem WF.get_starts_some {m : SliceMerger} (h : WF m) {k : Int} {s : Slice}
    (hg : m.slice_starts.get k = some s) : s ∈ m.ranges ∧ s.start = k := by
  have hm := PyDict.get_mem hg
  have hk := h.starts_key _ hm
  exact ⟨PyDict.mem_values.mpr ⟨(k, s), hm, rfl⟩, hk.symm⟩

theorem WF.get_stops_none {m : SliceMerger} (h : WF m) {k : Int}
    (hg : m.slice_stops.get k = none) : ∀ s ∈ m.ranges, s.stop ≠ k := by
  intro s hs
  have := PyDict.get_eq_none_iff.mp hg (s.stop, s) (h.mem_stops.mp hs)
  simpa using this

theorem WF.get_starts_none {m : SliceMerger} (h : WF m) {k : Int}
    (hg : m.slice_starts.get k = none) : ∀ s ∈ m.ranges, s.start ≠ k := by
  intro s hs
  have := PyDict.get_eq_none_iff.mp hg (s.start, s) (h.mem_starts.mp hs)
  simpa using this

theorem ranges_del_slice {m : SliceMerger} (h : WF m) {s t : Slice} :
    t ∈ (m._del_slice s).ranges ↔ t ∈ m.ranges ∧ t.start ≠ s.start :=
  PyDict.mem_values_del Slice.start h.starts_key

theorem WF.del_slice {m : SliceMerger} (h : WF m) {s : Slice} (hs : s ∈ m.ranges) :
    WF (m._del_slice s) := by
  have hvs : ∀ t : Slice, t ∈ PyDict.values (m._del_slice s).slice_stops ↔
      t ∈ PyDict.values m.slice_stops ∧ t.stop ≠ s.stop :=
    fun t => PyDict.mem_values_del Slice.stop h.stops_key
  constructor
  · intro p hp
    exact h.starts_key p (PyDict.mem_del.mp hp).1
  · intro p hp
    exact h.stops_key p (PyDict.mem_del.mp hp).1
  · exact PyDict.keys_nodup_del h.starts_nodup
  · exact PyDict.keys_nodup_del h.stops_nodup
  · intro t
    rw [ranges_del_slice h, hvs, ← h.mem_iff]
    constructor
    · rintro ⟨ht, hne⟩
      exact ⟨ht, fun he => hne (congrArg Slice.start (h.stop_inj ht hs he))⟩
    · rintro ⟨ht, hne⟩
      exact ⟨ht, fun he => hne (congrArg Slice.stop (h.start_inj ht hs he))⟩
  · intro t ht
    exact h.valid t ((ranges_del_slice h).mp ht).1
  · intro t₁ h₁ t₂ h₂ hne
    exact h.sep t₁ ((ranges_del_slice h).mp h₁).1 t₂ ((ranges_del_slice h).mp h₂).1 hne
  · have hsum := PyDict.sum_map_values_del (f := slice_len) h.starts_nodup
      (h.mem_starts.mp hs)
    show m.total_num - slice_len s = _
    rw [h.total_eq]
    unfold SliceMerger.ranges at *
    exact hsum.symm

theorem covered_del_slice {m : SliceMerger} (h : WF m) {s : Slice}
    (hs : s ∈ m.ranges) (i : Int) :
    (m._del_slice s).covered i ↔ m.covered i ∧ ¬ inSlice i s := by
  unfold SliceMerger.covered
  constructor
  · rintro ⟨t, ht, hit⟩
    rcases (ranges_del_slice h).mp ht with ⟨htm, hne⟩
    have hts : t ≠ s := fun he => hne (congrArg Slice.start he)
    refine ⟨⟨t, htm, hit⟩, ?_⟩
    exact index_disjoint_of_disjointS
      (disjointS_of_separated (h.sep t htm s hs hts)) hit
  · rintro ⟨⟨t, htm, hit⟩, hnis⟩
    have hts : t ≠ s := fun he => hnis (he ▸ hit)
    refine ⟨t, (ranges_del_slice h).mpr ⟨htm, ?_⟩, hit⟩
    exact fun he => hts (h.start_inj htm hs he)

theorem add_slice_starts {m : SliceMerger} (h : WF m) {ts : Slice}
    (hv : ts.start < ts.stop) (hsep : ∀ s ∈ m.ranges, separated s ts) :
    (m._add_slice ts).slice_starts = m.slice_starts ++ [(ts.start, ts)] := by
  apply PyDict.set_fresh
  apply PyDict.get_eq_none_iff.mpr
  intro p hp hpk
  have hpr : p.2 ∈ m.ranges := PyDict.mem_values.mpr ⟨p, hp, rfl⟩
  have hk := h.starts_key p hp
  have hvp := h.valid _ hpr
  rcases hsep _ hpr with hcase | hcase <;> omega

theorem add_slice_stops {m : SliceMerger} (h : WF m) {ts : Slice}
    (hv : ts.start < ts.stop) (hsep : ∀ s ∈ m.ranges, separated s ts) :
    (m._add_slice ts).slice_stops = m.slice_stops ++ [(ts.stop, ts)] := by
  apply PyDict.set_fresh
  apply PyDict.get_eq_none_iff.mpr
  intro p hp hpk
  have hpr : p.2 ∈ m.ranges := h.mem_iff _ |>.mpr (PyDict.mem_values.mpr ⟨p, hp, rfl⟩)
  have hk := h.stops_key p hp
  have hvp := h.valid _ hpr
  rcases hsep _ hpr with hcase | hcase <;> omega

theorem ranges_add_slice {m : SliceMerger} (h : WF m) {ts : Slice}
    (hv : ts.start < ts.stop) (hsep : ∀ s ∈ m.ranges, separated s ts) :
    (m._add_slice ts).ranges = m.ranges ++ [ts] := by
  unfold SliceMerger.ranges
  rw [add_slice_starts h hv hsep, PyDict.values_append]
  rfl

theorem WF.add_slice {m : SliceMerger} (h : WF m) {ts : Slice}
    (hv : ts.start < ts.stop) (hsep : ∀ s ∈ m.ranges, separated s ts) :
    WF (m._add_slice ts) := by
  have hst := add_slice_starts h hv hsep
  have hsp := add_slice_stops h hv hsep
  have hur := ranges_add_slice h hv hsep
  have hknd : ts.start ∉ PyDict.keys m.slice_starts := by
    intro hk
    rcases List.mem_map.mp hk with ⟨p, hp, hpk⟩
    have hpr : p.2 ∈ m.ranges := PyDict.mem_values.mpr ⟨p, hp, rfl⟩
    have hkey := h.starts_key p hp
    have hvp := h.valid _ hpr
    rcases hsep _ hpr with hcase | hcase <;> omega
  have hknd' : ts.stop ∉ PyDict.keys m.slice_stops := by
    intro hk
    rcases List.mem_map.mp hk with ⟨p, hp, hpk⟩
    have hpr : p.2 ∈ m.ranges := h.mem_iff _ |>.mpr (PyDict.mem_values.mpr ⟨p, hp, rfl⟩)
    have hkey := h.stops_key p hp
    have hvp := h.valid _ hpr
    rcases hsep _ hpr with hcase | hcase <;> omega
  have hvsp : PyDict.values (m._add_slice ts).slice_stops =
      PyDict.values m.slice_stops ++ [ts] := by
    rw [hsp, PyDict.values_append]; rfl
  constructor
  · intro p hp
    rw [hst] at hp
    rcases List.mem_append.mp hp with h1 | h1
    · exact h.starts_key p h1
    · simp at h1; rw [h1]
  · intro p hp
    rw [hsp] at hp
    rcases List.mem_append.mp hp with h1 | h1
    · exact h.stops_key p h1
    · simp at h1; rw [h1]
  · rw [hst]
    unfold PyDict.keys
    rw [List.map_append]
    refine h.starts_nodup.append (List.nodup_singleton _) ?_
    intro a ha hb
    simp only [List.map_cons, List.map_nil, List.mem_singleton] at hb
    rw [hb] at ha
    exact hknd ha
  · rw [hsp]
    unfold PyDict.keys
    rw [List.map_append]
    refine h.stops_nodup.append (List.nodup_singleton _) ?_
    intro a ha hb
    simp only [List.map_cons, List.map_nil, List.mem_singleton] at hb
    rw [hb] at ha
    exact hknd' ha
  · intro t
    rw [hur, hvsp, List.mem_append, List.mem_append, ← h.mem_iff]
  · intro t ht
    rw [hur] at ht
    rcases List.mem_append.mp ht with h1 | h1
    · exact h.valid t h1
    · simp at h1; rw [h1]; exact hv
  · intro t₁ h₁ t₂ h₂ hne
    rw [hur] at h₁ h₂
    rcases List.mem_append.mp h₁ with ha | ha <;>
      rcases List.mem_append.mp h₂ with hb | hb
    · exact h.sep t₁ ha t₂ hb hne
    · simp at hb; rw [hb]; exact hsep t₁ ha
    · simp at ha; rw [ha]; exact separated_symm (hsep t₂ hb)
    · simp at ha hb; rw [ha, hb] at hne; exact absurd rfl hne
  · show m.total_num + slice_len ts = _
    rw [hur, h.total_eq, List.map_append, List.sum_append]
    simp

theorem covered_add_slice {m : SliceMerger} (h : WF m) {ts : Slice}
    (hv : ts.start < ts.stop) (hsep : ∀ s ∈ m.ranges, separated s ts) (i : Int) :
    (m._add_slice ts).covered i ↔ m.covered i ∨ inSlice i ts := by
  unfold SliceMerger.covered
  rw [ranges_add_slice h hv hsep]
  constructor
  · rintro ⟨t, htm, hit⟩
    rcases List.mem_append.mp htm with h1 | h1
    · exact Or.inl ⟨t, h1, hit⟩
    · simp at h1; rw [h1] at hit; exact Or.inr hit
  · rintro (⟨t, htm, hit⟩ | hit)
    · exact ⟨t, List.mem_append.mpr (Or.inl htm), hit⟩
    · exact ⟨ts, List.mem_append.mpr (Or.inr (by simp)), hit⟩

theorem merge_slices_fuel_spec :
    ∀ (fuel : Nat) (m : SliceMerger) (ts : Slice), WF m → ts.start < ts.stop →
    (∀ i : Int, m.covered i → ¬ inSlice i ts) →
    m.slice_starts.length < fuel →
    WF (merge_slices_fuel fuel m ts) ∧
    (∀ i : Int, (merge_slices_fuel fuel m ts).covered i ↔ m.covered i ∨ inSlice i ts) := by
  intro fuel
  induction fuel with
  | zero => intro m ts _ _ _ hlen; omega
  | succ fuel ih =>
    intro m ts hwf hv hdis hlen
    simp only [merge_slices_fuel]
    cases hget : m.slice_stops.get ts.start with
    | some prev =>
      obtain ⟨hpm, hpstop⟩ := hwf.get_stops_some hget
      have hwf' := hwf.del_slice hpm
      have hcov' := covered_del_slice hwf hpm
      have hvp := hwf.valid _ hpm
      have hv' : (⟨prev.start, ts.stop⟩ : Slice).start < (⟨prev.start, ts.stop⟩ : Slice).stop := by
        simp only; omega
      have hdis' : ∀ i : Int, (m._del_slice prev).covered i →
          ¬ inSlice i ⟨prev.start, ts.stop⟩ := by
        intro i hci hit
        rcases (hcov' i).mp hci with ⟨hcm, hnp⟩
        have hits : inSlice i ts := by
          simp only [inSlice] at *
          omega
        exact hdis i hcm hits
      have hlen' : (m._del_slice prev).slice_starts.length < fuel := by
        have hlt := PyDict.length_del_lt (d := m.slice_starts) (k := prev.start)
          ⟨(prev.start, prev), hwf.mem_starts.mp hpm, rfl⟩
        have : (m._del_slice prev).slice_starts.length =
            (PyDict.del m.slice_starts prev.start).length := rfl
        omega
      obtain ⟨hwfr, hcovr⟩ := ih _ _ hwf' hv' hdis' hlen'
      refine ⟨hwfr, ?_⟩
      intro i
      rw [hcovr i, hcov' i]
      have hpcov : inSlice i prev → m.covered i := fun hip => ⟨prev, hpm, hip⟩
      have hN : inSlice i ⟨prev.start, ts.stop⟩ ↔ inSlice i prev ∨ inSlice i ts := by
        simp only [inSlice]
        omega
      rw [hN]
      tauto
    | none =>
      cases hget2 : m.slice_starts.get ts.stop with
      | some next =>
        obtain ⟨hnm, hnstart⟩ := hwf.get_starts_some hget2
        have hwf' := hwf.del_slice hnm
        have hcov' := covered_del_slice hwf hnm
        have hvn := hwf.valid _ hnm
        have hv' : (⟨ts.start, next.stop⟩ : Slice).start < (⟨ts.start, next.stop⟩ : Slice).stop := by
          simp only; omega
        have hdis' : ∀ i : Int, (m._del_slice next).covered i →
            ¬ inSlice i ⟨ts.start, next.stop⟩ := by
          intro i hci hit
          rcases (hcov' i).mp hci with ⟨hcm, hnn⟩
          have hits : inSlice i ts := by
            simp only [inSlice] at *
            omega
          exact hdis i hcm hits
        have hlen' : (m._del_slice next).slice_starts.length < fuel := by
          have hlt := PyDict.length_del_lt (d := m.slice_starts) (k := next.start)
            ⟨(next.start, next), hwf.mem_starts.mp hnm, rfl⟩
          have : (m._del_slice next).slice_starts.length =
              (PyDict.del m.slice_starts next.start).length := rfl
          omega
        obtain ⟨hwfr, hcovr⟩ := ih _ _ hwf' hv' hdis' hlen'
        refine ⟨hwfr, ?_⟩
        intro i
        rw [hcovr i, hcov' i]
        have hncov : inSlice i next → m.covered i := fun hin => ⟨next, hnm, hin⟩
        have hN : inSlice i ⟨ts.start, next.stop⟩ ↔ inSlice i next ∨ inSlice i ts := by
          simp only [inSlice]
          omega
        rw [hN]
        tauto
      | none =>
        have hsep : ∀ s ∈ m.ranges, separated s ts := by
          intro s hsm
          have hvs := hwf.valid s hsm
          have hdisj : disjointS s ts :=
            disjointS_of_index_disjoint hvs hv
              (fun i his => hdis i ⟨s, hsm, his⟩)
          have hne1 := hwf.get_stops_none hget s hsm
          have hne2 := hwf.get_starts_none hget2 s hsm
          simp only [disjointS, separated] at *
          omega
        exact ⟨hwf.add_slice hv hsep, covered_add_slice hwf hv hsep⟩

theorem merge_slices_spec {m : SliceMerger} (hwf : WF m) {ts : Slice}
    (hv : ts.start < ts.stop) (hdis : ∀ i : Int, m.covered i → ¬ inSlice i ts) :
    WF (m.merge_slices ts) ∧
    (∀ i : Int, (m.merge_slices ts).covered i ↔ m.covered i ∨ inSlice i ts) :=
  merge_slices_fuel_spec _ m ts hwf hv hdis (Nat.lt_succ_self _)

theorem merge_slices_spec' {m : SliceMerger} (hwf : WF m) {ts : Slice}
    (hv : ts.start < ts.stop) (hdis : ∀ s ∈ m.ranges, disjointS s ts) :
    WF (m.merge_slices ts) ∧
    (∀ i : Int, (m.merge_slices ts).covered i ↔ m.covered i ∨ inSlice i ts) :=
  merge_slices_spec hwf hv
    (fun i hc hit => by
      rcases hc with ⟨s, hsm, his⟩
      exact index_disjoint_of_disjointS (hdis s hsm) his hit)

theorem extract_at_most_spec {m : SliceMerger} (hwf : WF m) {s : Slice}
    (hs : s ∈ m.ranges) {bs : Int} (hbs : 1 ≤ bs) {r : Slice} {m' : SliceMerger}
    (heq : m._extract_at_most s bs = (r, m')) :
    r = ⟨s.start, s.start + min (slice_len s) bs⟩ ∧ WF m' ∧
    (∀ i : Int, m'.covered i ↔ m.covered i ∧ ¬ inSlice i r) ∧
    m'.total_num = m.total_num - min (slice_len s) bs := by
  have hvs := hwf.valid s hs
  have hwfd := hwf.del_slice hs
  have hcovd := covered_del_slice hwf hs
  have htotd : (m._del_slice s).total_num = m.total_num - slice_len s := rfl
  unfold SliceMerger._extract_at_most at heq
  by_cases hlt : bs < slice_len s
  · rw [if_pos hlt] at heq
    obtain ⟨hr, hm'⟩ := Prod.mk.injEq _ _ _ _ ▸ heq
    have hmin : min (slice_len s) bs = bs := min_eq_right (le_of_lt hlt)
    have hrem_valid : (⟨s.start + bs, s.stop⟩ : Slice).start <
        (⟨s.start + bs, s.stop⟩ : Slice).stop := by
      simp only
      unfold slice_len at hlt
      omega
    have hrem_sep : ∀ t ∈ (m._del_slice s).ranges,
        separated t ⟨s.start + bs, s.stop⟩ := by
      intro t ht
      rcases (ranges_del_slice hwf).mp ht with ⟨htm, hne⟩
      have hts : t ≠ s := fun he => hne (congrArg Slice.start he)
      have hsep := hwf.sep t htm s hs hts
      have hvt := hwf.valid t htm
      simp only [separated] at *
      omega
    obtain hwfa := hwfd.add_slice hrem_valid hrem_sep
    have hcova := covered_add_slice hwfd hrem_valid hrem_sep
    subst hr hm'
    refine ⟨by rw [hmin], hwfa, ?_, ?_⟩
    · intro i
      rw [hcova i, hcovd i]
      have hS : inSlice i s ↔
          inSlice i ⟨s.start, s.start + bs⟩ ∨ inSlice i ⟨s.start + bs, s.stop⟩ := by
        simp only [inSlice]
        unfold slice_len at hlt
        omega
      have hRC : inSlice i ⟨s.start + bs, s.stop⟩ → m.covered i := by
        intro hR
        refine ⟨s, hs, ?_⟩
        simp only [inSlice] at *
        omega
      have hRP : inSlice i ⟨s.start + bs, s.stop⟩ →
          ¬ inSlice i ⟨s.start, s.start + bs⟩ := by
        simp only [inSlice]
        omega
      rw [hS]
      tauto
    · show (m._del_slice s).total_num + slice_len ⟨s.start + bs, s.stop⟩ = _
      rw [htotd, hmin]
      unfold slice_len
      simp only
      ring
  · rw [if_neg hlt] at heq
    obtain ⟨hr, hm'⟩ := Prod.mk.injEq _ _ _ _ ▸ heq
    have hmin : min (slice_len s) bs = slice_len s := min_eq_left (by omega)
    have hse : (⟨s.start, s.start + slice_len s⟩ : Slice) = s := by
      unfold slice_len
      cases s with
      | mk a b =>
        have hab : a + (b - a) = b := by ring
        rw [hab]
    subst hr hm'
    refine ⟨by rw [hmin, hse], hwfd, ?_, ?_⟩
    · intro i
      exact hcovd i
    · rw [htotd, hmin]

theorem head_mem_ranges {m : SliceMerger} (hwf : WF m) {p : Int × Slice}
    {tl : PyDict Int Slice} (h : m.slice_starts = p :: tl) :
    p.2 ∈ m.ranges ∧ p = (p.2.start, p.2) := by
  have hp : p ∈ m.slice_starts := by rw [h]; exact List.mem_cons_self _ _
  have hk := hwf.starts_key p hp
  constructor
  · exact PyDict.mem_values.mpr ⟨p, hp, rfl⟩
  · rcases p with ⟨a, b⟩
    simp only at hk
    rw [hk]

theorem get_at_most_none_iff {m : SliceMerger} {bs : Int} :
    m.get_at_most bs = none ↔ m.slice_starts = [] := by
  unfold SliceMerger.get_at_most
  cases m.slice_starts <;> simp

theorem get_at_most_spec {m : SliceMerger} (hwf : WF m) {bs : Int} (hbs : 1 ≤ bs)
    {r : Slice} {m' : SliceMerger} (h : m.get_at_most bs = some (r, m')) :
    ∃ s ∈ m.ranges,
      (∃ tl, m.slice_starts = (s.start, s) :: tl) ∧
      r = ⟨s.start, s.start + min (slice_len s) bs⟩ ∧ WF m' ∧
      (∀ i : Int, m'.covered i ↔ m.covered i ∧ ¬ inSlice i r) ∧
      m'.total_num = m.total_num - min (slice_len s) bs := by
  unfold SliceMerger.get_at_most at h
  cases hst : m.slice_starts with
  | nil => rw [hst] at h; exact absurd h (by simp)
  | cons p tl =>
    rw [hst] at h
    simp only [Option.some.injEq] at h
    obtain ⟨hpm, hpe⟩ := head_mem_ranges hwf hst
    refine ⟨p.2, hpm, ⟨tl, by rw [← hpe]⟩, ?_⟩
    exact extract_at_most_spec hwf hpm hbs h

theorem get_exactly_none_iff {m : SliceMerger} {bs : Int} :
    m.get_exactly bs = none ↔ ∀ s ∈ m.ranges, slice_len s < bs := by
  unfold SliceMerger.get_exactly
  cases hf : m.slice_starts.find? (fun p => decide (bs ≤ slice_len p.2)) with
  | none =>
    simp only [true_iff]
    intro s hsm
    rcases PyDict.mem_values.mp hsm with ⟨p, hp, hpv⟩
    have := List.find?_eq_none.mp hf p hp
    simp only [decide_eq_true_eq] at this
    rw [← hpv]
    omega
  | some p =>
    simp only [reduceCtorEq, false_iff, not_forall]
    have hp := List.mem_of_find?_eq_some hf
    have hple := List.find?_some hf
    simp only [decide_eq_true_eq] at hple
    push_neg
    exact ⟨p.2, PyDict.mem_values.mpr ⟨p, hp, rfl⟩, by omega⟩

theorem get_exactly_spec {m : SliceMerger} (hwf : WF m) {bs : Int} (hbs : 1 ≤ bs)
    {r : Slice} {m' : SliceMerger} (h : m.get_exactly bs = some (r, m')) :
    ∃ s ∈ m.ranges,
      bs ≤ slice_len s ∧
      (∃ l₁ l₂, m.slice_starts = l₁ ++ (s.start, s) :: l₂ ∧
        ∀ q ∈ l₁, slice_len q.2 < bs) ∧
      r = ⟨s.start, s.start + bs⟩ ∧ WF m' ∧
      (∀ i : Int, m'.covered i ↔ m.covered i ∧ ¬ inSlice i r) ∧
      m'.total_num = m.total_num - bs := by
  unfold SliceMerger.get_exactly at h
  cases hf : m.slice_starts.find? (fun p => decide (bs ≤ slice_len p.2)) with
  | none => rw [hf] at h; exact absurd h (by simp)
  | some p =>
    rw [hf] at h
    simp only [Option.some.injEq] at h
    have hple := List.find?_some hf
    simp only [decide_eq_true_eq] at hple
    have hp := List.mem_of_find?_eq_some hf
    have hpm : p.2 ∈ m.ranges := PyDict.mem_values.mpr ⟨p, hp, rfl⟩
    have hpe : p = (p.2.start, p.2) := by
      have hk := hwf.starts_key p hp
      rcases p with ⟨a, b⟩
      simp only at hk
      rw [hk]
    obtain ⟨hdec, l₁, l₂, hsplit, hfirst⟩ := List.find?_eq_some.mp hf
    have hmin : min (slice_len p.2) bs = bs := min_eq_right hple
    obtain ⟨hr, hwf', hcov', htot'⟩ := extract_at_most_spec hwf hpm hbs h
    refine ⟨p.2, hpm, hple, ⟨l₁, l₂, by rw [hsplit, ← hpe], ?_⟩, ?_, hwf', ?_, ?_⟩
    · intro q hq
      have := hfirst q hq
      simp only [Bool.not_eq_true', decide_eq_false_iff_not] at this
      omega
    · rw [hr, hmin]
    · intro i
      rw [hcov' i, hr, hmin]
    · rw [htot', hmin]

theorem foldl_merge_spec :
    ∀ (sl : List Slice) (m : SliceMerger), WF m →
    (∀ s ∈ sl, s.start < s.stop) →
    sl.Pairwise disjointS →
    (∀ s ∈ sl, ∀ i : Int, m.covered i → ¬ inSlice i s) →
    WF (sl.foldl SliceMerger.merge_slices m) ∧
    (∀ i : Int, (sl.foldl SliceMerger.merge_slices m).covered i ↔
      m.covered i ∨ ∃ s ∈ sl, inSlice i s) := by
  intro sl
  induction sl with
  | nil =>
    intro m hwf _ _ _
    exact ⟨hwf, by simp⟩
  | cons s rest ih =>
    intro m hwf hv hpw hdis
    simp only [List.foldl_cons]
    obtain ⟨hwf1, hcov1⟩ := merge_slices_spec hwf (hv s (by simp)) (hdis s (by simp))
    have hsd := (List.pairwise_cons.mp hpw).1
    have hpw' := (List.pairwise_cons.mp hpw).2
    obtain ⟨hwfr, hcovr⟩ := ih _ hwf1
      (fun t ht => hv t (List.mem_cons_of_mem _ ht)) hpw'
      (fun t ht i hc hit => by
        rcases (hcov1 i).mp hc with hcm | his
        · exact hdis t (List.mem_cons_of_mem _ ht) i hcm hit
        · exact index_disjoint_of_disjointS (hsd t ht) his hit)
    refine ⟨hwfr, fun i => ?_⟩
    rw [hcovr i, hcov1 i]
    constructor
    · rintro ((hcm | his) | ⟨t, htm, hit⟩)
      · exact Or.inl hcm
      · exact Or.inr ⟨s, by simp, his⟩
      · exact Or.inr ⟨t, List.mem_cons_of_mem _ htm, hit⟩
    · rintro (hcm | ⟨t, htm, hit⟩)
      · exact Or.inl (Or.inl hcm)
      · rcases List.mem_cons.mp htm with he | htr
        · rw [he] at hit; exact Or.inl (Or.inr hit)
        · exact Or.inr ⟨t, htr, hit⟩

theorem empty_not_covered (i : Int) : ¬ SliceMerger.empty.covered i := by
  rintro ⟨s, hsm, _⟩
  simp [SliceMerger.empty, SliceMerger.ranges, PyDict.values] at hsm

theorem WF.applyOp {m : SliceMerger} (hwf : WF m) {op : MergerOp}
    (hv : opValid m op) : WF (SliceMerger.applyOp m op) := by
  cases op with
  | ins s =>
    exact (merge_slices_spec' hwf hv.1 hv.2).1
  | getAtMost n =>
    show WF (match m.get_at_most n with
      | some (_, m') => m'
      | none => m)
    cases hg : m.get_at_most n with
    | none => exact hwf
    | some rm =>
      rcases rm with ⟨r, m'⟩
      obtain ⟨s, _, _, _, hwf', _⟩ := get_at_most_spec hwf hv hg
      exact hwf'
  | getExactly n =>
    show WF (match m.get_exactly n with
      | some (_, m') => m'
      | none => m)
    cases hg : m.get_exactly n with
    | none => exact hwf
    | some rm =>
      rcases rm with ⟨r, m'⟩
      obtain ⟨s, _, _, _, _, hwf', _⟩ := get_exactly_spec hwf hv hg
      exact hwf'

theorem WF.of_reachable {m : SliceMerger} (h : ReachableM m) : WF m := by
  induction h with
  | empty => exact WF.empty
  | step _ hv ih => exact ih.applyOp hv

example :
    (SliceMerger.empty.merge_slices ⟨0, 3⟩).merge_slices ⟨3, 5⟩ =
      ⟨[(0, ⟨0, 5⟩)], [(5, ⟨0, 5⟩)], 5⟩ := by decide

example :
    ((SliceMerger.empty.merge_slices ⟨0, 2⟩).merge_slices ⟨5, 9⟩).get_exactly 3 =
      some (⟨5, 8⟩, ⟨[(0, ⟨0, 2⟩), (8, ⟨8, 9⟩)], [(2, ⟨0, 2⟩), (9, ⟨8, 9⟩)], 3⟩) := by
  decide

end SliceMerger

theorem countStop_append (l₁ l₂ : List BEvent) :
    countStop (l₁ ++ l₂) = countStop l₁ + countStop l₂ :=
  List.count_append _ _ _

theorem countResume_append (l₁ l₂ : List BEvent) :
    countResume (l₁ ++ l₂) = countResume l₁ + countResume l₂ :=
  List.count_append _ _ _

theorem countReady_append (l₁ l₂ : List BEvent) :
    countReady (l₁ ++ l₂) = countReady l₁ + countReady l₂ := by
  simp [countReady, List.filter_append]

theorem countStop_cons_ready (i : Nat) (l : List BEvent) :
    countStop (BEvent.training_batches_available i :: l) = countStop l := by
  simp [countStop, List.count_cons]

theorem countResume_cons_ready (i : Nat) (l : List BEvent) :
    countResume (BEvent.training_batches_available i :: l) = countResume l := by
  simp [countResume, List.count_cons]

theorem countReady_cons_ready (i : Nat) (l : List BEvent) :
    countReady (BEvent.training_batches_available i :: l) = countReady l + 1 := by
  simp [countReady, List.filter_cons, isReady]

theorem releaseTrajTensors_frame (b : Batcher) (idx : Nat) :
    (releaseTrajTensors b idx).1.cfg = b.cfg ∧
    (releaseTrajTensors b idx).1.available_batches = b.available_batches ∧
    (releaseTrajTensors b idx).1.slices_for_training = b.slices_for_training ∧
    (releaseTrajTensors b idx).1.training_batches = b.training_batches ∧
    (releaseTrajTensors b idx).1.traj_per_training_iteration =
      b.traj_per_training_iteration ∧
    (releaseTrajTensors b idx).1.traj_tensors_to_release =
      b.traj_tensors_to_release.set idx [] := by
  unfold releaseTrajTensors
  cases hb : b.cfg.batched_sampling <;> simp [hb]

theorem releaseTrajTensors_events (b : Batcher) (idx : Nat) :
    ∀ e ∈ (releaseTrajTensors b idx).2,
      (∃ d l, e = BEvent.put_many d l) ∨ (∃ d l, e = BEvent.put_many_slices d l) ∨
      (∃ it, e = BEvent.trajectory_buffers_available it) := by
  intro e he
  unfold releaseTrajTensors at he
  cases hb : b.cfg.batched_sampling <;> rw [hb] at he <;> simp only [] at he
  · simp only [Bool.false_eq_true, if_false] at he
    rcases List.mem_append.mp he with h1 | h1
    · rcases List.mem_map.mp h1 with ⟨p, _, hpe⟩
      exact Or.inl ⟨p.1, _, hpe.symm⟩
    · simp only [List.mem_singleton] at h1
      exact Or.inr (Or.inr ⟨_, h1⟩)
  · simp only [if_true] at he
    rcases List.mem_append.mp he with h1 | h1
    · rcases List.mem_map.mp h1 with ⟨p, _, hpe⟩
      exact Or.inr (Or.inl ⟨p.1, _, hpe.symm⟩)
    · simp only [List.mem_singleton] at h1
      exact Or.inr (Or.inr ⟨_, h1⟩)

theorem releaseTrajTensors_count (b : Batcher) (idx : Nat) :
    countStop (releaseTrajTensors b idx).2 = 0 ∧
    countResume (releaseTrajTensors b idx).2 = 0 ∧
    countReady (releaseTrajTensors b idx).2 = 0 := by
  refine ⟨List.count_eq_zero.mpr ?_, List.count_eq_zero.mpr ?_, ?_⟩
  · intro hmem
    rcases releaseTrajTensors_events b idx _ hmem with ⟨d, l, h⟩ | ⟨d, l, h⟩ | ⟨it, h⟩ <;>
      exact BEvent.noConfusion h
  · intro hmem
    rcases releaseTrajTensors_events b idx _ hmem with ⟨d, l, h⟩ | ⟨d, l, h⟩ | ⟨it, h⟩ <;>
      exact BEvent.noConfusion h
  · unfold countReady
    rw [List.length_eq_zero]
    rw [List.filter_eq_nil_iff]
    intro e he
    rcases releaseTrajTensors_events b idx _ he with ⟨d, l, h⟩ | ⟨d, l, h⟩ | ⟨it, h⟩ <;>
      rw [h] <;> simp [isReady]

theorem maybeEnqueueLoop_nil (sh : Nat → List Device) (fuel k : Nat) (b : Batcher)
    (h : b.available_batches = []) : maybeEnqueueLoop sh fuel k b = (b, []) := by
  cases fuel with
  | zero => rfl
  | succ fuel => simp [maybeEnqueueLoop, h]

/-- C7: whenever the batch-assembly pass runs with the total available records
across all locations below `B`, or with no free batch buffer, it extracts
nothing: the whole batcher state (in particular every location's RangeSet) is
left unchanged and no event is emitted. -/
theorem C7_insufficient_data_defers (sh : Nat → List Device) (b : Batcher)
    (h : sumTotals b.slices_for_training < b.traj_per_training_iteration ∨
      b.available_batches = []) :
    maybeEnqueueNewTrainingBatches sh b = (b, []) := by
  unfold maybeEnqueueNewTrainingBatches
  cases hav : b.available_batches with
  | nil => exact maybeEnqueueLoop_nil sh _ 0 b hav
  | cons i rest =>
    have htot : sumTotals b.slices_for_training < b.traj_per_training_iteration := by
      rcases h with h | h
      · exact h
      · rw [hav] at h; cases h
    simp [maybeEnqueueLoop, hav, htot]

/-- Witness for C7: the freshly initialized batcher (no data yet) defers. -/
theorem C7_insufficient_data_defers_witness :
    maybeEnqueueNewTrainingBatches (fun _ => ["cpu"])
      (Batcher.init ⟨false, false⟩ 4 2 ["cpu"] 2) =
    (Batcher.init ⟨false, false⟩ 4 2 ["cpu"] 2, []) :=
  C7_insufficient_data_defers _ _ (Or.inl (by decide))

theorem countStop_stop_list (c : Prop) [Decidable c] :
    countStop (if c then [BEvent.stop_experience_collection] else []) =
      if c then 1 else 0 := by
  by_cases h : c <;> simp [h, countStop]

theorem countReady_stop_list (c : Prop) [Decidable c] :
    countReady (if c then [BEvent.stop_experience_collection] else []) = 0 := by
  by_cases h : c <;> simp [h, countReady, isReady]

theorem countResume_stop_list (c : Prop) [Decidable c] :
    countResume (if c then [BEvent.stop_experience_collection] else []) = 0 := by
  by_cases h : c <;> simp [h, countResume]

theorem maybeEnqueueLoop_stop_count (sh : Nat → List Device) :
    ∀ (fuel k : Nat) (b : Batcher), b.cfg.async_rl = true →
    (countStop (maybeEnqueueLoop sh fuel k b).2 =
      if (maybeEnqueueLoop sh fuel k b).1.available_batches = [] ∧
          0 < countReady (maybeEnqueueLoop sh fuel k b).2 then 1 else 0) ∧
    ((maybeEnqueueLoop sh fuel k b).1.available_batches = [] →
      b.available_batches = [] ∨ 0 < countReady (maybeEnqueueLoop sh fuel k b).2) := by
  intro fuel
  induction fuel with
  | zero =>
    intro k b _
    refine ⟨?_, fun h => Or.inl h⟩
    simp [maybeEnqueueLoop, countStop, countReady]
  | succ fuel ih =>
    intro k b hasync
    cases hav : b.available_batches with
    | nil =>
      rw [maybeEnqueueLoop_nil sh _ _ b hav]
      refine ⟨?_, fun _ => Or.inl rfl⟩
      simp [countStop, countReady]
    | cons idx rest =>
      by_cases htot : sumTotals b.slices_for_training < b.traj_per_training_iteration
      · have heq : maybeEnqueueLoop sh (fuel + 1) k b = (b, []) := by
          simp [maybeEnqueueLoop, hav, htot]
        rw [heq]
        refine ⟨?_, fun h => ?_⟩
        · simp [countStop, countReady]
        · rw [hav] at h; cases h
      · have hunfold : maybeEnqueueLoop sh (fuel + 1) k b =
            ((maybeEnqueueLoop sh fuel (k + 1)
                (releaseTrajTensors (enqueueMidState sh k b idx rest) idx).1).1,
              BEvent.training_batches_available idx ::
                ((releaseTrajTensors (enqueueMidState sh k b idx rest) idx).2 ++
                (if (releaseTrajTensors (enqueueMidState sh k b idx rest)
                    idx).1.available_batches.isEmpty then
                  [BEvent.stop_experience_collection] else []) ++
                (maybeEnqueueLoop sh fuel (k + 1)
                  (releaseTrajTensors (enqueueMidState sh k b idx rest) idx).1).2)) := by
          simp [maybeEnqueueLoop, hav, htot, hasync, enqueueMidState]
        rw [hunfold]
        have hrelAvail : (releaseTrajTensors (enqueueMidState sh k b idx rest)
            idx).1.available_batches = rest :=
          (releaseTrajTensors_frame _ _).2.1
        have hrelCfg : (releaseTrajTensors (enqueueMidState sh k b idx rest)
            idx).1.cfg = b.cfg :=
          (releaseTrajTensors_frame _ _).1
        have hrelStop : countStop (releaseTrajTensors (enqueueMidState sh k b idx rest)
            idx).2 = 0 := (releaseTrajTensors_count _ _).1
        have hrelReady : countReady (releaseTrajTensors (enqueueMidState sh k b idx rest)
            idx).2 = 0 := (releaseTrajTensors_count _ _).2.2
        cases rest with
        | nil =>
          have hcont := maybeEnqueueLoop_nil sh fuel (k + 1) _ hrelAvail
          rw [hcont]
          have hisE : ((releaseTrajTensors (enqueueMidState sh k b idx [])
              idx).1.available_batches.isEmpty) = true := by
            rw [hrelAvail]; rfl
          rw [hisE]
          refine ⟨?_, fun _ => Or.inr ?_⟩
          · rw [countStop_cons_ready, countStop_append, countStop_append, hrelStop,
              countReady_cons_ready, hrelAvail]
            simp [countStop, countReady]
          · rw [countReady_cons_ready]
            omega
        | cons j rest' =>
          have hisE : ((releaseTrajTensors (enqueueMidState sh k b idx (j :: rest'))
              idx).1.available_batches.isEmpty) = false := by
            rw [hrelAvail]; rfl
          rw [hisE]
          simp only [Bool.false_eq_true, if_false, List.append_nil]
          obtain ⟨ih1, ih2⟩ := ih (k + 1)
            (releaseTrajTensors (enqueueMidState sh k b idx (j :: rest')) idx).1
            (by rw [hrelCfg]; exact hasync)
          refine ⟨?_, fun _ => Or.inr ?_⟩
          · rw [countStop_cons_ready, countStop_append, hrelStop,
              countReady_cons_ready, countReady_append, hrelReady]
            by_cases hfin : (maybeEnqueueLoop sh fuel (k + 1)
                (releaseTrajTensors (enqueueMidState sh k b idx (j :: rest'))
                  idx).1).1.available_batches = []
            · have hpos : 0 < countReady (maybeEnqueueLoop sh fuel (k + 1)
                  (releaseTrajTensors (enqueueMidState sh k b idx (j :: rest'))
                    idx).1).2 := by
                rcases ih2 hfin with h | h
                · rw [hrelAvail] at h; cases h
                · exact h
              rw [ih1]
              simp [hfin, hpos]
            · rw [ih1]
              simp [hfin]
          · rw [countReady_cons_ready]
            omega

theorem SliceMerger.WF.total_nonneg {m : SliceMerger} (h : SliceMerger.WF m) :
    0 ≤ m.total_num := by
  rw [h.total_eq]
  apply List.sum_nonneg
  intro x hx
  rcases List.mem_map.mp hx with ⟨s, hs, hsx⟩
  have := h.valid s hs
  rw [← hsx]
  unfold slice_len
  omega

theorem SliceMerger.WF.len_le_total {m : SliceMerger} (h : SliceMerger.WF m)
    {s : Slice} (hs : s ∈ m.ranges) : slice_len s ≤ m.total_num := by
  rw [h.total_eq]
  exact List.single_le_sum
    (fun x hx => by
      rcases List.mem_map.mp hx with ⟨t, ht, htx⟩
      have := h.valid t ht
      rw [← htx]
      unfold slice_len
      omega)
    _ (List.mem_map.mpr ⟨s, hs, rfl⟩)

theorem SliceMerger.total_eq_zero_of_empty {m : SliceMerger}
    (h : SliceMerger.WF m) (he : m.slice_starts = []) : m.total_num = 0 := by
  rw [h.total_eq]
  unfold SliceMerger.ranges PyDict.values
  rw [he]
  rfl

theorem drainLoop_spec :
    ∀ (fuel : Nat) (m : SliceMerger) (r : Int), SliceMerger.WF m → 0 ≤ r →
    r.toNat < fuel →
    SliceMerger.WF (drainLoop fuel m r).2 ∧
    ((drainLoop fuel m r).1.map slice_len).sum = min r m.total_num ∧
    (drainLoop fuel m r).2.total_num = m.total_num - min r m.total_num ∧
    (∀ s ∈ (drainLoop fuel m r).1, s.start < s.stop) ∧
    (∀ i : Int, (drainLoop fuel m r).2.covered i ↔
      m.covered i ∧ ∀ s ∈ (drainLoop fuel m r).1, ¬ inSlice i s) ∧
    (∀ s ∈ (drainLoop fuel m r).1, ∀ i : Int, inSlice i s → m.covered i) ∧
    (drainLoop fuel m r).1.Pairwise (fun s t => ∀ i : Int, inSlice i s → ¬ inSlice i t) := by
  intro fuel
  induction fuel with
  | zero => intro m r _ _ h; omega
  | succ fuel ih =>
    intro m r hwf hr hfuel
    by_cases hpos : 0 < r
    · cases hga : m.get_at_most r with
      | none =>
        have hempty : m.slice_starts = [] := SliceMerger.get_at_most_none_iff.mp hga
        have htot0 : m.total_num = 0 := SliceMerger.total_eq_zero_of_empty hwf hempty
        simp only [drainLoop, if_pos hpos, hga]
        refine ⟨hwf, ?_, ?_, by simp, ?_, by simp, List.Pairwise.nil⟩
        · simp [htot0]
          omega
        · rw [htot0]
          omega
        · intro i
          simp
      | some rm =>
        rcases rm with ⟨s, m'⟩
        obtain ⟨t, htm, ⟨tl, hstarts⟩, hrform, hwf', hcov', htot'⟩ :=
          SliceMerger.get_at_most_spec hwf (by omega) hga
        have hvt := hwf.valid t htm
        have hlent : 1 ≤ slice_len t := by unfold slice_len; omega
        have hstop : t.stop = t.start + slice_len t := by unfold slice_len; ring
        have hlens : slice_len s = min (slice_len t) r := by
          rw [hrform]
          simp only [slice_len]
          omega
        have hlens1 : 1 ≤ slice_len s := by omega
        have hlensr : slice_len s ≤ r := by omega
        have hltot : slice_len t ≤ m.total_num := hwf.len_le_total htm
        have hlenstot : slice_len s ≤ m.total_num := by omega
        have htotm' : m'.total_num = m.total_num - slice_len s := by
          rw [htot', hlens]
        have hr' : 0 ≤ r - slice_len s := by omega
        have hfuel' : (r - slice_len s).toNat < fuel := by omega
        obtain ⟨ihwf, ihsum, ihtot, ihvalid, ihcov, ihsub, ihpw⟩ :=
          ih m' (r - slice_len s) hwf' hr' hfuel'
        have hsub_s : ∀ i : Int, inSlice i s → m.covered i := by
          intro i hi
          refine ⟨t, htm, ?_⟩
          rw [hrform] at hi
          rcases hi with ⟨h1, h2⟩
          simp only at h1 h2
          constructor
          · exact h1
          · omega
        have hstep : drainLoop (fuel + 1) m r =
            (s :: (drainLoop fuel m' (r - slice_len s)).1,
              (drainLoop fuel m' (r - slice_len s)).2) := by
          simp only [drainLoop, if_pos hpos, hga]
        rw [hstep]
        refine ⟨ihwf, ?_, ?_, ?_, ?_, ?_, ?_⟩
        · simp only [List.map_cons, List.sum_cons]
          rw [ihsum, htotm']
          omega
        · rw [ihtot, htotm']
          omega
        · intro u hu
          rcases List.mem_cons.mp hu with he | hrest
          · rw [he, hrform]
            simp only
            omega
          · exact ihvalid u hrest
        · intro i
          rw [ihcov i, hcov' i]
          constructor
          · rintro ⟨⟨hcm, hns⟩, hall⟩
            refine ⟨hcm, fun u hu => ?_⟩
            rcases List.mem_cons.mp hu with he | hrest
            · rw [he]; exact hns
            · exact hall u hrest
          · rintro ⟨hcm, hall⟩
            exact ⟨⟨hcm, hall s (List.mem_cons_self _ _)⟩,
              fun u hu => hall u (List.mem_cons_of_mem _ hu)⟩
        · intro u hu i hi
          rcases List.mem_cons.mp hu with he | hrest
          · rw [he] at hi; exact hsub_s i hi
          · exact ((hcov' i).mp (ihsub u hrest i hi)).1
        · refine List.Pairwise.cons ?_ ihpw
          intro u hu i his hiu
          have hcovu := ihsub u hu i hiu
          exact ((hcov' i).mp hcovu).2 his
    · have hr0 : r = 0 := by omega
      simp only [drainLoop, if_neg hpos]
      refine ⟨hwf, ?_, ?_, by simp, ?_, by simp, List.Pairwise.nil⟩
      · have := hwf.total_nonneg
        simp [hr0]
        omega
      · have := hwf.total_nonneg
        rw [hr0]
        omega
      · intro i
        simp

theorem totalOf_nonneg {st : PyDict Device SliceMerger}
    (hwf : ∀ p ∈ st, SliceMerger.WF p.2) (d : Device) : 0 ≤ totalOf st d := by
  unfold totalOf
  cases hg : st.get d with
  | none => exact le_refl 0
  | some m => exact (hwf _ (PyDict.get_mem hg)).total_nonneg

theorem sum_totalOf_nonneg {st : PyDict Device SliceMerger}
    (hwf : ∀ p ∈ st, SliceMerger.WF p.2) (devs : List Device) :
    0 ≤ (devs.map (totalOf st)).sum := by
  apply List.sum_nonneg
  intro x hx
  rcases List.mem_map.mp hx with ⟨d, _, hdx⟩
  rw [← hdx]
  exact totalOf_nonneg hwf d

theorem sumTotals_eq_values (st : PyDict Device SliceMerger) :
    sumTotals st = ((PyDict.values st).map SliceMerger.total_num).sum := by
  unfold sumTotals PyDict.values
  rw [List.map_map]
  rfl

theorem assembleOverDevices_spec (B : Int) :
    ∀ (devs : List Device) (st : PyDict Device SliceMerger) (copied : Int)
      (acc : List (Device × Slice)),
    (∀ p ∈ st, SliceMerger.WF p.2) → (PyDict.keys st).Nodup → devs.Nodup →
    0 ≤ copied → copied ≤ B →
    ∃ new : List (Device × Slice),
      (assembleOverDevices B devs st copied acc).2.1 = acc ++ new ∧
      (assembleOverDevices B devs st copied acc).2.2 =
        copied + min (B - copied) ((devs.map (totalOf st)).sum) ∧
      (∀ p ∈ (assembleOverDevices B devs st copied acc).1, SliceMerger.WF p.2) ∧
      PyDict.keys (assembleOverDevices B devs st copied acc).1 = PyDict.keys st ∧
      sumTotals (assembleOverDevices B devs st copied acc).1 =
        sumTotals st - ((assembleOverDevices B devs st copied acc).2.2 - copied) ∧
      ((new.map (fun ds => slice_len ds.2)).sum =
        (assembleOverDevices B devs st copied acc).2.2 - copied) ∧
      (∀ ds ∈ new, ds.1 ∈ devs ∧ ds.2.start < ds.2.stop ∧
        ∀ i : Int, inSlice i ds.2 → coveredAt st ds.1 i) ∧
      (∀ (d : Device) (i : Int),
        coveredAt (assembleOverDevices B devs st copied acc).1 d i ↔
          coveredAt st d i ∧ ¬ taggedIn new d i) ∧
      new.Pairwise (fun p q => p.1 = q.1 → ∀ i : Int, inSlice i p.2 → ¬ inSlice i q.2) := by
  intro devs
  induction devs with
  | nil =>
    intro st copied acc hwf hnd _ hc0 hcB
    have hres : assembleOverDevices B [] st copied acc = (st, acc, copied) := rfl
    refine ⟨[], ?_, ?_, ?_, ?_, ?_, ?_, ?_, ?_, List.Pairwise.nil⟩
    · rw [hres]; simp
    · rw [hres]
      simp only [List.map_nil, List.sum_nil]
      omega
    · rw [hres]; exact hwf
    · rw [hres]
    · rw [hres]
      show sumTotals st = sumTotals st - (copied - copied)
      omega
    · rw [hres]; simp
    · simp
    · intro d i
      rw [hres]
      simp [taggedIn]
  | cons dev devs' ih =>
    intro st copied acc hwf hnd hdevnd hc0 hcB
    have hdevnd' : devs'.Nodup := (List.nodup_cons.mp hdevnd).2
    have hdevnotin : dev ∉ devs' := (List.nodup_cons.mp hdevnd).1
    cases hg : st.get dev with
    | none =>
      have hstep : assembleOverDevices B (dev :: devs') st copied acc =
          assembleOverDevices B devs' st copied acc := by
        simp only [assembleOverDevices, hg]
      rw [hstep]
      obtain ⟨new, h1, h2, h3, h4, h5, h6, h7, h8, h9⟩ :=
        ih st copied acc hwf hnd hdevnd' hc0 hcB
      refine ⟨new, h1, ?_, h3, h4, h5, h6, ?_, h8, h9⟩
      · rw [h2]
        have : totalOf st dev = 0 := by unfold totalOf; rw [hg]
        simp [this]
      · intro ds hds
        obtain ⟨hd1, hd2, hd3⟩ := h7 ds hds
        exact ⟨List.mem_cons_of_mem _ hd1, hd2, hd3⟩
    | some m =>
      have hmwf : SliceMerger.WF m := hwf _ (PyDict.get_mem hg)
      have hr0 : 0 ≤ B - copied := by omega
      have hfuel : (B - copied).toNat < (B - copied).toNat + 1 := Nat.lt_succ_self _
      obtain ⟨dwf, dsum, dtot, dvalid, dcov, dsub, dpw⟩ :=
        drainLoop_spec ((B - copied).toNat + 1) m (B - copied) hmwf hr0 hfuel
      have hmem : ∃ p ∈ st, p.1 = dev := ⟨(dev, m), PyDict.get_mem hg, rfl⟩
      have hstep : assembleOverDevices B (dev :: devs') st copied acc =
          assembleOverDevices B devs'
            (st.set dev (drainLoop ((B - copied).toNat + 1) m (B - copied)).2)
            (copied + (((drainLoop ((B - copied).toNat + 1) m (B - copied)).1.map
              slice_len).sum))
            (acc ++ (drainLoop ((B - copied).toNat + 1) m (B - copied)).1.map
              (fun s => (dev, s))) := by
        simp only [assembleOverDevices, hg]
      rw [hstep]
      have ha : (((drainLoop ((B - copied).toNat + 1) m (B - copied)).1.map
          slice_len).sum) = min (B - copied) m.total_num := dsum
      have ha0 : 0 ≤ min (B - copied) m.total_num :=
        le_min hr0 hmwf.total_nonneg
      have haB : min (B - copied) m.total_num ≤ B - copied := min_le_left _ _
      -- well-formedness of the updated dict
      have hwf' : ∀ p ∈ st.set dev
          (drainLoop ((B - copied).toNat + 1) m (B - copied)).2,
          SliceMerger.WF p.2 := by
        intro p hp
        rcases (PyDict.mem_set_iff hmem).mp hp with he | ⟨hpm, _⟩
        · rw [he]; exact dwf
        · exact hwf p hpm
      have hnd' : (PyDict.keys (st.set dev
          (drainLoop ((B - copied).toNat + 1) m (B - copied)).2)).Nodup := by
        rw [PyDict.keys_set_of_mem hmem]; exact hnd
      obtain ⟨new', h1, h2, h3, h4, h5, h6, h7, h8, h9⟩ :=
        ih (st.set dev (drainLoop ((B - copied).toNat + 1) m (B - copied)).2)
          (copied + min (B - copied) m.total_num)
          (acc ++ (drainLoop ((B - copied).toNat + 1) m (B - copied)).1.map
            (fun s => (dev, s)))
          hwf' hnd' hdevnd' (by omega) (by omega)
      rw [ha]
      -- facts about the updated dict
      have hget_self : PyDict.get (st.set dev
          (drainLoop ((B - copied).toNat + 1) m (B - copied)).2) dev =
          some (drainLoop ((B - copied).toNat + 1) m (B - copied)).2 :=
        PyDict.get_set_self _ _
      have hget_ne : ∀ d, d ≠ dev → PyDict.get (st.set dev
          (drainLoop ((B - copied).toNat + 1) m (B - copied)).2) d = st.get d :=
        fun d hd => PyDict.get_set_ne _ hd
      have htotdev : totalOf st dev = m.total_num := by unfold totalOf; rw [hg]
      have htot_ne : ∀ d ∈ devs', totalOf (st.set dev
          (drainLoop ((B - copied).toNat + 1) m (B - copied)).2) d = totalOf st d := by
        intro d hd
        unfold totalOf
        rw [hget_ne d (fun he => hdevnotin (he ▸ hd))]
      have hSsum : ((devs'.map (totalOf (st.set dev
          (drainLoop ((B - copied).toNat + 1) m (B - copied)).2))).sum) =
          (devs'.map (totalOf st)).sum := by
        congr 1
        exact List.map_congr_left htot_ne
      have hS0 : 0 ≤ (devs'.map (totalOf st)).sum := sum_totalOf_nonneg hwf devs'
      -- covered-at for the updated dict
      have hcovset : ∀ (d : Device) (i : Int),
          coveredAt (st.set dev
            (drainLoop ((B - copied).toNat + 1) m (B - copied)).2) d i ↔
          coveredAt st d i ∧
            ¬ taggedIn ((drainLoop ((B - copied).toNat + 1) m
              (B - copied)).1.map (fun s => (dev, s))) d i := by
        intro d i
        by_cases hd : d = dev
        · subst hd
          unfold coveredAt
          rw [hget_self, hg]
          constructor
          · rintro ⟨m₂, hm₂, hcm₂⟩
            rw [Option.some.injEq] at hm₂
            rw [← hm₂] at hcm₂
            rcases (dcov i).mp hcm₂ with ⟨hcm, hall⟩
            refine ⟨⟨m, rfl, hcm⟩, ?_⟩
            rintro ⟨s, hsm, his⟩
            rcases List.mem_map.mp hsm with ⟨u, hu, hue⟩
            have : u = s := congrArg Prod.snd hue
            rw [← this] at his
            exact hall u hu his
          · rintro ⟨⟨m₁, hm₁, hcm₁⟩, hnt⟩
            rw [Option.some.injEq] at hm₁
            refine ⟨_, rfl, (dcov i).mpr ⟨hm₁ ▸ hcm₁, ?_⟩⟩
            intro u hu his
            exact hnt ⟨u, List.mem_map.mpr ⟨u, hu, rfl⟩, his⟩
        · unfold coveredAt
          rw [hget_ne d hd]
          constructor
          · intro hc
            refine ⟨hc, ?_⟩
            rintro ⟨s, hsm, _⟩
            rcases List.mem_map.mp hsm with ⟨u, _, hue⟩
            exact hd (congrArg Prod.fst hue).symm
          · exact fun h => h.1
      refine ⟨(drainLoop ((B - copied).toNat + 1) m (B - copied)).1.map
        (fun s => (dev, s)) ++ new', ?_, ?_, h3, ?_, ?_, ?_, ?_, ?_, ?_⟩
      · rw [h1, List.append_assoc]
      · rw [h2, hSsum]
        simp only [List.map_cons, List.sum_cons, htotdev]
        omega
      · rw [h4, PyDict.keys_set_of_mem hmem]
      · rw [h5]
        have hsumset : sumTotals (st.set dev
            (drainLoop ((B - copied).toNat + 1) m (B - copied)).2) =
            sumTotals st - m.total_num +
              (drainLoop ((B - copied).toNat + 1) m (B - copied)).2.total_num := by
          rw [sumTotals_eq_values, sumTotals_eq_values]
          exact PyDict.sum_map_values_set SliceMerger.total_num hnd
            (PyDict.get_mem hg)
        rw [hsumset, dtot, h2, hSsum]
        omega
      · rw [List.map_append, List.sum_append, List.map_map]
        have : ((drainLoop ((B - copied).toNat + 1) m (B - copied)).1.map
            ((fun ds => slice_len ds.2) ∘ (fun s => ((dev, s) : Device × Slice)))).sum =
            min (B - copied) m.total_num := by
          rw [show ((fun ds => slice_len ds.2) ∘
            (fun s => ((dev, s) : Device × Slice))) = slice_len from rfl]
          exact dsum
        rw [this, h6, h2, hSsum]
        omega
      · intro ds hds
        rcases List.mem_append.mp hds with hds1 | hds2
        · rcases List.mem_map.mp hds1 with ⟨u, hu, hue⟩
          rw [← hue]
          refine ⟨List.mem_cons_self _ _, dvalid u hu, ?_⟩
          intro i hi
          exact ⟨m, hg, dsub u hu i hi⟩
        · obtain ⟨hd1, hd2, hd3⟩ := h7 ds hds2
          refine ⟨List.mem_cons_of_mem _ hd1, hd2, ?_⟩
          intro i hi
          exact ((hcovset ds.1 i).mp (hd3 i hi)).1
      · intro d i
        rw [h8 d i, hcovset d i]
        unfold taggedIn
        constructor
        · rintro ⟨⟨hc, hnt1⟩, hnt2⟩
          refine ⟨hc, ?_⟩
          rintro ⟨s, hsm, his⟩
          rcases List.mem_append.mp hsm with hs1 | hs2
          · exact hnt1 ⟨s, hs1, his⟩
          · exact hnt2 ⟨s, hs2, his⟩
        · rintro ⟨hc, hnt⟩
          exact ⟨⟨hc, fun ⟨s, hsm, his⟩ =>
              hnt ⟨s, List.mem_append.mpr (Or.inl hsm), his⟩⟩,
            fun ⟨s, hsm, his⟩ => hnt ⟨s, List.mem_append.mpr (Or.inr hsm), his⟩⟩
      · rw [List.pairwise_append]
        refine ⟨?_, h9, ?_⟩
        · rw [List.pairwise_map]
          apply dpw.imp
          intro u v huv _ i hiu hiv
          exact huv i hiu hiv
        · intro p hp q hq hpq i hip hiq
          rcases List.mem_map.mp hp with ⟨u, hu, hue⟩
          obtain ⟨_, _, hqsub⟩ := h7 q hq
          have hcq := hqsub i hiq
          have hp1 : p.1 = dev := by rw [← hue]
          have hq1 : q.1 = dev := by rw [← hpq, hp1]
          rw [hq1] at hcq
          rcases (hcovset dev i).mp hcq with ⟨_, hnt⟩
          apply hnt
          refine ⟨u, List.mem_map.mpr ⟨u, hu, rfl⟩, ?_⟩
          have hp2 : p.2 = u := by rw [← hue]
          rw [← hp2]
          exact hip

theorem listGetD_set_self {α : Type} {l : List α} {i : Nat} {x d : α}
    (h : i < l.length) : (l.set i x).getD i d = x := by
  simp [List.getD_eq_getElem?_getD, List.getElem?_set_self h]

theorem listGetD_set_ne {α : Type} {l : List α} {i j : Nat} {x d : α}
    (h : i ≠ j) : (l.set i x).getD j d = l.getD j d := by
  simp [List.getD_eq_getElem?_getD, List.getElem?_set_ne h]

theorem sum_totalOf_perm {st : PyDict Device SliceMerger} {devs : List Device}
    (hnd : (PyDict.keys st).Nodup) (hperm : devs.Perm (PyDict.keys st)) :
    (devs.map (totalOf st)).sum = sumTotals st := by
  rw [List.Perm.sum_eq (List.Perm.map (totalOf st) hperm)]
  unfold PyDict.keys
  rw [List.map_map]
  unfold sumTotals
  congr 1
  apply List.map_congr_left
  intro p hp
  show totalOf st p.1 = p.2.total_num
  have hg : st.get p.1 = some p.2 := PyDict.get_eq_some_of_mem hnd (by exact hp)
  unfold totalOf
  rw [hg]

theorem maybeEnqueueLoop_batches (sh : Nat → List Device) :
    ∀ (fuel k : Nat) (b : Batcher),
    (∀ p ∈ b.slices_for_training, SliceMerger.WF p.2) →
    (PyDict.keys b.slices_for_training).Nodup →
    (∀ j, (sh j).Nodup ∧ (sh j).Perm (PyDict.keys b.slices_for_training)) →
    0 ≤ b.traj_per_training_iteration →
    b.available_batches.Nodup →
    (∀ j ∈ b.available_batches, j < b.training_batches.length ∧
      j < b.traj_tensors_to_release.length) →
    (∀ idx, BEvent.training_batches_available idx ∈ (maybeEnqueueLoop sh fuel k b).2 →
      idx ∈ b.available_batches ∧
      (((maybeEnqueueLoop sh fuel k b).1.training_batches.getD idx []).map
        (fun ds => slice_len ds.2)).sum = b.traj_per_training_iteration ∧
      (b.cfg.async_rl = true →
        (maybeEnqueueLoop sh fuel k b).1.traj_tensors_to_release.getD idx [] = [])) ∧
    (∀ j, j ∉ b.available_batches →
      (maybeEnqueueLoop sh fuel k b).1.training_batches.getD j [] =
        b.training_batches.getD j [] ∧
      (maybeEnqueueLoop sh fuel k b).1.traj_tensors_to_release.getD j [] =
        b.traj_tensors_to_release.getD j []) := by
  intro fuel
  induction fuel with
  | zero =>
    intro k b _ _ _ _ _ _
    exact ⟨fun idx h => absurd h (List.not_mem_nil _), fun j _ => ⟨rfl, rfl⟩⟩
  | succ fuel ih =>
    intro k b hwf hnd hsh hB havnd havlt
    cases hav : b.available_batches with
    | nil =>
      rw [maybeEnqueueLoop_nil sh _ _ b hav]
      exact ⟨fun idx h => absurd h (List.not_mem_nil _), fun j _ => ⟨rfl, rfl⟩⟩
    | cons batch_idx rest =>
      by_cases htot : sumTotals b.slices_for_training < b.traj_per_training_iteration
      · have heq : maybeEnqueueLoop sh (fuel + 1) k b = (b, []) := by
          simp [maybeEnqueueLoop, hav, htot]
        rw [heq]
        exact ⟨fun idx h => absurd h (List.not_mem_nil _), fun j _ => ⟨rfl, rfl⟩⟩
      · obtain ⟨new, a1, a2, a3, a4, a5, a6, a7, a8, a9⟩ :=
          assembleOverDevices_spec b.traj_per_training_iteration (sh k)
            b.slices_for_training 0 [] hwf hnd (hsh k).1 (le_refl 0) hB
        have hsumdevs : ((sh k).map (totalOf b.slices_for_training)).sum =
            sumTotals b.slices_for_training := sum_totalOf_perm hnd (hsh k).2
        have hcopied : (assembleOverDevices b.traj_per_training_iteration (sh k)
            b.slices_for_training 0 []).2.2 = b.traj_per_training_iteration := by
          rw [a2, hsumdevs]
          omega
        have hbidx := havlt batch_idx (by rw [hav]; exact List.mem_cons_self _ _)
        have hrestnd : rest.Nodup := by
          rw [hav] at havnd; exact (List.nodup_cons.mp havnd).2
        have hbidxrest : batch_idx ∉ rest := by
          rw [hav] at havnd; exact (List.nodup_cons.mp havnd).1
        have hmidtb : (enqueueMidState sh k b batch_idx rest).training_batches =
            b.training_batches.set batch_idx
              (assembleOverDevices b.traj_per_training_iteration (sh k)
                b.slices_for_training 0 []).2.1 := rfl
        have hmidpend : (enqueueMidState sh k b batch_idx rest).traj_tensors_to_release =
            b.traj_tensors_to_release.set batch_idx
              ((b.traj_tensors_to_release.getD batch_idx []) ++
                (assembleOverDevices b.traj_per_training_iteration (sh k)
                  b.slices_for_training 0 []).2.1) := rfl
        have hmidav : (enqueueMidState sh k b batch_idx rest).available_batches =
            rest := rfl
        have hmidst : (enqueueMidState sh k b batch_idx rest).slices_for_training =
            (assembleOverDevices b.traj_per_training_iteration (sh k)
              b.slices_for_training 0 []).1 := rfl
        have hmidB : (enqueueMidState sh k b batch_idx
            rest).traj_per_training_iteration = b.traj_per_training_iteration := rfl
        have hmidcfg : (enqueueMidState sh k b batch_idx rest).cfg = b.cfg := rfl
        have hlen1 : (enqueueMidState sh k b batch_idx rest).training_batches.length =
            b.training_batches.length := by
          rw [hmidtb]; exact List.length_set _ _ _
        have hlen2 : (enqueueMidState sh k b batch_idx
            rest).traj_tensors_to_release.length =
            b.traj_tensors_to_release.length := by
          rw [hmidpend]; exact List.length_set _ _ _
        have hgoodidx : ∀ j ∈ rest, j < (enqueueMidState sh k b batch_idx
            rest).training_batches.length ∧
            j < (enqueueMidState sh k b batch_idx rest).traj_tensors_to_release.length := by
          intro j hj
          have := havlt j (by rw [hav]; exact List.mem_cons_of_mem _ hj)
          rw [hlen1, hlen2]
          exact this
        cases hasync : b.cfg.async_rl with
        | false =>
          have hunfold : maybeEnqueueLoop sh (fuel + 1) k b =
              ((maybeEnqueueLoop sh fuel (k + 1)
                  (enqueueMidState sh k b batch_idx rest)).1,
                BEvent.training_batches_available batch_idx ::
                  (maybeEnqueueLoop sh fuel (k + 1)
                    (enqueueMidState sh k b batch_idx rest)).2) := by
            simp [maybeEnqueueLoop, hav, htot, hasync, enqueueMidState]
          rw [hunfold]
          obtain ⟨ih1, ih2⟩ := ih (k + 1) (enqueueMidState sh k b batch_idx rest)
            (by rw [hmidst]; exact a3)
            (by rw [hmidst, a4]; exact hnd)
            (by intro j; rw [hmidst, a4]; exact hsh j)
            (by rw [hmidB]; exact hB)
            (by rw [hmidav]; exact hrestnd)
            (by rw [hmidav]; exact hgoodidx)
          constructor
          · intro idx hmem
            rcases List.mem_cons.mp hmem with he | htl
            · have hidx : idx = batch_idx := by injection he
              subst hidx
              refine ⟨List.mem_cons_self _ _, ?_, ?_⟩
              · have hstable := (ih2 idx (by rw [hmidav]; exact hbidxrest)).1
                rw [hstable, hmidtb, listGetD_set_self hbidx.1, a1]
                simp only [List.nil_append]
                rw [a6, hcopied]
                omega
              · intro hx
                cases hx
            · obtain ⟨hin, hsum, hpend⟩ := ih1 idx htl
              rw [hmidav] at hin
              refine ⟨List.mem_cons_of_mem _ hin, ?_, ?_⟩
              · rw [hsum, hmidB]
              · intro hx
                cases hx
          · intro j hj
            have hj1 : j ≠ batch_idx := fun he => hj (he ▸ List.mem_cons_self _ _)
            have hj2 : j ∉ rest := fun hm => hj (List.mem_cons_of_mem _ hm)
            obtain ⟨hs1, hs2⟩ := ih2 j (by rw [hmidav]; exact hj2)
            rw [hs1, hs2, hmidtb, hmidpend]
            constructor
            · exact listGetD_set_ne (fun he => hj1 he.symm)
            · exact listGetD_set_ne (fun he => hj1 he.symm)
        | true =>
          have hunfold : maybeEnqueueLoop sh (fuel + 1) k b =
              ((maybeEnqueueLoop sh fuel (k + 1)
                  (releaseTrajTensors (enqueueMidState sh k b batch_idx rest)
                    batch_idx).1).1,
                BEvent.training_batches_available batch_idx ::
                  ((releaseTrajTensors (enqueueMidState sh k b batch_idx rest)
                    batch_idx).2 ++
                  (if (releaseTrajTensors (enqueueMidState sh k b batch_idx rest)
                      batch_idx).1.available_batches.isEmpty then
                    [BEvent.stop_experience_collection] else []) ++
                  (maybeEnqueueLoop sh fuel (k + 1)
                    (releaseTrajTensors (enqueueMidState sh k b batch_idx rest)
                      batch_idx).1).2)) := by
            simp [maybeEnqueueLoop, hav, htot, hasync, enqueueMidState]
          rw [hunfold]
          obtain ⟨f1, f2, f3, f4, f5, f6⟩ :=
            releaseTrajTensors_frame (enqueueMidState sh k b batch_idx rest) batch_idx
          obtain ⟨ih1, ih2⟩ := ih (k + 1)
            (releaseTrajTensors (enqueueMidState sh k b batch_idx rest) batch_idx).1
            (by rw [f3, hmidst]; exact a3)
            (by rw [f3, hmidst, a4]; exact hnd)
            (by intro j; rw [f3, hmidst, a4]; exact hsh j)
            (by rw [f5, hmidB]; exact hB)
            (by rw [f2, hmidav]; exact hrestnd)
            (by intro j hj
                rw [f2, hmidav] at hj
                have := hgoodidx j hj
                rw [f4, f6]
                constructor
                · exact this.1
                · rw [List.length_set]
                  exact this.2)
          constructor
          · intro idx hmem
            rcases List.mem_cons.mp hmem with he | htl
            · have hidx : idx = batch_idx := by injection he
              subst hidx
              refine ⟨List.mem_cons_self _ _, ?_, ?_⟩
              · have hstable := (ih2 idx (by rw [f2, hmidav]; exact hbidxrest)).1
                rw [hstable, f4, hmidtb, listGetD_set_self hbidx.1, a1]
                simp only [List.nil_append]
                rw [a6, hcopied]
                omega
              · intro _
                have hstable := (ih2 idx (by rw [f2, hmidav]; exact hbidxrest)).2
                rw [hstable, f6]
                apply listGetD_set_self
                rw [hlen2]
                exact hbidx.2
            · rcases List.mem_append.mp htl with hrel | htl2
              · rcases List.mem_append.mp hrel with hrel1 | hstop
                · rcases releaseTrajTensors_events _ _ _ hrel1 with
                    ⟨d, l, he⟩ | ⟨d, l, he⟩ | ⟨it, he⟩ <;> exact absurd he (by simp)
                · by_cases hc : ((releaseTrajTensors (enqueueMidState sh k b batch_idx
                      rest) batch_idx).1.available_batches.isEmpty : Bool) = true
                  · rw [if_pos hc] at hstop
                    simp at hstop
                  · rw [if_neg hc] at hstop
                    simp at hstop
              · obtain ⟨hin, hsum, hpend⟩ := ih1 idx htl2
                rw [f2, hmidav] at hin
                refine ⟨List.mem_cons_of_mem _ hin, ?_, ?_⟩
                · rw [hsum, f5, hmidB]
                · intro _
                  exact hpend (by rw [f1, hmidcfg]; exact hasync)
          · intro j hj
            have hj1 : j ≠ batch_idx := fun he => hj (he ▸ List.mem_cons_self _ _)
            have hj2 : j ∉ rest := fun hm => hj (List.mem_cons_of_mem _ hm)
            obtain ⟨hs1, hs2⟩ := ih2 j (by rw [f2, hmidav]; exact hj2)
            rw [hs1, hs2, f4, f6, hmidtb]
            constructor
            · exact listGetD_set_ne (fun he => hj1 he.symm)
            · rw [listGetD_set_ne (fun he => hj1 he.symm), hmidpend]
              exact listGetD_set_ne (fun he => hj1 he.symm)

theorem maybeEnqueueLoop_no_resume (sh : Nat → List Device) :
    ∀ (fuel k : Nat) (b : Batcher),
      countResume (maybeEnqueueLoop sh fuel k b).2 = 0 := by
  intro fuel
  induction fuel with
  | zero => intro k b; rfl
  | succ fuel ih =>
    intro k b
    cases hav : b.available_batches with
    | nil => rw [maybeEnqueueLoop_nil sh _ _ b hav]; rfl
    | cons idx rest =>
      by_cases htot : sumTotals b.slices_for_training < b.traj_per_training_iteration
      · have heq : maybeEnqueueLoop sh (fuel + 1) k b = (b, []) := by
          simp [maybeEnqueueLoop, hav, htot]
        rw [heq]
        rfl
      · cases hasync : b.cfg.async_rl with
        | false =>
          have hunfold : maybeEnqueueLoop sh (fuel + 1) k b =
              ((maybeEnqueueLoop sh fuel (k + 1) (enqueueMidState sh k b idx rest)).1,
                BEvent.training_batches_available idx ::
                  (maybeEnqueueLoop sh fuel (k + 1)
                    (enqueueMidState sh k b idx rest)).2) := by
            simp [maybeEnqueueLoop, hav, htot, hasync, enqueueMidState]
          rw [hunfold]
          rw [countResume_cons_ready]
          exact ih (k + 1) _
        | true =>
          have hunfold : maybeEnqueueLoop sh (fuel + 1) k b =
              ((maybeEnqueueLoop sh fuel (k + 1)
                  (releaseTrajTensors (enqueueMidState sh k b idx rest) idx).1).1,
                BEvent.training_batches_available idx ::
                  ((releaseTrajTensors (enqueueMidState sh k b idx rest) idx).2 ++
                  (if (releaseTrajTensors (enqueueMidState sh k b idx rest)
                      idx).1.available_batches.isEmpty then
                    [BEvent.stop_experience_collection] else []) ++
                  (maybeEnqueueLoop sh fuel (k + 1)
                    (releaseTrajTensors (enqueueMidState sh k b idx rest) idx).1).2)) := by
            simp [maybeEnqueueLoop, hav, htot, hasync, enqueueMidState]
          rw [hunfold]
          rw [countResume_cons_ready, countResume_append, countResume_append,
            (releaseTrajTensors_count _ _).2.1, countResume_stop_list, ih (k + 1)]

theorem maybeEnqueue_no_resume (sh : Nat → List Device) (b : Batcher) :
    countResume (maybeEnqueueNewTrainingBatches sh b).2 = 0 :=
  maybeEnqueueLoop_no_resume sh _ 0 b

/-- C8: in asynchronous mode the flow-control signals are edge-triggered.
The pause signal is emitted by a batch-assembly pass exactly once, and
exactly when the pass marked at least one batch ready and ended with the
buffer pool empty (so two consecutive ready batches fire it once, and a pass
that assembles nothing never fires it); the resume signal is emitted by a
batch release exactly once, and exactly when the pool was exhausted at the
moment of the release (a second consecutive release finds the pool non-empty
and does not fire it); assembly passes never emit resume. -/
theorem C8_flow_control_edge_triggered (sh : Nat → List Device) (b : Batcher)
    (hasync : b.cfg.async_rl = true) :
    (countStop (maybeEnqueueNewTrainingBatches sh b).2 =
      if (maybeEnqueueNewTrainingBatches sh b).1.available_batches = [] ∧
          0 < countReady (maybeEnqueueNewTrainingBatches sh b).2 then 1 else 0) ∧
    (∀ (batch_idx : Nat) (it : Int),
      countResume (onTrainingBatchReleased sh b batch_idx it).2 =
        if b.available_batches = [] then 1 else 0) ∧
    countResume (maybeEnqueueNewTrainingBatches sh b).2 = 0 := by
  refine ⟨(maybeEnqueueLoop_stop_count sh _ 0 b hasync).1, ?_, ?_⟩
  · intro batch_idx it
    simp only [onTrainingBatchReleased]
    cases hav : b.available_batches with
    | nil =>
      simp [hasync, countResume_append, maybeEnqueue_no_resume, countResume]
      exact maybeEnqueue_no_resume sh _
    | cons x xs =>
      simp [hasync, countResume_append, maybeEnqueue_no_resume, countResume]
      exact maybeEnqueue_no_resume sh _
  · exact maybeEnqueueLoop_no_resume sh _ 0 b

/-- Witness for C8: with a pool of `K = 2` free buffers, `B = 2`, and 4
records available, one assembly pass marks both buffers ready consecutively
and fires the pause signal exactly once; releasing a buffer while the pool is
exhausted fires the resume signal exactly once. -/
theorem C8_flow_control_edge_triggered_witness :
    (countStop (maybeEnqueueNewTrainingBatches (fun _ => ["cpu"])
        { Batcher.init ⟨true, false⟩ 2 2 ["cpu"] 2 with
          slices_for_training := [("cpu", SliceMerger.empty.merge_slices ⟨0, 4⟩)] }).2 =
      if (maybeEnqueueNewTrainingBatches (fun _ => ["cpu"])
          { Batcher.init ⟨true, false⟩ 2 2 ["cpu"] 2 with
            slices_for_training :=
              [("cpu", SliceMerger.empty.merge_slices ⟨0, 4⟩)] }).1.available_batches
            = [] ∧
          0 < countReady (maybeEnqueueNewTrainingBatches (fun _ => ["cpu"])
            { Batcher.init ⟨true, false⟩ 2 2 ["cpu"] 2 with
              slices_for_training :=
                [("cpu", SliceMerger.empty.merge_slices ⟨0, 4⟩)] }).2
        then 1 else 0) ∧
    countStop (maybeEnqueueNewTrainingBatches (fun _ => ["cpu"])
        { Batcher.init ⟨true, false⟩ 2 2 ["cpu"] 2 with
          slices_for_training := [("cpu", SliceMerger.empty.merge_slices ⟨0, 4⟩)] }).2
      = 1 ∧
    countReady (maybeEnqueueNewTrainingBatches (fun _ => ["cpu"])
        { Batcher.init ⟨true, false⟩ 2 2 ["cpu"] 2 with
          slices_for_training := [("cpu", SliceMerger.empty.merge_slices ⟨0, 4⟩)] }).2
      = 2 ∧
    countResume (onTrainingBatchReleased (fun _ => ["cpu"])
        { Batcher.init ⟨true, false⟩ 2 2 ["cpu"] 2 with available_batches := [] }
        0 1).2 = 1 := by
  refine ⟨(C8_flow_control_edge_triggered (fun _ => ["cpu"]) _ rfl).1,
    by decide, by decide, ?_⟩
  have h := (C8_flow_control_edge_triggered (fun _ => ["cpu"])
    { Batcher.init ⟨true, false⟩ 2 2 ["cpu"] 2 with available_batches := [] }
    rfl).2.1 0 1
  rw [h]
  decide

theorem WF_inserts (sl : List Slice) (hv : ∀ s ∈ sl, s.start < s.stop)
    (hpw : sl.Pairwise disjointS) :
    SliceMerger.WF (sl.foldl SliceMerger.merge_slices SliceMerger.empty) :=
  (SliceMerger.foldl_merge_spec sl SliceMerger.empty SliceMerger.WF.empty hv hpw
    (fun _ _ i hc => absurd hc (SliceMerger.empty_not_covered i))).1

theorem maybeEnqueueLoop_head (sh : Nat → List Device) (fuel k : Nat) (b : Batcher)
    (idx : Nat) (rest : List Nat) (hav : b.available_batches = idx :: rest)
    (htot : ¬ sumTotals b.slices_for_training < b.traj_per_training_iteration) :
    BEvent.training_batches_available idx ∈ (maybeEnqueueLoop sh (fuel + 1) k b).2 := by
  cases hasync : b.cfg.async_rl with
  | false => simp [maybeEnqueueLoop, hav, htot, hasync]
  | true => simp [maybeEnqueueLoop, hav, htot, hasync]

/-- C3: whenever batch assembly proceeds under its guard (total available
records at least `B` and a free batch buffer exists) a batch is marked ready,
and every batch buffer marked ready has received exactly `B` records — the
sum of the lengths of the source ranges copied into it equals
`traj_per_training_iteration` exactly, so the copy-count assertion never
fails. -/
theorem C3_exact_batch_size (sh : Nat → List Device) (b : Batcher)
    (hwf : ∀ p ∈ b.slices_for_training, SliceMerger.WF p.2)
    (hnd : (PyDict.keys b.slices_for_training).Nodup)
    (hsh : ∀ j, (sh j).Nodup ∧ (sh j).Perm (PyDict.keys b.slices_for_training))
    (hB : 0 ≤ b.traj_per_training_iteration)
    (havnd : b.available_batches.Nodup)
    (havlt : ∀ j ∈ b.available_batches, j < b.training_batches.length ∧
      j < b.traj_tensors_to_release.length) :
    (¬ sumTotals b.slices_for_training < b.traj_per_training_iteration →
      ∀ idx rest, b.available_batches = idx :: rest →
      BEvent.training_batches_available idx ∈
        (maybeEnqueueNewTrainingBatches sh b).2) ∧
    (∀ idx, BEvent.training_batches_available idx ∈
        (maybeEnqueueNewTrainingBatches sh b).2 →
      idx ∈ b.available_batches ∧
      (((maybeEnqueueNewTrainingBatches sh b).1.training_batches.getD idx []).map
        (fun ds => slice_len ds.2)).sum = b.traj_per_training_iteration) := by
  constructor
  · intro htot idx rest hav
    unfold maybeEnqueueNewTrainingBatches
    rw [hav]
    simp only [List.length_cons]
    exact maybeEnqueueLoop_head sh rest.length 0 b idx rest hav htot
  · intro idx hmem
    obtain ⟨h1, h2, _⟩ :=
      (maybeEnqueueLoop_batches sh _ 0 b hwf hnd hsh hB havnd havlt).1 idx hmem
    exact ⟨h1, h2⟩

/-- Witness for C3: with `B = 2`, one free buffer and the range `[0,3)`
available on device "cpu", the pass marks buffer 0 ready with exactly the two
records `[0,2)` copied into it. -/
theorem C3_exact_batch_size_witness :
    ((0 ∈ ({ Batcher.init ⟨false, false⟩ 2 2 ["cpu"] 1 with
        slices_for_training := [("cpu", SliceMerger.empty.merge_slices ⟨0, 3⟩)]
          } : Batcher).available_batches ∧
      (List.map (fun ds => slice_len ds.2)
        ((maybeEnqueueNewTrainingBatches (fun _ => ["cpu"])
          { Batcher.init ⟨false, false⟩ 2 2 ["cpu"] 1 with
            slices_for_training := [("cpu", SliceMerger.empty.merge_slices ⟨0, 3⟩)]
              }).1.training_batches.getD 0 [])).sum =
        ({ Batcher.init ⟨false, false⟩ 2 2 ["cpu"] 1 with
          slices_for_training := [("cpu", SliceMerger.empty.merge_slices ⟨0, 3⟩)]
            } : Batcher).traj_per_training_iteration)) ∧
    (maybeEnqueueNewTrainingBatches (fun _ => ["cpu"])
      { Batcher.init ⟨false, false⟩ 2 2 ["cpu"] 1 with
        slices_for_training := [("cpu", SliceMerger.empty.merge_slices ⟨0, 3⟩)]
          }).1.training_batches.getD 0 [] = [("cpu", ⟨0, 2⟩)] :=
  ⟨(C3_exact_batch_size (fun _ => ["cpu"])
      { Batcher.init ⟨false, false⟩ 2 2 ["cpu"] 1 with
        slices_for_training := [("cpu", SliceMerger.empty.merge_slices ⟨0, 3⟩)] }
      (by
        intro p hp
        simp only [List.mem_singleton] at hp
        rw [hp]
        exact WF_inserts [⟨0, 3⟩] (by decide) (by decide))
      (by decide)
      (by
        intro j
        refine ⟨?_, List.Perm.refl _⟩
        show (["cpu"] : List Device).Nodup
        decide)
      (by decide) (by decide) (by decide)).2 0 (by decide),
    by decide⟩

/-- C1: for every sequence of pairwise non-overlapping range insertions into an
empty RangeSet (`SliceMerger.merge_slices` starting from empty maps), the
resulting set of ranges exactly reconstructs the union of all inserted indices
(pointwise over the index space), and no two resulting ranges share a boundary
(no range's `stop` equals any range's `start`). -/
theorem C1_merge_correctness (sl : List Slice)
    (hv : ∀ s ∈ sl, s.start < s.stop)
    (hpw : sl.Pairwise disjointS) :
    (∀ i : Int, (sl.foldl SliceMerger.merge_slices SliceMerger.empty).covered i ↔
      ∃ s ∈ sl, inSlice i s) ∧
    (∀ s₁ ∈ (sl.foldl SliceMerger.merge_slices SliceMerger.empty).ranges,
      ∀ s₂ ∈ (sl.foldl SliceMerger.merge_slices SliceMerger.empty).ranges,
        s₁.stop ≠ s₂.start) := by
  obtain ⟨hwf, hcov⟩ := SliceMerger.foldl_merge_spec sl SliceMerger.empty
    SliceMerger.WF.empty hv hpw
    (fun _ _ i hc => absurd hc (SliceMerger.empty_not_covered i))
  refine ⟨fun i => ?_, fun s₁ h₁ s₂ h₂ => ?_⟩
  · rw [hcov i]
    have := SliceMerger.empty_not_covered i
    tauto
  · by_cases hne : s₁ = s₂
    · subst hne
      have := hwf.valid s₁ h₁
      omega
    · have hsep := hwf.sep s₁ h₁ s₂ h₂ hne
      have hv₁ := hwf.valid s₁ h₁
      have hv₂ := hwf.valid s₂ h₂
      rcases hsep with hc | hc <;> omega

/-- Witness for C1: inserting `[0,3)` then `[3,5)` into an empty merger leaves
the single range `[0,5)` with total 5, and the coverage equivalence holds for
example at index 2. -/
theorem C1_merge_correctness_witness :
    (([⟨0, 3⟩, ⟨3, 5⟩] : List Slice).foldl SliceMerger.merge_slices
        SliceMerger.empty).ranges = [⟨0, 5⟩] ∧
    (([⟨0, 3⟩, ⟨3, 5⟩] : List Slice).foldl SliceMerger.merge_slices
        SliceMerger.empty).total_num = 5 ∧
    ((([⟨0, 3⟩, ⟨3, 5⟩] : List Slice).foldl SliceMerger.merge_slices
        SliceMerger.empty).covered 2 ↔
      ∃ s ∈ ([⟨0, 3⟩, ⟨3, 5⟩] : List Slice), inSlice 2 s) :=
  ⟨by decide, by decide,
    (C1_merge_correctness [⟨0, 3⟩, ⟨3, 5⟩] (by decide) (by decide)).1 2⟩

/-- C2: for every `SliceMerger` reachable from the empty state by
non-overlapping `merge_slices` insertions and `get_at_most` / `get_exactly`
extractions, the incrementally tracked `total_num` equals the independent
recount (the sum of the lengths of the stored ranges). -/
theorem C2_total_conservation (m : SliceMerger) (h : SliceMerger.ReachableM m) :
    m.total_num = (m.ranges.map slice_len).sum :=
  (SliceMerger.WF.of_reachable h).total_eq

/-- Witness for C2: the state reached by inserting `[0,3)` and then extracting
at most 2 satisfies the conservation equation. -/
theorem C2_total_conservation_witness :
    (SliceMerger.applyOp (SliceMerger.applyOp SliceMerger.empty
        (SliceMerger.MergerOp.ins ⟨0, 3⟩)) (SliceMerger.MergerOp.getAtMost 2)).total_num =
      ((SliceMerger.applyOp (SliceMerger.applyOp SliceMerger.empty
        (SliceMerger.MergerOp.ins ⟨0, 3⟩))
          (SliceMerger.MergerOp.getAtMost 2)).ranges.map slice_len).sum :=
  C2_total_conservation _
    (SliceMerger.ReachableM.step
      (SliceMerger.ReachableM.step SliceMerger.ReachableM.empty
        ⟨by decide, by decide⟩)
      (show (1 : Int) ≤ 2 by decide))

/-- Counterexample to C5 as stated: after inserting `[10,20)` and then `[0,5)`
(non-overlapping, so both remain stored), the first range in START order whose
length is at least 3 is `[0,5)`, whose 3-prefix is `[0,3)`; but the source's
`get_exactly` scans in dict-insertion order and returns `[10,13)`.  The
spec-ordered variant and the source function disagree at this input. -/
theorem C5_counterexample :
    ((SliceMerger.empty.merge_slices ⟨10, 20⟩).merge_slices ⟨0, 5⟩).get_exactly 3 ≠
      SliceMerger.get_exactly_start_order
        ((SliceMerger.empty.merge_slices ⟨10, 20⟩).merge_slices ⟨0, 5⟩) 3 ∧
    (((SliceMerger.empty.merge_slices ⟨10, 20⟩).merge_slices ⟨0, 5⟩).get_exactly 3).map
      Prod.fst = some ⟨10, 13⟩ ∧
    (SliceMerger.get_exactly_start_order
        ((SliceMerger.empty.merge_slices ⟨10, 20⟩).merge_slices ⟨0, 5⟩) 3).map
      Prod.fst = some ⟨0, 3⟩ :=
  ⟨by decide, by decide, by decide⟩

/-- C5 (amended): for every well-formed `SliceMerger` state and every `n ≥ 1`,
`get_exactly n` scans ranges in dict-insertion order (the iteration order of
`slice_starts`), not start order, and returns the first range whose length is
at least `n`, extracting exactly `n` slots from its start (the extracted slice
is removed from the covered index set and `n` is removed from the total, the
remainder staying stored); it returns `none` exactly when no single range is
long enough. -/
theorem C5_get_exactly_insertion_order (m : SliceMerger) (hwf : SliceMerger.WF m)
    (n : Int) (hn : 1 ≤ n) :
    (m.get_exactly n = none ↔ ∀ s ∈ m.ranges, slice_len s < n) ∧
    (∀ (r : Slice) (m' : SliceMerger), m.get_exactly n = some (r, m') →
      ∃ s ∈ m.ranges, n ≤ slice_len s ∧
        (∃ l₁ l₂, m.slice_starts = l₁ ++ (s.start, s) :: l₂ ∧
          ∀ q ∈ l₁, slice_len q.2 < n) ∧
        r = ⟨s.start, s.start + n⟩ ∧
        (∀ i : Int, m'.covered i ↔ m.covered i ∧ ¬ inSlice i r) ∧
        m'.total_num = m.total_num - n) := by
  refine ⟨SliceMerger.get_exactly_none_iff, fun r m' h => ?_⟩
  obtain ⟨s, hsm, hle, hfirst, hr, _, hcov, htot⟩ :=
    SliceMerger.get_exactly_spec hwf hn h
  exact ⟨s, hsm, hle, hfirst, hr, hcov, htot⟩

/-- Witness for C5 (amended): scenario C — on the RangeSet containing `[0,2)`
and `[5,9)`, `get_exactly 3` returns the prefix `[5,8)` of `[5,9)` (since
`[0,2)` is too short), and the `none` characterization holds at this state. -/
theorem C5_get_exactly_insertion_order_witness :
    ((([⟨0, 2⟩, ⟨5, 9⟩] : List Slice).foldl SliceMerger.merge_slices
        SliceMerger.empty).get_exactly 3 = none ↔
      ∀ s ∈ (([⟨0, 2⟩, ⟨5, 9⟩] : List Slice).foldl SliceMerger.merge_slices
        SliceMerger.empty).ranges, slice_len s < 3) ∧
    ((((([⟨0, 2⟩, ⟨5, 9⟩] : List Slice).foldl SliceMerger.merge_slices
        SliceMerger.empty).get_exactly 3).map Prod.fst) = some ⟨5, 8⟩) ∧
    ((((([⟨0, 2⟩, ⟨5, 9⟩] : List Slice).foldl SliceMerger.merge_slices
        SliceMerger.empty).get_exactly 3).map
          (fun p => p.2.ranges)) = some [⟨0, 2⟩, ⟨8, 9⟩]) :=
  ⟨(C5_get_exactly_insertion_order _
      (WF_inserts [⟨0, 2⟩, ⟨5, 9⟩] (by decide) (by decide)) 3 (by decide)).1,
    by decide, by decide⟩

/-- Counterexample to C6 as stated: after inserting `[10,20)` and then `[0,5)`,
the first range in START order is `[0,5)`, whose 3-prefix is `[0,3)`; but the
source's `get_at_most` takes the first entry in dict-insertion order and
returns `[10,13)`.  The spec-ordered variant and the source function disagree
at this input. -/
theorem C6_counterexample :
    ((SliceMerger.empty.merge_slices ⟨10, 20⟩).merge_slices ⟨0, 5⟩).get_at_most 3 ≠
      SliceMerger.get_at_most_start_order
        ((SliceMerger.empty.merge_slices ⟨10, 20⟩).merge_slices ⟨0, 5⟩) 3 ∧
    (((SliceMerger.empty.merge_slices ⟨10, 20⟩).merge_slices ⟨0, 5⟩).get_at_most 3).map
      Prod.fst = some ⟨10, 13⟩ ∧
    (SliceMerger.get_at_most_start_order
        ((SliceMerger.empty.merge_slices ⟨10, 20⟩).merge_slices ⟨0, 5⟩) 3).map
      Prod.fst = some ⟨0, 3⟩ :=
  ⟨by decide, by decide, by decide⟩

/-- C6 (amended): for every well-formed `SliceMerger` state and every `n ≥ 1`,
`get_at_most n` deterministically picks the first stored range in
dict-insertion order (the iteration order of `slice_starts`), not start order,
and removes up to `n` slots as a prefix of it (exactly `min (length, n)`
slots, which disappear from the covered index set and from the total, the
remainder staying stored); it returns `none` exactly when no ranges exist. -/
theorem C6_get_at_most_insertion_order (m : SliceMerger) (hwf : SliceMerger.WF m)
    (n : Int) (hn : 1 ≤ n) :
    (m.get_at_most n = none ↔ m.slice_starts = []) ∧
    (∀ (r : Slice) (m' : SliceMerger), m.get_at_most n = some (r, m') →
      ∃ s ∈ m.ranges,
        (∃ tl, m.slice_starts = (s.start, s) :: tl) ∧
        r = ⟨s.start, s.start + min (slice_len s) n⟩ ∧
        (∀ i : Int, m'.covered i ↔ m.covered i ∧ ¬ inSlice i r) ∧
        m'.total_num = m.total_num - min (slice_len s) n) := by
  refine ⟨SliceMerger.get_at_most_none_iff, fun r m' h => ?_⟩
  obtain ⟨s, hsm, htl, hr, _, hcov, htot⟩ := SliceMerger.get_at_most_spec hwf hn h
  exact ⟨s, hsm, htl, hr, hcov, htot⟩

/-- Witness for C6 (amended): scenario B — on the RangeSet containing the
merged range `[0,5)`, `get_at_most 4` extracts the prefix `[0,4)` and leaves
the remainder `[4,5)`, and the `none` characterization holds at this state. -/
theorem C6_get_at_most_insertion_order_witness :
    ((([⟨0, 2⟩, ⟨2, 5⟩] : List Slice).foldl SliceMerger.merge_slices
        SliceMerger.empty).get_at_most 4 = none ↔
      (([⟨0, 2⟩, ⟨2, 5⟩] : List Slice).foldl SliceMerger.merge_slices
        SliceMerger.empty).slice_starts = []) ∧
    ((((([⟨0, 2⟩, ⟨2, 5⟩] : List Slice).foldl SliceMerger.merge_slices
        SliceMerger.empty).get_at_most 4).map Prod.fst) = some ⟨0, 4⟩) ∧
    ((((([⟨0, 2⟩, ⟨2, 5⟩] : List Slice).foldl SliceMerger.merge_slices
        SliceMerger.empty).get_at_most 4).map
          (fun p => p.2.ranges)) = some [⟨4, 5⟩]) :=
  ⟨(C6_get_at_most_insertion_order _
      (WF_inserts [⟨0, 2⟩, ⟨2, 5⟩] (by decide) (by decide)) 4 (by decide)).1,
    by decide, by decide⟩

theorem savingRelease_ok_frame {s s' : SavingState} {evs : List BEvent}
    (h : savingReleaseTrajTensors s = Except.ok (s', evs)) :
    s'.cfg = s.cfg ∧ s'.available_batches = s.available_batches ∧
    s'.traj_tensors_to_release = s.traj_tensors_to_release := by
  unfold savingReleaseTrajTensors at h
  cases hb : s.cfg.batched_sampling with
  | true =>
    rw [hb] at h
    simp only [if_true] at h
    exact absurd h (by simp)
  | false =>
    rw [hb] at h
    simp only [Bool.false_eq_true, if_false, Except.ok.injEq, Prod.mk.injEq] at h
    obtain ⟨h1, -⟩ := h
    rw [← h1]
    exact ⟨rfl, rfl, rfl⟩

theorem savingEnqueue_async_error (t : SavingState)
    (ht : t.cfg.async_rl = true) (hne : t.available_batches ≠ []) :
    ∃ msg, savingMaybeEnqueueNewTrainingBatches t = Except.error msg := by
  cases hav : t.available_batches with
  | nil => exact absurd hav hne
  | cons idx rest =>
    unfold savingMaybeEnqueueNewTrainingBatches
    rw [hav]
    simp only [List.length_cons]
    by_cases hp : t.traj_tensors_to_release[idx]?.getD [] = []
    · exact ⟨"NotImplementedError: not implemented for saving batcher",
        by simp [savingMaybeEnqueueLoop, hav, hp, ht]⟩
    · exact ⟨"AssertionError", by simp [savingMaybeEnqueueLoop, hav, hp]⟩

theorem savingOnRelease_async_error (s : SavingState) (batch_idx : Nat)
    (it : Int) (hasync : s.cfg.async_rl = true) :
    ∃ msg, savingOnTrainingBatchReleased s batch_idx it = Except.error msg := by
  have hne : (savingReleasedState s batch_idx it).available_batches ≠ [] := by
    simp [savingReleasedState]
  have hcfg0 : (savingReleasedState s batch_idx it).cfg = s.cfg := rfl
  unfold savingOnTrainingBatchReleased
  by_cases hc : s.saving_cfg.train_iter_to_data_collection_ratio ≤
      it - s.prev_data_collect_iteration ∧
      s.saving_cfg.min_initial_train_iters < it
  · rw [if_pos hc]
    cases hrel : savingReleaseTrajTensors (savingReleasedState s batch_idx it) with
    | error e => exact ⟨e, rfl⟩
    | ok p =>
      obtain ⟨s1, evs1⟩ := p
      obtain ⟨hc1, ha1, -⟩ := savingRelease_ok_frame hrel
      have hne2 : ({ s1 with prev_data_collect_iteration := it } :
          SavingState).available_batches ≠ [] := by
        show s1.available_batches ≠ []
        rw [ha1]; exact hne
      have hcfg2 : ({ s1 with prev_data_collect_iteration := it } :
          SavingState).cfg.async_rl = true := by
        show s1.cfg.async_rl = true
        rw [hc1, hcfg0]; exact hasync
      obtain ⟨msg, hmsg⟩ := savingEnqueue_async_error _ hcfg2 hne2
      refine ⟨msg, ?_⟩
      simp only [Except.bind, hmsg]
  · rw [if_neg hc]
    obtain ⟨msg, hmsg⟩ :=
      savingEnqueue_async_error _ (by rw [hcfg0]; exact hasync) hne
    refine ⟨msg, ?_⟩
    simp only [Except.bind, hmsg]

/-- Counterexample to C10: for both unsupported configuration combinations
(asynchronous mode with the saving batcher, and batched sampling with the
saving batcher), `SavingBatcher` setup succeeds without reporting any
configuration error, and the failure (`NotImplementedError`) is only raised
later during operation — at the first batch-assembly pass for `async_rl`,
and at the first trajectory release for `batched_sampling`. -/
theorem C10_counterexample :
    (∃ st, SavingBatcher.init ⟨true, false⟩ ⟨1, 0⟩ 1 = Except.ok st ∧
      ∃ msg, savingMaybeEnqueueNewTrainingBatches st = Except.error msg) ∧
    (∃ st, SavingBatcher.init ⟨false, true⟩ ⟨1, 0⟩ 1 = Except.ok st ∧
      ∃ msg, savingReleaseTrajTensors st = Except.error msg) :=
  ⟨⟨_, rfl, ⟨"NotImplementedError: not implemented for saving batcher", rfl⟩⟩,
    ⟨_, rfl, ⟨"NotImplementedError", rfl⟩⟩⟩

/-- C10 (amended): `SavingBatcher` setup performs no configuration
validation and succeeds for every configuration, including the unsupported
combinations; instead, a `NotImplementedError` is raised at runtime — with
`async_rl`, by the first batch-assembly pass that finds a free buffer and by
every batch acknowledgement, and with `batched_sampling`, by every
trajectory release. -/
theorem C10_errors_at_runtime_not_setup (cfg : BatcherCfg) (scfg : SavingCfg)
    (K : Nat) (s : SavingState) (batch_idx : Nat) (it : Int) :
    (∃ st, SavingBatcher.init cfg scfg K = Except.ok st) ∧
    (s.cfg.async_rl = true → s.available_batches ≠ [] →
      ∃ msg, savingMaybeEnqueueNewTrainingBatches s = Except.error msg) ∧
    (s.cfg.async_rl = true →
      ∃ msg, savingOnTrainingBatchReleased s batch_idx it = Except.error msg) ∧
    (s.cfg.batched_sampling = true →
      ∃ msg, savingReleaseTrajTensors s = Except.error msg) :=
  ⟨⟨_, rfl⟩,
    fun h hne => savingEnqueue_async_error s h hne,
    fun h => savingOnRelease_async_error s batch_idx it h,
    fun h => ⟨"NotImplementedError", by
      unfold savingReleaseTrajTensors
      rw [h]
      rfl⟩⟩

/-- Witness for C10 (amended): with both unsupported flags set, setup
succeeds, yet batch assembly, batch acknowledgement and trajectory release
all report runtime errors on the state setup produced. -/
theorem C10_errors_at_runtime_not_setup_witness :
    (∃ st, SavingBatcher.init ⟨true, true⟩ ⟨1, 0⟩ 1 = Except.ok st) ∧
    (∃ msg, savingMaybeEnqueueNewTrainingBatches
      { cfg := ⟨true, true⟩, saving_cfg := ⟨1, 0⟩, available_batches := [0],
        traj_tensors_to_release := [[]], traj_slices_to_release := [],
        slices_for_training := [], training_iteration := 0,
        prev_data_collect_iteration := 0 } = Except.error msg) ∧
    (∃ msg, savingOnTrainingBatchReleased
      { cfg := ⟨true, true⟩, saving_cfg := ⟨1, 0⟩, available_batches := [0],
        traj_tensors_to_release := [[]], traj_slices_to_release := [],
        slices_for_training := [], training_iteration := 0,
        prev_data_collect_iteration := 0 } 0 1 = Except.error msg) ∧
    (∃ msg, savingReleaseTrajTensors
      { cfg := ⟨true, true⟩, saving_cfg := ⟨1, 0⟩, available_batches := [0],
        traj_tensors_to_release := [[]], traj_slices_to_release := [],
        slices_for_training := [], training_iteration := 0,
        prev_data_collect_iteration := 0 } = Except.error msg) :=
  ⟨(C10_errors_at_runtime_not_setup ⟨true, true⟩ ⟨1, 0⟩ 1
      { cfg := ⟨true, true⟩, saving_cfg := ⟨1, 0⟩, available_batches := [0],
        traj_tensors_to_release := [[]], traj_slices_to_release := [],
        slices_for_training := [], training_iteration := 0,
        prev_data_collect_iteration := 0 } 0 1).1,
    (C10_errors_at_runtime_not_setup ⟨true, true⟩ ⟨1, 0⟩ 1
      { cfg := ⟨true, true⟩, saving_cfg := ⟨1, 0⟩, available_batches := [0],
        traj_tensors_to_release := [[]], traj_slices_to_release := [],
        slices_for_training := [], training_iteration := 0,
        prev_data_collect_iteration := 0 } 0 1).2.1 rfl (by decide),
    (C10_errors_at_runtime_not_setup ⟨true, true⟩ ⟨1, 0⟩ 1
      { cfg := ⟨true, true⟩, saving_cfg := ⟨1, 0⟩, available_batches := [0],
        traj_tensors_to_release := [[]], traj_slices_to_release := [],
        slices_for_training := [], training_iteration := 0,
        prev_data_collect_iteration := 0 } 0 1).2.2.1 rfl,
    (C10_errors_at_runtime_not_setup ⟨true, true⟩ ⟨1, 0⟩ 1
      { cfg := ⟨true, true⟩, saving_cfg := ⟨1, 0⟩, available_batches := [0],
        traj_tensors_to_release := [[]], traj_slices_to_release := [],
        slices_for_training := [], training_iteration := 0,
        prev_data_collect_iteration := 0 } 0 1).2.2.2 rfl⟩

theorem putPayloads_nil (d : Device) : putPayloads [] d = [] := rfl

theorem putPayloads_append (xs ys : List BEvent) (d : Device) :
    putPayloads (xs ++ ys) d = putPayloads xs d ++ putPayloads ys d := by
  simp [putPayloads]

theorem putPayloads_cons_ready (i : Nat) (evs : List BEvent) (d : Device) :
    putPayloads (BEvent.training_batches_available i :: evs) d =
      putPayloads evs d := rfl

theorem putPayloads_cons_stop (evs : List BEvent) (d : Device) :
    putPayloads (BEvent.stop_experience_collection :: evs) d =
      putPayloads evs d := rfl

theorem putPayloads_cons_tba (it : Int) (evs : List BEvent) (d : Device) :
    putPayloads (BEvent.trajectory_buffers_available it :: evs) d =
      putPayloads evs d := rfl

theorem putPayloads_cons_put_eq (a : Device) (v : List Int) (evs : List BEvent) :
    putPayloads (BEvent.put_many a v :: evs) a = v :: putPayloads evs a := by
  simp [putPayloads, List.filterMap_cons]

theorem putPayloads_cons_put_ne {a d : Device} (h : a ≠ d) (v : List Int)
    (evs : List BEvent) :
    putPayloads (BEvent.put_many a v :: evs) d = putPayloads evs d := by
  simp [putPayloads, List.filterMap_cons, h]

theorem pendIdxs_nil (d : Device) : pendIdxs [] d = [] := rfl

theorem pendIdxs_cons_eq (d : Device) (s : Slice) (tl : List (Device × Slice)) :
    pendIdxs ((d, s) :: tl) d = rangeList s ++ pendIdxs tl d := by
  simp [pendIdxs, List.filter_cons]

theorem pendIdxs_cons_ne {d0 d : Device} (h : d0 ≠ d) (s : Slice)
    (tl : List (Device × Slice)) :
    pendIdxs ((d0, s) :: tl) d = pendIdxs tl d := by
  simp [pendIdxs, List.filter_cons, h]

theorem dictAppend_get_self (acc : PyDict Device (List Int)) (k : Device)
    (xs : List Int) :
    PyDict.get (dictAppend acc k xs) k =
      some ((PyDict.get acc k).getD [] ++ xs) := by
  unfold dictAppend
  cases hg : PyDict.get acc k with
  | some l => rw [PyDict.get_set_self]; rfl
  | none =>
    rw [PyDict.get_append_singleton_eq (PyDict.get_eq_none_iff.mp hg)]
    rfl

theorem dictAppend_get_ne (acc : PyDict Device (List Int)) {k d : Device}
    (h : d ≠ k) (xs : List Int) :
    PyDict.get (dictAppend acc k xs) d = PyDict.get acc d := by
  unfold dictAppend
  cases hg : PyDict.get acc k with
  | some l => exact PyDict.get_set_ne _ h
  | none => exact PyDict.get_append_singleton_ne h

theorem dictAppend_keys_nodup {acc : PyDict Device (List Int)}
    (h : (PyDict.keys acc).Nodup) (k : Device) (xs : List Int) :
    (PyDict.keys (dictAppend acc k xs)).Nodup := by
  unfold dictAppend
  cases hg : PyDict.get acc k with
  | some l =>
    have hmem : ∃ p ∈ acc, p.1 = k := ⟨(k, l), PyDict.get_mem hg, rfl⟩
    rw [PyDict.keys_set_of_mem hmem]
    exact h
  | none =>
    have hnk : k ∉ PyDict.keys acc := by
      intro hk
      obtain ⟨p, hp, hpk⟩ := List.mem_map.mp hk
      exact PyDict.get_eq_none_iff.mp hg p hp hpk
    show (PyDict.keys (acc ++ [(k, xs)])).Nodup
    unfold PyDict.keys
    rw [List.map_append]
    simp [List.nodup_append, hnk]
    exact ⟨h, fun x hx => PyDict.get_eq_none_iff.mp hg (k, x) hx rfl⟩

theorem foldl_dictAppend_keys_nodup (pend : List (Device × Slice)) :
    ∀ (acc : PyDict Device (List Int)), (PyDict.keys acc).Nodup →
      (PyDict.keys (pend.foldl
        (fun acc ds => dictAppend acc ds.1 (rangeList ds.2)) acc)).Nodup := by
  induction pend with
  | nil => intro acc h; exact h
  | cons hd tl ih =>
    intro acc h
    rw [List.foldl_cons]
    exact ih _ (dictAppend_keys_nodup h hd.1 (rangeList hd.2))

theorem foldl_dictAppend_get (pend : List (Device × Slice)) :
    ∀ (acc : PyDict Device (List Int)) (d : Device),
      PyDict.get (pend.foldl
        (fun acc ds => dictAppend acc ds.1 (rangeList ds.2)) acc) d =
        match PyDict.get acc d with
        | some l => some (l ++ pendIdxs pend d)
        | none =>
          if d ∈ pend.map Prod.fst then some (pendIdxs pend d) else none := by
  induction pend with
  | nil =>
    intro acc d
    cases hg : PyDict.get acc d with
    | some l => simp [hg, pendIdxs_nil]
    | none => simp [hg]
  | cons hd tl ih =>
    obtain ⟨d0, s0⟩ := hd
    intro acc d
    rw [List.foldl_cons, ih]
    by_cases hdd : d0 = d
    · subst hdd
      rw [dictAppend_get_self]
      cases hg : PyDict.get acc d0 with
      | some l => simp [hg, pendIdxs_cons_eq]
      | none => simp [hg, pendIdxs_cons_eq]
    · rw [dictAppend_get_ne acc (fun h => hdd h.symm) (rangeList s0)]
      cases hg : PyDict.get acc d with
      | some l => simp [hg, pendIdxs_cons_ne hdd]
      | none =>
        simp only [hg, pendIdxs_cons_ne hdd, List.map_cons]
        by_cases hmem : d ∈ List.map Prod.fst tl
        · rw [if_pos hmem, if_pos (List.mem_cons_of_mem d0 hmem)]
        · rw [if_neg hmem, if_neg (fun hc => by
            rcases List.mem_cons.mp hc with h1 | h1
            · exact hdd h1.symm
            · exact hmem h1)]

theorem putPayloads_sorted_map (l : PyDict Device (List Int)) (d : Device)
    (h : (PyDict.keys l).Nodup) :
    putPayloads ((l.map (fun p => (p.1, List.insertionSort (· ≤ ·) p.2))).map
      (fun p => BEvent.put_many p.1 p.2)) d =
      match PyDict.get l d with
      | some v => [List.insertionSort (· ≤ ·) v]
      | none => [] := by
  induction l with
  | nil => rfl
  | cons p tl ih =>
    obtain ⟨a, v⟩ := p
    have h' : a ∉ PyDict.keys tl ∧ (PyDict.keys tl).Nodup := List.nodup_cons.mp h
    by_cases had : a = d
    · subst had
      rw [List.map_cons, List.map_cons]
      rw [putPayloads_cons_put_eq, PyDict.get_cons_of_eq, ih h'.2,
        PyDict.get_none_of_not_mem_keys h'.1]
    · rw [List.map_cons, List.map_cons]
      rw [putPayloads_cons_put_ne had, PyDict.get_cons_of_ne had, ih h'.2]

theorem releaseTrajTensors_unbatched_events (b : Batcher) (idx : Nat)
    (hb : b.cfg.batched_sampling = false) :
    (releaseTrajTensors b idx).2 =
      ((((b.traj_tensors_to_release.getD idx []).foldl
          (fun acc ds => dictAppend acc ds.1 (rangeList ds.2)) []).map
        (fun p => (p.1, List.insertionSort (· ≤ ·) p.2))).map
          (fun p => BEvent.put_many p.1 p.2)) ++
        [BEvent.trajectory_buffers_available b.training_iteration] := by
  unfold releaseTrajTensors
  rw [hb]
  rfl

theorem releaseTrajTensors_unbatched_puts (b : Batcher) (idx : Nat)
    (hb : b.cfg.batched_sampling = false) (d : Device) :
    putPayloads (releaseTrajTensors b idx).2 d =
      if d ∈ (b.traj_tensors_to_release.getD idx []).map Prod.fst then
        [List.insertionSort (· ≤ ·)
          (pendIdxs (b.traj_tensors_to_release.getD idx []) d)]
      else [] := by
  rw [releaseTrajTensors_unbatched_events b idx hb, putPayloads_append,
    putPayloads_cons_tba, putPayloads_nil, List.append_nil]
  rw [putPayloads_sorted_map _ d
    (foldl_dictAppend_keys_nodup _ [] List.nodup_nil)]
  have hget : PyDict.get ((b.traj_tensors_to_release.getD idx []).foldl
      (fun acc ds => dictAppend acc ds.1 (rangeList ds.2)) []) d =
      if d ∈ (b.traj_tensors_to_release.getD idx []).map Prod.fst then
        some (pendIdxs (b.traj_tensors_to_release.getD idx []) d)
      else none :=
    foldl_dictAppend_get (b.traj_tensors_to_release.getD idx []) [] d
  rw [hget]
  by_cases hmem : d ∈ (b.traj_tensors_to_release.getD idx []).map Prod.fst
  · rw [if_pos hmem, if_pos hmem]
  · rw [if_neg hmem, if_neg hmem]

theorem maybeEnqueueLoop_sync_no_put (sh : Nat → List Device) :
    ∀ (fuel k : Nat) (b : Batcher), b.cfg.async_rl = false → ∀ d,
      putPayloads (maybeEnqueueLoop sh fuel k b).2 d = [] := by
  intro fuel
  induction fuel with
  | zero => intro k b _ d; rfl
  | succ fuel ih =>
    intro k b hb d
    cases hav : b.available_batches with
    | nil => rw [maybeEnqueueLoop_nil sh _ _ b hav]; rfl
    | cons idx rest =>
      by_cases htot : sumTotals b.slices_for_training < b.traj_per_training_iteration
      · have heq : maybeEnqueueLoop sh (fuel + 1) k b = (b, []) := by
          simp [maybeEnqueueLoop, hav, htot]
        rw [heq]; rfl
      · have hunfold : maybeEnqueueLoop sh (fuel + 1) k b =
            ((maybeEnqueueLoop sh fuel (k + 1) (enqueueMidState sh k b idx rest)).1,
              BEvent.training_batches_available idx ::
                (maybeEnqueueLoop sh fuel (k + 1)
                  (enqueueMidState sh k b idx rest)).2) := by
          simp [maybeEnqueueLoop, hav, htot, hb, enqueueMidState]
        rw [hunfold]
        show putPayloads (BEvent.training_batches_available idx ::
          (maybeEnqueueLoop sh fuel (k + 1) (enqueueMidState sh k b idx rest)).2) d = []
        rw [putPayloads_cons_ready]
        exact ih (k + 1) (enqueueMidState sh k b idx rest) hb d

theorem maybeEnqueue_sync_no_put (sh : Nat → List Device) (b : Batcher)
    (hb : b.cfg.async_rl = false) (d : Device) :
    putPayloads (maybeEnqueueNewTrainingBatches sh b).2 d = [] :=
  maybeEnqueueLoop_sync_no_put sh _ 0 b hb d

theorem maybeEnqueueLoop_async_single (sh : Nat → List Device) (fuel k : Nat)
    (b : Batcher) (idx' : Nat) (hasync : b.cfg.async_rl = true)
    (hav : b.available_batches = [idx'])
    (htot : ¬ sumTotals b.slices_for_training < b.traj_per_training_iteration) :
    (maybeEnqueueLoop sh (fuel + 1) k b).2 =
      BEvent.training_batches_available idx' ::
        ((releaseTrajTensors (enqueueMidState sh k b idx' []) idx').2 ++
          [BEvent.stop_experience_collection]) := by
  have hrelAv : (releaseTrajTensors (enqueueMidState sh k b idx' [])
      idx').1.available_batches = [] :=
    (releaseTrajTensors_frame _ _).2.1.trans rfl
  have hcont := maybeEnqueueLoop_nil sh fuel (k + 1) _ hrelAv
  have hisE : ((releaseTrajTensors (enqueueMidState sh k b idx' [])
      idx').1.available_batches.isEmpty) = true := by
    rw [hrelAv]; rfl
  have hunfold : maybeEnqueueLoop sh (fuel + 1) k b =
      ((maybeEnqueueLoop sh fuel (k + 1)
          (releaseTrajTensors (enqueueMidState sh k b idx' []) idx').1).1,
        BEvent.training_batches_available idx' ::
          ((releaseTrajTensors (enqueueMidState sh k b idx' []) idx').2 ++
          (if (releaseTrajTensors (enqueueMidState sh k b idx' [])
              idx').1.available_batches.isEmpty then
            [BEvent.stop_experience_collection] else []) ++
          (maybeEnqueueLoop sh fuel (k + 1)
            (releaseTrajTensors (enqueueMidState sh k b idx' []) idx').1).2)) := by
    simp [maybeEnqueueLoop, hav, htot, hasync, enqueueMidState]
  rw [hunfold, hcont, hisE]
  simp

theorem taggedIn_nil (d : Device) (i : Int) : ¬ taggedIn [] d i := by
  rintro ⟨s, hs, -⟩
  cases hs

theorem taggedIn_cons {p : Device × Slice} {l : List (Device × Slice)}
    {d : Device} {i : Int} :
    taggedIn (p :: l) d i ↔ (p.1 = d ∧ inSlice i p.2) ∨ taggedIn l d i := by
  constructor
  · rintro ⟨s, hs, hin⟩
    rcases List.mem_cons.mp hs with h | h
    · left
      rw [← h]
      exact ⟨rfl, hin⟩
    · right
      exact ⟨s, h, hin⟩
  · rintro (⟨h1, h2⟩ | ⟨s, hs, hin⟩)
    · refine ⟨p.2, ?_, h2⟩
      rw [← h1]
      exact List.mem_cons_self _ _
    · exact ⟨s, List.mem_cons_of_mem _ hs, hin⟩

theorem taggedIn_sublist {l l' : List (Device × Slice)} {d : Device} {i : Int}
    (h : ∀ p ∈ l, p ∈ l') : taggedIn l d i → taggedIn l' d i := by
  rintro ⟨s, hs, hin⟩
  exact ⟨s, h _ hs, hin⟩

theorem modify_absent {α β : Type} [DecidableEq α] {d : PyDict α β} {k : α}
    (f : β → β) (h : ∀ p ∈ d, p.1 ≠ k) : PyDict.modify d k f = d := by
  unfold PyDict.modify
  induction d with
  | nil => rfl
  | cons hd tl ih =>
    simp only [List.map_cons]
    rw [if_neg (h hd (List.mem_cons_self _ _)),
      ih (fun p hp => h p (List.mem_cons_of_mem _ hp))]

theorem get_isSome_of_mem_keys {α β : Type} [DecidableEq α] {d : PyDict α β}
    {k : α} (h : k ∈ PyDict.keys d) : ∃ v, PyDict.get d k = some v := by
  obtain ⟨p, hp, hpk⟩ := List.mem_map.mp h
  cases hg : PyDict.get d k with
  | some v => exact ⟨v, rfl⟩
  | none => exact absurd hpk (PyDict.get_eq_none_iff.mp hg p hp)

theorem mem_keys_of_get {α β : Type} [DecidableEq α] {d : PyDict α β} {k : α}
    {v : β} (h : PyDict.get d k = some v) : k ∈ PyDict.keys d :=
  List.mem_map.mpr ⟨(k, v), PyDict.get_mem h, rfl⟩

theorem get_value_map {β γ : Type} (g : β → γ) :
    ∀ (st : PyDict Device β) (d : Device),
    PyDict.get (st.map (fun p => (p.1, g p.2))) d =
      (PyDict.get st d).map g := by
  intro st
  induction st with
  | nil => intro d; rfl
  | cons p tl ih =>
    intro d
    obtain ⟨a, v⟩ := p
    simp only [List.map_cons]
    by_cases had : a = d
    · subst had
      rw [PyDict.get_cons_of_eq, PyDict.get_cons_of_eq]
      rfl
    · rw [PyDict.get_cons_of_ne had, PyDict.get_cons_of_ne had, ih]

theorem keys_value_map {β γ : Type} (g : β → γ) (st : PyDict Device β) :
    PyDict.keys (st.map (fun p => (p.1, g p.2))) = PyDict.keys st := by
  unfold PyDict.keys
  rw [List.map_map]
  apply List.map_congr_left
  intro p _
  rfl

theorem coveredAt_modify_merge {st : PyDict Device SliceMerger} {d0 : Device}
    {s0 : Slice} {m0 : SliceMerger} (hg : PyDict.get st d0 = some m0)
    (hcov : ∀ i : Int, (m0.merge_slices s0).covered i ↔
      m0.covered i ∨ inSlice i s0) :
    ∀ (d : Device) (i : Int),
      coveredAt (st.modify d0 (fun m => m.merge_slices s0)) d i ↔
        coveredAt st d i ∨ (d = d0 ∧ inSlice i s0) := by
  intro d i
  by_cases hd : d = d0
  · subst hd
    unfold coveredAt
    rw [PyDict.get_modify_self, hg]
    constructor
    · rintro ⟨m, hm, hc⟩
      simp only [Option.map_some', Option.some.injEq] at hm
      rw [← hm] at hc
      rcases (hcov i).mp hc with h | h
      · exact Or.inl ⟨m0, rfl, h⟩
      · exact Or.inr ⟨rfl, h⟩
    · rintro (⟨m, hm, hc⟩ | ⟨-, h⟩)
      · injection hm with hm
        refine ⟨m0.merge_slices s0, rfl, (hcov i).mpr (Or.inl ?_)⟩
        rw [hm]
        exact hc
      · exact ⟨m0.merge_slices s0, rfl, (hcov i).mpr (Or.inr h)⟩
  · unfold coveredAt
    rw [PyDict.get_modify_ne _ hd]
    constructor
    · intro h
      exact Or.inl h
    · rintro (h | ⟨h, -⟩)
      · exact h
      · exact absurd h hd

theorem foldl_merge_pairs_spec :
    ∀ (l : List (Device × Slice)) (st : PyDict Device SliceMerger),
    (∀ p ∈ st, SliceMerger.WF p.2) → (PyDict.keys st).Nodup →
    (∀ ds ∈ l, ds.2.start < ds.2.stop) →
    l.Pairwise (fun p q => p.1 = q.1 → ∀ i : Int,
      inSlice i p.2 → ¬ inSlice i q.2) →
    (∀ ds ∈ l, ∀ i : Int, inSlice i ds.2 → ¬ coveredAt st ds.1 i) →
    (∀ p ∈ l.foldl (fun sp ds => sp.modify ds.1 (fun m => m.merge_slices ds.2))
        st, SliceMerger.WF p.2) ∧
    PyDict.keys (l.foldl (fun sp ds => sp.modify ds.1
      (fun m => m.merge_slices ds.2)) st) = PyDict.keys st ∧
    (∀ (d : Device) (i : Int),
      coveredAt (l.foldl (fun sp ds => sp.modify ds.1
        (fun m => m.merge_slices ds.2)) st) d i ↔
        coveredAt st d i ∨ (taggedIn l d i ∧ d ∈ PyDict.keys st)) := by
  intro l
  induction l with
  | nil =>
    intro st hwf hnd _ _ _
    refine ⟨hwf, rfl, fun d i => ?_⟩
    simp [taggedIn_nil]
  | cons hd tl ih =>
    obtain ⟨d0, s0⟩ := hd
    intro st hwf hnd hval hpw hdis
    have hval' : ∀ ds ∈ tl, ds.2.start < ds.2.stop :=
      fun ds hds => hval ds (List.mem_cons_of_mem _ hds)
    have hpw' := (List.pairwise_cons.mp hpw).2
    have hpwhd := (List.pairwise_cons.mp hpw).1
    rw [List.foldl_cons]
    cases hg : PyDict.get st d0 with
    | none =>
      have heq : PyDict.modify st d0 (fun m => m.merge_slices s0) = st :=
        modify_absent _ (PyDict.get_eq_none_iff.mp hg)
      rw [heq]
      obtain ⟨h1, h2, h3⟩ := ih st hwf hnd hval' hpw'
        (fun ds hds => hdis ds (List.mem_cons_of_mem _ hds))
      refine ⟨h1, h2, fun d i => ?_⟩
      rw [h3 d i, taggedIn_cons]
      constructor
      · rintro (h | ⟨h, hk⟩)
        · exact Or.inl h
        · exact Or.inr ⟨Or.inr h, hk⟩
      · rintro (h | ⟨⟨hh, -⟩ | h, hk⟩)
        · exact Or.inl h
        · exact absurd (hh.symm ▸ hk)
            (fun hc => by
              obtain ⟨v, hv⟩ := get_isSome_of_mem_keys hc
              rw [hg] at hv
              cases hv)
        · exact Or.inr ⟨h, hk⟩
    | some m0 =>
      have hm0 : (d0, m0) ∈ st := PyDict.get_mem hg
      have hwm0 : SliceMerger.WF m0 := hwf _ hm0
      have hv0 : s0.start < s0.stop := hval _ (List.mem_cons_self _ _)
      have hdis0 : ∀ i : Int, m0.covered i → ¬ inSlice i s0 := by
        intro i hc hin
        exact hdis (d0, s0) (List.mem_cons_self _ _) i hin ⟨m0, hg, hc⟩
      obtain ⟨hwfm, hcovm⟩ := SliceMerger.merge_slices_spec hwm0 hv0 hdis0
      have hnd1 : (PyDict.keys (st.modify d0
          (fun m => m.merge_slices s0))).Nodup := by
        rw [PyDict.keys_modify]
        exact hnd
      have hcov1 := coveredAt_modify_merge hg hcovm
      have hwf1 : ∀ p ∈ st.modify d0 (fun m => m.merge_slices s0),
          SliceMerger.WF p.2 := by
        intro p hp
        have hgp : PyDict.get (st.modify d0 (fun m => m.merge_slices s0)) p.1 =
            some p.2 := PyDict.get_eq_some_of_mem hnd1 (by
          rw [show (p.1, p.2) = p from rfl]
          exact hp)
        by_cases hk : p.1 = d0
        · rw [hk, PyDict.get_modify_self, hg] at hgp
          simp only [Option.map_some', Option.some.injEq] at hgp
          rw [← hgp]
          exact hwfm
        · rw [PyDict.get_modify_ne _ hk] at hgp
          exact hwf _ (PyDict.get_mem hgp)
      have hdis1 : ∀ ds ∈ tl, ∀ i : Int, inSlice i ds.2 →
          ¬ coveredAt (st.modify d0 (fun m => m.merge_slices s0)) ds.1 i := by
        intro ds hds i hin hc
        rcases (hcov1 ds.1 i).mp hc with h | ⟨hd0, hin0⟩
        · exact hdis ds (List.mem_cons_of_mem _ hds) i hin h
        · exact hpwhd ds hds hd0.symm i hin0 hin
      obtain ⟨h1, h2, h3⟩ := ih _ hwf1 hnd1 hval' hpw' hdis1
      have hmemk : d0 ∈ PyDict.keys st := mem_keys_of_get hg
      refine ⟨h1, by rw [h2, PyDict.keys_modify], fun d i => ?_⟩
      rw [h3 d i, PyDict.keys_modify, hcov1 d i, taggedIn_cons]
      constructor
      · rintro ((h | ⟨hd0, hin⟩) | ⟨ht, hk⟩)
        · exact Or.inl h
        · exact Or.inr ⟨Or.inl ⟨hd0.symm ▸ rfl, hin⟩, hd0 ▸ hmemk⟩
        · exact Or.inr ⟨Or.inr ht, hk⟩
      · rintro (h | ⟨⟨hd0, hin⟩ | ht, hk⟩)
        · exact Or.inl (Or.inl h)
        · exact Or.inl (Or.inr ⟨hd0.symm, hin⟩)
        · exact Or.inr ⟨ht, hk⟩

theorem getExactlyLoop_spec :
    ∀ (fuel : Nat) (m : SliceMerger) (n : Int), SliceMerger.WF m → 1 ≤ n →
    SliceMerger.WF (getExactlyLoop fuel m n).2 ∧
    (∀ i : Int, (getExactlyLoop fuel m n).2.covered i → m.covered i) := by
  intro fuel
  induction fuel with
  | zero => intro m n hwf _; exact ⟨hwf, fun _ h => h⟩
  | succ fuel ih =>
    intro m n hwf hn
    cases hge : m.get_exactly n with
    | none =>
      simp only [getExactlyLoop, hge]
      exact ⟨hwf, fun _ h => h⟩
    | some p =>
      obtain ⟨s, m'⟩ := p
      obtain ⟨t, htm, hlen, hdec, hr, hwf', hcov', htot⟩ :=
        SliceMerger.get_exactly_spec hwf hn hge
      simp only [getExactlyLoop, hge]
      obtain ⟨ih1, ih2⟩ := ih m' n hwf' hn
      exact ⟨ih1, fun i h => ((hcov' i).mp (ih2 i h)).1⟩

theorem releaseTrajTensors_frame2 (b : Batcher) (idx : Nat) :
    (releaseTrajTensors b idx).1.traj_per_sampling_iteration =
      b.traj_per_sampling_iteration := by
  unfold releaseTrajTensors
  cases hb : b.cfg.batched_sampling <;> simp [hb]

theorem releaseTrajTensors_sampling_unbatched (b : Batcher) (idx : Nat)
    (hb : b.cfg.batched_sampling = false) :
    (releaseTrajTensors b idx).1.slices_for_sampling =
      b.slices_for_sampling := by
  unfold releaseTrajTensors
  rw [hb]
  rfl

theorem releaseTrajTensors_sampling_batched (b : Batcher) (idx : Nat)
    (hb : b.cfg.batched_sampling = true) :
    (releaseTrajTensors b idx).1.slices_for_sampling =
      ((b.traj_tensors_to_release.getD idx []).foldl
          (fun sp ds => sp.modify ds.1 (fun m => m.merge_slices ds.2))
          b.slices_for_sampling).map
        (fun p => (p.1, (getExactlyLoop (p.2.total_num.toNat + 1) p.2
          b.traj_per_sampling_iteration).2)) := by
  unfold releaseTrajTensors
  rw [hb]
  show ((((b.traj_tensors_to_release.getD idx []).foldl
      (fun sp ds => sp.modify ds.1 (fun m => m.merge_slices ds.2))
      b.slices_for_sampling).map
    (fun p => (p.1, getExactlyLoop (p.2.total_num.toNat + 1) p.2
      b.traj_per_sampling_iteration))).map (fun p => (p.1, p.2.2))) = _
  rw [List.map_map]
  rfl

theorem releaseTrajTensors_sampling (b : Batcher) (idx : Nat)
    (hwfS : ∀ p ∈ b.slices_for_sampling, SliceMerger.WF p.2)
    (hndS : (PyDict.keys b.slices_for_sampling).Nodup)
    (hS : 1 ≤ b.traj_per_sampling_iteration)
    (hval : ∀ ds ∈ b.traj_tensors_to_release.getD idx [],
      ds.2.start < ds.2.stop)
    (hpw : (b.traj_tensors_to_release.getD idx []).Pairwise
      (fun p q => p.1 = q.1 → ∀ i : Int, inSlice i p.2 → ¬ inSlice i q.2))
    (hdis : ∀ ds ∈ b.traj_tensors_to_release.getD idx [], ∀ i : Int,
      inSlice i ds.2 → ¬ coveredAt b.slices_for_sampling ds.1 i) :
    (∀ p ∈ (releaseTrajTensors b idx).1.slices_for_sampling,
      SliceMerger.WF p.2) ∧
    PyDict.keys (releaseTrajTensors b idx).1.slices_for_sampling =
      PyDict.keys b.slices_for_sampling ∧
    (∀ (d : Device) (i : Int),
      coveredAt (releaseTrajTensors b idx).1.slices_for_sampling d i →
        coveredAt b.slices_for_sampling d i ∨
          taggedIn (b.traj_tensors_to_release.getD idx []) d i) := by
  cases hbs : b.cfg.batched_sampling with
  | false =>
    rw [releaseTrajTensors_sampling_unbatched b idx hbs]
    exact ⟨hwfS, rfl, fun d i h => Or.inl h⟩
  | true =>
    rw [releaseTrajTensors_sampling_batched b idx hbs]
    obtain ⟨hwf1, hk1, hcov1⟩ := foldl_merge_pairs_spec
      (b.traj_tensors_to_release.getD idx []) b.slices_for_sampling
      hwfS hndS hval hpw hdis
    have hnd1 : (PyDict.keys ((b.traj_tensors_to_release.getD idx []).foldl
        (fun sp ds => sp.modify ds.1 (fun m => m.merge_slices ds.2))
        b.slices_for_sampling)).Nodup := by
      rw [hk1]
      exact hndS
    have hk2 := keys_value_map
      (fun m : SliceMerger => (getExactlyLoop (m.total_num.toNat + 1) m
        b.traj_per_sampling_iteration).2)
      ((b.traj_tensors_to_release.getD idx []).foldl
        (fun sp ds => sp.modify ds.1 (fun m => m.merge_slices ds.2))
        b.slices_for_sampling)
    have hnd2 : (PyDict.keys ((((b.traj_tensors_to_release.getD idx []).foldl
        (fun sp ds => sp.modify ds.1 (fun m => m.merge_slices ds.2))
        b.slices_for_sampling)).map
        (fun p => (p.1, (getExactlyLoop (p.2.total_num.toNat + 1) p.2
          b.traj_per_sampling_iteration).2)))).Nodup := by
      rw [hk2]
      exact hnd1
    refine ⟨?_, by rw [hk2, hk1], ?_⟩
    · intro p hp
      have hgp := PyDict.get_eq_some_of_mem hnd2 (by
        rw [show (p.1, p.2) = p from rfl]
        exact hp)
      rw [get_value_map (fun m : SliceMerger => (getExactlyLoop
        (m.total_num.toNat + 1) m b.traj_per_sampling_iteration).2)] at hgp
      cases hg1 : PyDict.get ((b.traj_tensors_to_release.getD idx []).foldl
          (fun sp ds => sp.modify ds.1 (fun m => m.merge_slices ds.2))
          b.slices_for_sampling) p.1 with
      | none => rw [hg1] at hgp; cases hgp
      | some m1 =>
        rw [hg1] at hgp
        simp only [Option.map_some', Option.some.injEq] at hgp
        rw [← hgp]
        exact (getExactlyLoop_spec _ m1 _ (hwf1 _ (PyDict.get_mem hg1)) hS).1
    · intro d i hc
      obtain ⟨m2, hm2, hcm2⟩ := hc
      rw [get_value_map (fun m : SliceMerger => (getExactlyLoop
        (m.total_num.toNat + 1) m b.traj_per_sampling_iteration).2)] at hm2
      cases hg1 : PyDict.get ((b.traj_tensors_to_release.getD idx []).foldl
          (fun sp ds => sp.modify ds.1 (fun m => m.merge_slices ds.2))
          b.slices_for_sampling) d with
      | none => rw [hg1] at hm2; cases hm2
      | some m1 =>
        rw [hg1] at hm2
        simp only [Option.map_some', Option.some.injEq] at hm2
        rw [← hm2] at hcm2
        have hcm1 : m1.covered i :=
          (getExactlyLoop_spec _ m1 _ (hwf1 _ (PyDict.get_mem hg1)) hS).2 i hcm2
        rcases (hcov1 d i).mp ⟨m1, hg1, hcm1⟩ with h | ⟨h, -⟩
        · exact Or.inl h
        · exact Or.inr h

theorem eq_nil_of_getD {α : Type} (L : List (List α))
    (h : ∀ j, L.getD j [] = []) : ∀ l ∈ L, l = [] := by
  intro l hl
  obtain ⟨j, hj, he⟩ := List.mem_iff_getElem.mp hl
  have hx := h j
  rw [List.getD_eq_getElem?_getD, List.getElem?_eq_getElem hj] at hx
  rw [← he]
  exact hx

theorem maybeEnqueueLoop_inv (sh : Nat → List Device) :
    ∀ (fuel k : Nat) (b : Batcher), BInv b →
    (∀ j, (sh j).Nodup ∧ (sh j).Perm (PyDict.keys b.slices_for_training)) →
    BInv (maybeEnqueueLoop sh fuel k b).1 := by
  intro fuel
  induction fuel with
  | zero => intro k b hI _; exact hI
  | succ fuel ih =>
    intro k b hI hsh
    cases hav : b.available_batches with
    | nil => rw [maybeEnqueueLoop_nil sh _ _ b hav]; exact hI
    | cons idx rest =>
      by_cases htot : sumTotals b.slices_for_training <
          b.traj_per_training_iteration
      · have heq : maybeEnqueueLoop sh (fuel + 1) k b = (b, []) := by
          simp [maybeEnqueueLoop, hav, htot]
        rw [heq]; exact hI
      · have hspec := assembleOverDevices_spec b.traj_per_training_iteration
          (sh k) b.slices_for_training 0 [] hI.wfT hI.keysT (hsh k).1 le_rfl
          hI.Bnn
        set A := assembleOverDevices b.traj_per_training_iteration (sh k)
          b.slices_for_training 0 [] with hA
        obtain ⟨new, hacc, hcopied, hwfT', hkeys', hsum', hlen', hnewmem,
          hcovIff, hnewpw⟩ := hspec
        rw [List.nil_append] at hacc
        rw [← hacc] at hnewmem hcovIff hnewpw
        have hidxmem : idx ∈ b.available_batches := by
          rw [hav]; exact List.mem_cons_self _ _
        have hidxlt : idx < b.traj_tensors_to_release.length :=
          hI.avail_lt idx hidxmem
        have hidxltT : idx < b.training_batches.length := by
          rw [hI.lenEq]; exact hidxlt
        have hpend0 : b.traj_tensors_to_release.getD idx [] = [] :=
          hI.avail_pend idx hidxmem
        have hrestsub : ∀ j ∈ rest, j ∈ b.available_batches := by
          intro j hj; rw [hav]; exact List.mem_cons_of_mem _ hj
        have hcnodup : (idx :: rest).Nodup := by
          rw [← hav]; exact hI.avail_nodup
        have hrestnd : rest.Nodup := (List.nodup_cons.mp hcnodup).2
        have hidxrest : idx ∉ rest := (List.nodup_cons.mp hcnodup).1
        have e1 : (enqueueMidState sh k b idx rest).slices_for_training =
            A.1 := rfl
        have e2 : (enqueueMidState sh k b idx rest).slices_for_sampling =
            b.slices_for_sampling := rfl
        have e3 : (enqueueMidState sh k b idx rest).available_batches =
            rest := rfl
        have e4 : (enqueueMidState sh k b idx rest).traj_tensors_to_release =
            b.traj_tensors_to_release.set idx A.2.1 := by
          show b.traj_tensors_to_release.set idx
            (b.traj_tensors_to_release.getD idx [] ++ A.2.1) = _
          rw [hpend0, List.nil_append]
        have e5 : (enqueueMidState sh k b idx rest).training_batches =
            b.training_batches.set idx A.2.1 := rfl
        have e6 : (enqueueMidState sh k b idx rest).cfg = b.cfg := rfl
        have hnewcov : ∀ (d : Device) (kk : Int), taggedIn A.2.1 d kk →
            coveredAt b.slices_for_training d kk := by
          rintro d kk ⟨s, hs, hin⟩
          exact (hnewmem (d, s) hs).2.2 kk hin
        have hmidvalid : ∀ l ∈ (enqueueMidState sh k b idx
            rest).traj_tensors_to_release, ∀ ds ∈ l,
            ds.2.start < ds.2.stop := by
          rw [e4]
          intro l hl
          rcases List.mem_or_eq_of_mem_set hl with h | h
          · exact hI.pend_valid l h
          · rw [h]
            intro ds hds
            exact (hnewmem ds hds).2.1
        have hmidself : ∀ l ∈ (enqueueMidState sh k b idx
            rest).traj_tensors_to_release,
            l.Pairwise (fun p q => p.1 = q.1 → ∀ i : Int,
              inSlice i p.2 → ¬ inSlice i q.2) := by
          rw [e4]
          intro l hl
          rcases List.mem_or_eq_of_mem_set hl with h | h
          · exact hI.pend_self l h
          · rw [h]; exact hnewpw
        have hmidpend_idx : (enqueueMidState sh k b idx
            rest).traj_tensors_to_release.getD idx [] = A.2.1 := by
          rw [e4]; exact listGetD_set_self hidxlt
        have hmidpend_ne : ∀ j, j ≠ idx → (enqueueMidState sh k b idx
            rest).traj_tensors_to_release.getD j [] =
            b.traj_tensors_to_release.getD j [] := by
          intro j hj
          rw [e4]
          exact listGetD_set_ne (fun h => hj h.symm)
        have hmiddisj : ∀ i j, i ≠ j → ∀ (d : Device) (kk : Int),
            taggedIn ((enqueueMidState sh k b idx
              rest).traj_tensors_to_release.getD i []) d kk →
            ¬ taggedIn ((enqueueMidState sh k b idx
              rest).traj_tensors_to_release.getD j []) d kk := by
          intro i j hij d kk hti htj
          by_cases hi : i = idx
          · subst hi
            rw [hmidpend_idx] at hti
            rw [hmidpend_ne j (fun h => hij h.symm)] at htj
            exact hI.pend_train j d kk htj (hnewcov d kk hti)
          · rw [hmidpend_ne i hi] at hti
            by_cases hj : j = idx
            · subst hj
              rw [hmidpend_idx] at htj
              exact hI.pend_train i d kk hti (hnewcov d kk htj)
            · rw [hmidpend_ne j hj] at htj
              exact hI.pend_disj i j hij d kk hti htj
        have hmidtrain : ∀ j (d : Device) (kk : Int),
            taggedIn ((enqueueMidState sh k b idx
              rest).traj_tensors_to_release.getD j []) d kk →
            ¬ coveredAt (enqueueMidState sh k b idx
              rest).slices_for_training d kk := by
          intro j d kk ht hc
          rw [e1] at hc
          rcases (hcovIff d kk).mp hc with ⟨hcst, hnotnew⟩
          by_cases hj : j = idx
          · subst hj
            rw [hmidpend_idx] at ht
            exact hnotnew ht
          · rw [hmidpend_ne j hj] at ht
            exact hI.pend_train j d kk ht hcst
        have hmidsamp : ∀ j (d : Device) (kk : Int),
            taggedIn ((enqueueMidState sh k b idx
              rest).traj_tensors_to_release.getD j []) d kk →
            ¬ coveredAt (enqueueMidState sh k b idx
              rest).slices_for_sampling d kk := by
          intro j d kk ht
          rw [e2]
          by_cases hj : j = idx
          · subst hj
            rw [hmidpend_idx] at ht
            exact hI.train_samp d kk (hnewcov d kk ht)
          · rw [hmidpend_ne j hj] at ht
            exact hI.pend_samp j d kk ht
        have hmidts : ∀ (d : Device) (kk : Int),
            coveredAt (enqueueMidState sh k b idx
              rest).slices_for_training d kk →
            ¬ coveredAt (enqueueMidState sh k b idx
              rest).slices_for_sampling d kk := by
          intro d kk hc
          rw [e1] at hc
          rw [e2]
          exact hI.train_samp d kk ((hcovIff d kk).mp hc).1
        have hmidwfT : ∀ p ∈ (enqueueMidState sh k b idx
            rest).slices_for_training, SliceMerger.WF p.2 := by
          rw [e1]; exact hwfT'
        have hmidkeysT : (PyDict.keys (enqueueMidState sh k b idx
            rest).slices_for_training).Nodup := by
          rw [e1, hkeys']; exact hI.keysT
        have hmidlen : (enqueueMidState sh k b idx
            rest).training_batches.length = (enqueueMidState sh k b idx
            rest).traj_tensors_to_release.length := by
          rw [e4, e5, List.length_set, List.length_set]
          exact hI.lenEq
        have hmidavlt : ∀ j ∈ (enqueueMidState sh k b idx
            rest).available_batches, j < (enqueueMidState sh k b idx
            rest).traj_tensors_to_release.length := by
          rw [e3, e4]
          intro j hj
          rw [List.length_set]
          exact hI.avail_lt j (hrestsub j hj)
        have hmidavpend : ∀ j ∈ (enqueueMidState sh k b idx
            rest).available_batches, (enqueueMidState sh k b idx
            rest).traj_tensors_to_release.getD j [] = [] := by
          rw [e3]
          intro j hj
          rw [hmidpend_ne j (fun h => hidxrest (h ▸ hj))]
          exact hI.avail_pend j (hrestsub j hj)
        have hshmid : ∀ j, (sh j).Nodup ∧ (sh j).Perm
            (PyDict.keys (enqueueMidState sh k b idx
              rest).slices_for_training) := by
          intro j
          refine ⟨(hsh j).1, ?_⟩
          rw [e1, hkeys']
          exact (hsh j).2
        cases hasync : b.cfg.async_rl with
        | false =>
          have hstep1 : (maybeEnqueueLoop sh (fuel + 1) k b).1 =
              (maybeEnqueueLoop sh fuel (k + 1)
                (enqueueMidState sh k b idx rest)).1 := by
            simp [maybeEnqueueLoop, hav, htot, hasync, enqueueMidState]
          rw [hstep1]
          refine ih (k + 1) (enqueueMidState sh k b idx rest) ?_ hshmid
          exact {
            wfT := hmidwfT
            wfS := by rw [e2]; exact hI.wfS
            keysT := hmidkeysT
            keysS := by rw [e2]; exact hI.keysS
            Bnn := hI.Bnn
            Spos := hI.Spos
            avail_nodup := by rw [e3]; exact hrestnd
            lenEq := hmidlen
            avail_lt := hmidavlt
            avail_pend := hmidavpend
            pend_valid := hmidvalid
            pend_self := hmidself
            pend_disj := hmiddisj
            pend_train := hmidtrain
            pend_samp := hmidsamp
            train_samp := hmidts
            sync_content := by
              rw [e6, e3, e4, e5]
              intro hasy j hj
              by_cases hjidx : j = idx
              · subst hjidx
                rw [listGetD_set_self hidxlt, listGetD_set_self hidxltT]
              · rw [listGetD_set_ne (fun h => hjidx h.symm),
                  listGetD_set_ne (fun h => hjidx h.symm)]
                refine hI.sync_content hasy j (fun hmem => ?_)
                rw [hav] at hmem
                rcases List.mem_cons.mp hmem with h | h
                · exact hjidx h
                · exact hj h
            async_pend := by
              rw [e6]
              intro h
              rw [hasync] at h
              cases h }
        | true =>
          have hstep1 : (maybeEnqueueLoop sh (fuel + 1) k b).1 =
              (maybeEnqueueLoop sh fuel (k + 1)
                (releaseTrajTensors (enqueueMidState sh k b idx rest)
                  idx).1).1 := by
            simp [maybeEnqueueLoop, hav, htot, hasync, enqueueMidState]
          rw [hstep1]
          have hfr := releaseTrajTensors_frame
            (enqueueMidState sh k b idx rest) idx
          have hfr2 := releaseTrajTensors_frame2
            (enqueueMidState sh k b idx rest) idx
          have hsampL := releaseTrajTensors_sampling
            (enqueueMidState sh k b idx rest) idx
            (by rw [e2]; exact hI.wfS)
            (by rw [e2]; exact hI.keysS)
            hI.Spos
            (by rw [hmidpend_idx]; intro ds hds; exact (hnewmem ds hds).2.1)
            (by rw [hmidpend_idx]; exact hnewpw)
            (by
              rw [hmidpend_idx, e2]
              intro ds hds i hin
              exact hI.train_samp ds.1 i ((hnewmem ds hds).2.2 i hin))
          have hrelpend_all : ∀ j, (releaseTrajTensors
              (enqueueMidState sh k b idx rest)
                idx).1.traj_tensors_to_release.getD j [] = [] := by
            intro j
            rw [hfr.2.2.2.2.2]
            by_cases hj : j = idx
            · subst hj
              refine listGetD_set_self ?_
              rw [e4, List.length_set]
              exact hidxlt
            · rw [listGetD_set_ne (fun h => hj h.symm)]
              by_cases hji : j = idx
              · exact absurd hji hj
              · rw [hmidpend_ne j hji]
                exact hI.async_pend hasync j
          have hrelpend_nil : ∀ l ∈ (releaseTrajTensors
              (enqueueMidState sh k b idx rest)
                idx).1.traj_tensors_to_release, l = [] :=
            eq_nil_of_getD _ hrelpend_all
          refine ih (k + 1) _ ?_ ?_
          · exact {
              wfT := by rw [hfr.2.2.1]; exact hmidwfT
              wfS := hsampL.1
              keysT := by rw [hfr.2.2.1]; exact hmidkeysT
              keysS := by rw [hsampL.2.1, e2]; exact hI.keysS
              Bnn := by
                show (0 : Int) ≤ (releaseTrajTensors
                  (enqueueMidState sh k b idx rest)
                    idx).1.traj_per_training_iteration
                rw [hfr.2.2.2.2.1]
                exact hI.Bnn
              Spos := by
                show (1 : Int) ≤ (releaseTrajTensors
                  (enqueueMidState sh k b idx rest)
                    idx).1.traj_per_sampling_iteration
                rw [hfr2]
                exact hI.Spos
              avail_nodup := by rw [hfr.2.1, e3]; exact hrestnd
              lenEq := by
                rw [hfr.2.2.2.1, hfr.2.2.2.2.2, List.length_set]
                exact hmidlen
              avail_lt := by
                rw [hfr.2.1, hfr.2.2.2.2.2]
                intro j hj
                rw [List.length_set]
                exact hmidavlt j (by rw [e3]; exact hj)
              avail_pend := fun j _ => hrelpend_all j
              pend_valid := by
                intro l hl
                rw [hrelpend_nil l hl]
                intro ds hds
                cases hds
              pend_self := by
                intro l hl
                rw [hrelpend_nil l hl]
                exact List.Pairwise.nil
              pend_disj := by
                intro i j _ d kk hti
                rw [hrelpend_all i] at hti
                exact absurd hti (taggedIn_nil _ _)
              pend_train := by
                intro j d kk hti
                rw [hrelpend_all j] at hti
                exact absurd hti (taggedIn_nil _ _)
              pend_samp := by
                intro j d kk hti
                rw [hrelpend_all j] at hti
                exact absurd hti (taggedIn_nil _ _)
              train_samp := by
                intro d kk hc hcs
                rw [hfr.2.2.1, e1] at hc
                rcases hsampL.2.2 d kk hcs with h | h
                · exact hI.train_samp d kk ((hcovIff d kk).mp hc).1 h
                · rw [hmidpend_idx] at h
                  exact ((hcovIff d kk).mp hc).2 h
              sync_content := by
                intro h
                rw [hfr.1, e6, hasync] at h
                cases h
              async_pend := fun _ j => hrelpend_all j }
          · intro j
            refine ⟨(hsh j).1, ?_⟩
            rw [hfr.2.2.1, e1, hkeys']
            exact (hsh j).2

theorem getD_mem_or_nil {α : Type} (L : List (List α)) (j : Nat) :
    L.getD j [] ∈ L ∨ L.getD j [] = [] := by
  by_cases h : j < L.length
  · left
    rw [List.getD_eq_getElem?_getD, List.getElem?_eq_getElem h]
    exact List.getElem_mem h
  · right
    rw [List.getD_eq_getElem?_getD, List.getElem?_eq_none (by omega)]
    rfl

theorem maybeEnqueue_inv (sh : Nat → List Device) (b : Batcher) (hI : BInv b)
    (hsh : ∀ j, (sh j).Nodup ∧ (sh j).Perm
      (PyDict.keys b.slices_for_training)) :
    BInv (maybeEnqueueNewTrainingBatches sh b).1 :=
  maybeEnqueueLoop_inv sh _ 0 b hI hsh

theorem pend_owned (b : Batcher) :
    ∀ j (d : Device) (i : Int),
      taggedIn (b.traj_tensors_to_release.getD j []) d i → ownedIdx b d i := by
  intro j d i ht
  rcases getD_mem_or_nil b.traj_tensors_to_release j with h | h
  · obtain ⟨s, hs, hin⟩ := ht
    exact Or.inr (Or.inl ⟨_, h, s, hs, hin⟩)
  · rw [h] at ht
    exact absurd ht (taggedIn_nil _ _)

theorem onNewTrajectories_inv (sh : Nat → List Device) (b : Batcher)
    (dev : Device) (ss : List Slice) (hI : BInv b)
    (hval : eventValid b (.newTrajectories sh dev ss)) :
    BInv (onNewTrajectories sh b dev ss).1 := by
  obtain ⟨hv, hpw, hown, hsh⟩ := hval
  have hfold : ss.foldl (fun st s => st.modify dev
      (fun m => m.merge_slices s)) b.slices_for_training =
      (ss.map (fun s => ((dev, s) : Device × Slice))).foldl
        (fun sp ds => sp.modify ds.1 (fun m => m.merge_slices ds.2))
        b.slices_for_training := by
    rw [List.foldl_map]
  have hval' : ∀ ds ∈ ss.map (fun s => ((dev, s) : Device × Slice)),
      ds.2.start < ds.2.stop := by
    intro ds hds
    obtain ⟨t, ht, hts⟩ := List.mem_map.mp hds
    rw [← hts]
    exact hv t ht
  have hpw' : (ss.map (fun s => ((dev, s) : Device × Slice))).Pairwise
      (fun p q => p.1 = q.1 → ∀ i : Int, inSlice i p.2 → ¬ inSlice i q.2) := by
    rw [List.pairwise_map]
    exact hpw.imp (fun hd => fun _ i hin => index_disjoint_of_disjointS hd hin)
  have hdis' : ∀ ds ∈ ss.map (fun s => ((dev, s) : Device × Slice)),
      ∀ i : Int, inSlice i ds.2 → ¬ coveredAt b.slices_for_training ds.1 i := by
    intro ds hds i hin hc
    obtain ⟨t, ht, hts⟩ := List.mem_map.mp hds
    rw [← hts] at hin hc
    exact hown t ht i (Or.inl hc) hin
  obtain ⟨hwf1, hk1, hcov1⟩ := foldl_merge_pairs_spec
    (ss.map (fun s => ((dev, s) : Device × Slice))) b.slices_for_training
    hI.wfT hI.keysT hval' hpw' hdis'
  have htag : ∀ (d : Device) (i : Int),
      taggedIn (ss.map (fun s => ((dev, s) : Device × Slice))) d i →
      d = dev ∧ ∃ s ∈ ss, inSlice i s := by
    rintro d i ⟨s, hs, hin⟩
    obtain ⟨t, ht, hts⟩ := List.mem_map.mp hs
    injection hts with h1 h2
    subst h2
    exact ⟨h1.symm, t, ht, hin⟩
  show BInv (maybeEnqueueNewTrainingBatches sh
    { b with slices_for_training := ss.foldl (fun st s => st.modify dev
        (fun m => m.merge_slices s)) b.slices_for_training }).1
  rw [hfold]
  refine maybeEnqueue_inv sh _ ?_ ?_
  · exact {
      wfT := hwf1
      wfS := hI.wfS
      keysT := by rw [hk1]; exact hI.keysT
      keysS := hI.keysS
      Bnn := hI.Bnn
      Spos := hI.Spos
      avail_nodup := hI.avail_nodup
      lenEq := hI.lenEq
      avail_lt := hI.avail_lt
      avail_pend := hI.avail_pend
      pend_valid := hI.pend_valid
      pend_self := hI.pend_self
      pend_disj := hI.pend_disj
      pend_train := by
        intro j d kk ht hc
        rcases (hcov1 d kk).mp hc with h | ⟨hm, -⟩
        · exact hI.pend_train j d kk ht h
        · obtain ⟨hdd, t, htt, hin⟩ := htag d kk hm
          subst hdd
          exact hown t htt kk (pend_owned b j d kk ht) hin
      pend_samp := hI.pend_samp
      train_samp := by
        intro d kk hc hcs
        rcases (hcov1 d kk).mp hc with h | ⟨hm, -⟩
        · exact hI.train_samp d kk h hcs
        · obtain ⟨hdd, t, htt, hin⟩ := htag d kk hm
          subst hdd
          exact hown t htt kk (Or.inr (Or.inr hcs)) hin
      sync_content := hI.sync_content
      async_pend := hI.async_pend }
  · intro j
    refine ⟨(hsh j).1, ?_⟩
    show (sh j).Perm (PyDict.keys ((ss.map
      (fun s => ((dev, s) : Device × Slice))).foldl
        (fun sp ds => sp.modify ds.1 (fun m => m.merge_slices ds.2))
        b.slices_for_training))
    rw [hk1]
    exact (hsh j).2

theorem onTrainingBatchReleased_inv (sh : Nat → List Device) (b : Batcher)
    (idx : Nat) (it : Int) (hI : BInv b)
    (hval : eventValid b (.batchReleased sh idx it)) :
    BInv (onTrainingBatchReleased sh b idx it).1 := by
  obtain ⟨hlt, hnotmem, hsh⟩ := hval
  have hI0 : BInv { b with training_iteration := it } := {
    wfT := hI.wfT, wfS := hI.wfS, keysT := hI.keysT, keysS := hI.keysS,
    Bnn := hI.Bnn, Spos := hI.Spos, avail_nodup := hI.avail_nodup,
    lenEq := hI.lenEq, avail_lt := hI.avail_lt, avail_pend := hI.avail_pend,
    pend_valid := hI.pend_valid, pend_self := hI.pend_self,
    pend_disj := hI.pend_disj, pend_train := hI.pend_train,
    pend_samp := hI.pend_samp, train_samp := hI.train_samp,
    sync_content := hI.sync_content, async_pend := hI.async_pend }
  have hnd2 : ∀ (l : List Nat), l = b.available_batches →
      (l ++ [idx]).Nodup := by
    intro l hl
    rw [List.nodup_append]
    refine ⟨hl ▸ hI.avail_nodup, by simp, ?_⟩
    intro a ha hmem
    rw [List.mem_singleton] at hmem
    subst hmem
    exact hnotmem (hl ▸ ha)
  cases hasync : b.cfg.async_rl with
  | true =>
    have hstep : (onTrainingBatchReleased sh b idx it).1 =
        (maybeEnqueueNewTrainingBatches sh
          { b with
            training_iteration := it
            available_batches := b.available_batches ++ [idx] }).1 := by
      simp [onTrainingBatchReleased, hasync]
    rw [hstep]
    refine maybeEnqueue_inv sh _ ?_ (fun j => (hsh j))
    exact {
      wfT := hI.wfT
      wfS := hI.wfS
      keysT := hI.keysT
      keysS := hI.keysS
      Bnn := hI.Bnn
      Spos := hI.Spos
      avail_nodup := hnd2 _ rfl
      lenEq := hI.lenEq
      avail_lt := by
        intro j hj
        rcases List.mem_append.mp hj with h | h
        · exact hI.avail_lt j h
        · rw [List.mem_singleton] at h
          subst h
          exact hlt
      avail_pend := by
        intro j hj
        rcases List.mem_append.mp hj with h | h
        · exact hI.avail_pend j h
        · exact hI.async_pend hasync j
      pend_valid := hI.pend_valid
      pend_self := hI.pend_self
      pend_disj := hI.pend_disj
      pend_train := hI.pend_train
      pend_samp := hI.pend_samp
      train_samp := hI.train_samp
      sync_content := by
        intro h
        rw [show ({ b with
            training_iteration := it
            available_batches := b.available_batches ++ [idx] } :
            Batcher).cfg.async_rl = b.cfg.async_rl from rfl, hasync] at h
        cases h
      async_pend := fun _ => hI.async_pend hasync }
  | false =>
    have hstep : (onTrainingBatchReleased sh b idx it).1 =
        (maybeEnqueueNewTrainingBatches sh
          { (releaseTrajTensors { b with training_iteration := it } idx).1 with
            available_batches := (releaseTrajTensors
              { b with training_iteration := it }
                idx).1.available_batches ++ [idx] }).1 := by
      simp [onTrainingBatchReleased, hasync]
    rw [hstep]
    have hfr := releaseTrajTensors_frame { b with training_iteration := it } idx
    have hfr2 := releaseTrajTensors_frame2
      { b with training_iteration := it } idx
    have hpvalid : ∀ ds ∈ b.traj_tensors_to_release.getD idx [],
        ds.2.start < ds.2.stop := by
      intro ds hds
      rcases getD_mem_or_nil b.traj_tensors_to_release idx with h | h
      · exact hI.pend_valid _ h ds hds
      · rw [h] at hds; cases hds
    have hpself : (b.traj_tensors_to_release.getD idx []).Pairwise
        (fun p q => p.1 = q.1 → ∀ i : Int,
          inSlice i p.2 → ¬ inSlice i q.2) := by
      rcases getD_mem_or_nil b.traj_tensors_to_release idx with h | h
      · exact hI.pend_self _ h
      · rw [h]; exact List.Pairwise.nil
    have hsampL := releaseTrajTensors_sampling
      { b with training_iteration := it } idx hI.wfS hI.keysS hI.Spos
      hpvalid hpself
      (by
        intro ds hds i hin
        exact hI.pend_samp idx ds.1 i ⟨ds.2, hds, hin⟩)
    have hpend_eq : (releaseTrajTensors { b with training_iteration := it }
        idx).1.traj_tensors_to_release =
        b.traj_tensors_to_release.set idx [] := hfr.2.2.2.2.2
    have hpend_idx : (releaseTrajTensors { b with training_iteration := it }
        idx).1.traj_tensors_to_release.getD idx [] = [] := by
      rw [hpend_eq]
      exact listGetD_set_self hlt
    have hpend_ne : ∀ j, j ≠ idx →
        (releaseTrajTensors { b with training_iteration := it }
          idx).1.traj_tensors_to_release.getD j [] =
          b.traj_tensors_to_release.getD j [] := by
      intro j hj
      rw [hpend_eq]
      exact listGetD_set_ne (fun h => hj h.symm)
    refine maybeEnqueue_inv sh _ ?_ ?_
    · exact {
        wfT := by rw [hfr.2.2.1]; exact hI.wfT
        wfS := hsampL.1
        keysT := by rw [hfr.2.2.1]; exact hI.keysT
        keysS := by rw [hsampL.2.1]; exact hI.keysS
        Bnn := by
          show (0 : Int) ≤ (releaseTrajTensors
            { b with training_iteration := it }
              idx).1.traj_per_training_iteration
          rw [hfr.2.2.2.2.1]
          exact hI.Bnn
        Spos := by
          show (1 : Int) ≤ (releaseTrajTensors
            { b with training_iteration := it }
              idx).1.traj_per_sampling_iteration
          rw [hfr2]
          exact hI.Spos
        avail_nodup := by
          rw [hfr.2.1]
          exact hnd2 _ rfl
        lenEq := by
          rw [hfr.2.2.2.1, hpend_eq, List.length_set]
          exact hI.lenEq
        avail_lt := by
          rw [hfr.2.1, hpend_eq]
          intro j hj
          rw [List.length_set]
          rcases List.mem_append.mp hj with h | h
          · exact hI.avail_lt j h
          · rw [List.mem_singleton] at h
            subst h
            exact hlt
        avail_pend := by
          rw [hfr.2.1]
          intro j hj
          rcases List.mem_append.mp hj with h | h
          · rw [hpend_ne j (fun he => hnotmem (he ▸ h))]
            exact hI.avail_pend j h
          · rw [List.mem_singleton] at h
            subst h
            exact hpend_idx
        pend_valid := by
          rw [hpend_eq]
          intro l hl
          rcases List.mem_or_eq_of_mem_set hl with h | h
          · exact hI.pend_valid l h
          · rw [h]; intro ds hds; cases hds
        pend_self := by
          rw [hpend_eq]
          intro l hl
          rcases List.mem_or_eq_of_mem_set hl with h | h
          · exact hI.pend_self l h
          · rw [h]; exact List.Pairwise.nil
        pend_disj := by
          intro i j hij d kk hti htj
          by_cases hi : i = idx
          · subst hi
            rw [hpend_idx] at hti
            exact absurd hti (taggedIn_nil _ _)
          · rw [hpend_ne i hi] at hti
            by_cases hj : j = idx
            · subst hj
              rw [hpend_idx] at htj
              exact absurd htj (taggedIn_nil _ _)
            · rw [hpend_ne j hj] at htj
              exact hI.pend_disj i j hij d kk hti htj
        pend_train := by
          intro j d kk ht hc
          rw [hfr.2.2.1] at hc
          by_cases hj : j = idx
          · subst hj
            rw [hpend_idx] at ht
            exact absurd ht (taggedIn_nil _ _)
          · rw [hpend_ne j hj] at ht
            exact hI.pend_train j d kk ht hc
        pend_samp := by
          intro j d kk ht hc
          by_cases hj : j = idx
          · subst hj
            rw [hpend_idx] at ht
            exact absurd ht (taggedIn_nil _ _)
          · rw [hpend_ne j hj] at ht
            rcases hsampL.2.2 d kk hc with h | h
            · exact hI.pend_samp j d kk ht h
            · exact hI.pend_disj j idx hj d kk ht h
        train_samp := by
          intro d kk hc hcs
          rw [hfr.2.2.1] at hc
          rcases hsampL.2.2 d kk hcs with h | h
          · exact hI.train_samp d kk hc h
          · exact hI.pend_train idx d kk h hc
        sync_content := by
          intro _ j hj
          rw [hfr.2.1] at hj
          have hjidx : j ≠ idx := fun he => hj (by
            rw [he]
            exact List.mem_append.mpr (Or.inr (List.mem_singleton.mpr rfl)))
          have hjav : j ∉ b.available_batches := fun he => hj
            (List.mem_append.mpr (Or.inl he))
          rw [show ({ (releaseTrajTensors
              { b with training_iteration := it } idx).1 with
            available_batches := (releaseTrajTensors
              { b with training_iteration := it }
                idx).1.available_batches ++ [idx] } :
              Batcher).training_batches = (releaseTrajTensors
              { b with training_iteration := it } idx).1.training_batches
            from rfl, hfr.2.2.2.1]
          rw [show ({ (releaseTrajTensors
              { b with training_iteration := it } idx).1 with
            available_batches := (releaseTrajTensors
              { b with training_iteration := it }
                idx).1.available_batches ++ [idx] } :
              Batcher).traj_tensors_to_release = (releaseTrajTensors
              { b with training_iteration := it }
                idx).1.traj_tensors_to_release from rfl]
          rw [hpend_ne j hjidx]
          exact hI.sync_content hasync j hjav
        async_pend := by
          intro h
          rw [show ({ (releaseTrajTensors
              { b with training_iteration := it } idx).1 with
            available_batches := (releaseTrajTensors
              { b with training_iteration := it }
                idx).1.available_batches ++ [idx] } :
              Batcher).cfg = b.cfg from by rw [hfr.1], hasync] at h
          cases h }
    · intro j
      refine ⟨(hsh j).1, ?_⟩
      rw [show ({ (releaseTrajTensors
          { b with training_iteration := it } idx).1 with
        available_batches := (releaseTrajTensors
          { b with training_iteration := it }
            idx).1.available_batches ++ [idx] } :
          Batcher).slices_for_training = (releaseTrajTensors
          { b with training_iteration := it } idx).1.slices_for_training
        from rfl, hfr.2.2.1]
      exact (hsh j).2

theorem batcherStep_inv (b : Batcher) (e : BatcherEvent) (hI : BInv b)
    (hval : eventValid b e) : BInv (batcherStep b e).1 := by
  cases e with
  | newTrajectories sh dev ss => exact onNewTrajectories_inv sh b dev ss hI hval
  | batchReleased sh idx it => exact onTrainingBatchReleased_inv sh b idx it hI hval

theorem replicate_getD_nil {α : Type} (K j : Nat) :
    (List.replicate K ([] : List α)).getD j [] = [] := by
  by_cases h : j < K
  · rw [List.getD_eq_getElem?_getD, List.getElem?_eq_getElem
      (by rw [List.length_replicate]; exact h)]
    exact List.getElem_replicate _ (by rw [List.length_replicate]; exact h)
  · rw [List.getD_eq_getElem?_getD, List.getElem?_eq_none
      (by rw [List.length_replicate]; omega)]
    rfl

theorem BInv_init (cfg : BatcherCfg) (trT trS : Int) (devices : List Device)
    (K : Nat) (hdev : devices.Nodup) (hT : 0 ≤ trT) (hS : 1 ≤ trS) :
    BInv (Batcher.init cfg trT trS devices K) := by
  have hwfe : ∀ p ∈ devices.map (fun d => (d, SliceMerger.empty)),
      SliceMerger.WF p.2 := by
    intro p hp
    obtain ⟨d, -, hd⟩ := List.mem_map.mp hp
    rw [← hd]
    exact SliceMerger.WF.empty
  have hke : (PyDict.keys (devices.map
      (fun d => (d, SliceMerger.empty)))).Nodup := by
    unfold PyDict.keys
    rw [List.map_map]
    show (devices.map (fun d => d)).Nodup
    simpa using hdev
  have hnc : ∀ (d : Device) (k : Int),
      ¬ coveredAt (devices.map (fun d => (d, SliceMerger.empty))) d k := by
    rintro d k ⟨m, hm, hc⟩
    obtain ⟨t, -, ht⟩ := List.mem_map.mp (PyDict.get_mem hm)
    have hme : m = SliceMerger.empty := by
      have := congrArg Prod.snd ht
      exact this.symm
    rw [hme] at hc
    exact SliceMerger.empty_not_covered k hc
  exact {
    wfT := hwfe
    wfS := hwfe
    keysT := hke
    keysS := hke
    Bnn := hT
    Spos := hS
    avail_nodup := List.nodup_range K
    lenEq := by
      show (List.replicate K ([] : List (Device × Slice))).length =
        (List.replicate K ([] : List (Device × Slice))).length
      rfl
    avail_lt := by
      intro j hj
      show j < (List.replicate K ([] : List (Device × Slice))).length
      rw [List.length_replicate]
      exact List.mem_range.mp hj
    avail_pend := fun j _ => replicate_getD_nil K j
    pend_valid := by
      intro l hl
      rw [List.eq_of_mem_replicate hl]
      intro ds hds
      cases hds
    pend_self := by
      intro l hl
      rw [List.eq_of_mem_replicate hl]
      exact List.Pairwise.nil
    pend_disj := by
      intro i j _ d kk hti
      have hti2 : taggedIn ((List.replicate K
          ([] : List (Device × Slice))).getD i []) d kk := hti
      rw [replicate_getD_nil K i] at hti2
      exact absurd hti2 (taggedIn_nil _ _)
    pend_train := by
      intro j d kk hti
      have hti2 : taggedIn ((List.replicate K
          ([] : List (Device × Slice))).getD j []) d kk := hti
      rw [replicate_getD_nil K j] at hti2
      exact absurd hti2 (taggedIn_nil _ _)
    pend_samp := by
      intro j d kk hti
      have hti2 : taggedIn ((List.replicate K
          ([] : List (Device × Slice))).getD j []) d kk := hti
      rw [replicate_getD_nil K j] at hti2
      exact absurd hti2 (taggedIn_nil _ _)
    train_samp := fun d kk hc => absurd hc (hnc d kk)
    sync_content := by
      intro _ j _
      show (List.replicate K ([] : List (Device × Slice))).getD j [] =
        (List.replicate K ([] : List (Device × Slice))).getD j []
      rfl
    async_pend := fun _ j => replicate_getD_nil K j }

theorem ReachableB_inv {b0 b : Batcher} (hI0 : BInv b0)
    (h : ReachableB b0 b) : BInv b := by
  induction h with
  | init => exact hI0
  | step hr hv ih => exact batcherStep_inv _ _ ih hv

/-- C4: in every state reachable from a fresh batcher by valid stimuli (in
either synchronous or asynchronous mode), the slot sets recorded for two
distinct batch buffers are disjoint: no device slot index belongs to the
pending-release lists of two different buffers at the same time, and in
synchronous mode — where a buffer's recorded contents persist until its
acknowledgement — the contents copied into any two simultaneously in-flight
buffers (both outside the free pool) are disjoint as well. -/
theorem C4_no_double_assignment (cfg : BatcherCfg) (trT trS : Int)
    (devices : List Device) (K : Nat) (b : Batcher)
    (hdev : devices.Nodup) (hT : 0 ≤ trT) (hS : 1 ≤ trS)
    (hreach : ReachableB (Batcher.init cfg trT trS devices K) b) :
    (∀ i j, i ≠ j → ∀ (d : Device) (k : Int),
      taggedIn (b.traj_tensors_to_release.getD i []) d k →
      ¬ taggedIn (b.traj_tensors_to_release.getD j []) d k) ∧
    (b.cfg.async_rl = false → ∀ i j, i ∉ b.available_batches →
      j ∉ b.available_batches → i ≠ j → ∀ (d : Device) (k : Int),
      taggedIn (b.training_batches.getD i []) d k →
      ¬ taggedIn (b.training_batches.getD j []) d k) := by
  have hI := ReachableB_inv (BInv_init cfg trT trS devices K hdev hT hS) hreach
  refine ⟨hI.pend_disj, fun hasy i j hi hj hij d k hti htj => ?_⟩
  rw [hI.sync_content hasy i hi] at hti
  rw [hI.sync_content hasy j hj] at htj
  exact hI.pend_disj i j hij d k hti htj

/-- Witness for C4: after one producer report of `[0,2)` on "cpu" fills batch
buffer 0, slot 0 of "cpu" belongs to buffer 0's pending-release list and not
to buffer 1's. -/
theorem C4_no_double_assignment_witness :
    taggedIn (((batcherStep (Batcher.init ⟨false, false⟩ 2 2 ["cpu"] 2)
        (BatcherEvent.newTrajectories (fun _ => ["cpu"]) "cpu"
          [⟨0, 2⟩])).1.traj_tensors_to_release).getD 0 []) "cpu" 0 ∧
    ¬ taggedIn (((batcherStep (Batcher.init ⟨false, false⟩ 2 2 ["cpu"] 2)
        (BatcherEvent.newTrajectories (fun _ => ["cpu"]) "cpu"
          [⟨0, 2⟩])).1.traj_tensors_to_release).getD 1 []) "cpu" 0 := by
  have hvalid : eventValid (Batcher.init ⟨false, false⟩ 2 2 ["cpu"] 2)
      (BatcherEvent.newTrajectories (fun _ => ["cpu"]) "cpu" [⟨0, 2⟩]) := by
    refine ⟨by decide, by decide, ?_, ?_⟩
    · intro s hs i hown
      rcases hown with ⟨m, hm, hc⟩ | ⟨l, hl, s', hs', -⟩ | ⟨m, hm, hc⟩
      · have hm' : some SliceMerger.empty = some m := hm
        injection hm' with hm'
        rw [← hm'] at hc
        exact absurd hc (SliceMerger.empty_not_covered i)
      · have hl' : l = [] := List.eq_of_mem_replicate hl
        rw [hl'] at hs'
        cases hs'
      · have hm' : some SliceMerger.empty = some m := hm
        injection hm' with hm'
        rw [← hm'] at hc
        exact absurd hc (SliceMerger.empty_not_covered i)
    · intro j
      refine ⟨?_, ?_⟩
      · show (["cpu"] : List Device).Nodup
        decide
      · show (["cpu"] : List Device).Perm ["cpu"]
        exact List.Perm.refl _
  exact ⟨⟨⟨0, 2⟩, by decide, by decide⟩,
    (C4_no_double_assignment ⟨false, false⟩ 2 2 ["cpu"] 2 _
        (by decide) (by decide) (by decide)
        (ReachableB.step ReachableB.init hvalid)).1 0 1 (by decide) "cpu" 0
      ⟨⟨0, 2⟩, by decide, by decide⟩⟩

/-- C9: in unbatched sampling mode, releasing batch buffer `idx` empties its
pending-release list and hands each device exactly one `put_many` payload:
the flat list of the individual slot indices of all recorded ranges of that
device, sorted ascending — a permutation of the recorded indices, so each
recorded slot occurrence is handed back exactly once, and a repeated release
of the same buffer hands back nothing.  In synchronous mode the hand-backs
of the acknowledgement handler are exactly those of the release it performs;
in asynchronous mode the release's hand-backs are emitted in the same
assembly pass as the `training_batches_available` signal. -/
theorem C9_release_completeness (sh : Nat → List Device) (b : Batcher)
    (idx : Nat) (hlt : idx < b.traj_tensors_to_release.length)
    (hb : b.cfg.batched_sampling = false) :
    (releaseTrajTensors b idx).1.traj_tensors_to_release.getD idx [] = [] ∧
    (∀ d, putPayloads (releaseTrajTensors b idx).2 d =
      if d ∈ (b.traj_tensors_to_release.getD idx []).map Prod.fst then
        [List.insertionSort (· ≤ ·)
          (pendIdxs (b.traj_tensors_to_release.getD idx []) d)]
      else []) ∧
    (∀ d, List.Sorted (· ≤ ·)
        (List.insertionSort (· ≤ ·)
          (pendIdxs (b.traj_tensors_to_release.getD idx []) d)) ∧
      (List.insertionSort (· ≤ ·)
        (pendIdxs (b.traj_tensors_to_release.getD idx []) d)).Perm
        (pendIdxs (b.traj_tensors_to_release.getD idx []) d)) ∧
    (∀ d, putPayloads (releaseTrajTensors (releaseTrajTensors b idx).1 idx).2 d
      = []) ∧
    (b.cfg.async_rl = false → ∀ (it : Int) (d : Device),
      putPayloads (onTrainingBatchReleased sh b idx it).2 d =
        putPayloads
          (releaseTrajTensors { b with training_iteration := it } idx).2 d) ∧
    (b.cfg.async_rl = true → ∀ idx', b.available_batches = [idx'] →
      ¬ sumTotals b.slices_for_training < b.traj_per_training_iteration →
      (maybeEnqueueNewTrainingBatches sh b).2 =
        BEvent.training_batches_available idx' ::
          ((releaseTrajTensors (enqueueMidState sh 0 b idx' []) idx').2 ++
            [BEvent.stop_experience_collection])) := by
  have h1 : (releaseTrajTensors b idx).1.traj_tensors_to_release.getD idx []
      = [] := by
    rw [(releaseTrajTensors_frame b idx).2.2.2.2.2]
    exact listGetD_set_self hlt
  refine ⟨h1, fun d => releaseTrajTensors_unbatched_puts b idx hb d,
    fun d => ⟨List.sorted_insertionSort _ _, List.perm_insertionSort _ _⟩,
    fun d => ?_, fun hasync it d => ?_, fun hasync idx' hav htot => ?_⟩
  · rw [releaseTrajTensors_unbatched_puts _ idx
      (((releaseTrajTensors_frame b idx).1).symm ▸ hb) d]
    rw [h1]
    simp
  · have hstep : (onTrainingBatchReleased sh b idx it).2 =
        (releaseTrajTensors { b with training_iteration := it } idx).2 ++
          (maybeEnqueueNewTrainingBatches sh
            { (releaseTrajTensors { b with training_iteration := it } idx).1 with
              available_batches := (releaseTrajTensors
                { b with training_iteration := it } idx).1.available_batches ++
                  [idx] }).2 := by
      simp [onTrainingBatchReleased, hasync]
    rw [hstep, putPayloads_append]
    have hz : putPayloads (maybeEnqueueNewTrainingBatches sh
        { (releaseTrajTensors { b with training_iteration := it } idx).1 with
          available_batches := (releaseTrajTensors
            { b with training_iteration := it } idx).1.available_batches ++
              [idx] }).2 d = [] := by
      apply maybeEnqueue_sync_no_put
      show (releaseTrajTensors
        { b with training_iteration := it } idx).1.cfg.async_rl = false
      rw [(releaseTrajTensors_frame _ _).1]
      exact hasync
    rw [hz, List.append_nil]
  · unfold maybeEnqueueNewTrainingBatches
    rw [hav]
    exact maybeEnqueueLoop_async_single sh 0 0 b idx' hasync hav htot

/-- Witness for C9: releasing the single buffer whose pending list records
the ranges `[3,5)` then `[0,1)` on device "cpu" hands back the single sorted
flat list `[0, 3, 4]` and empties the pending list. -/
theorem C9_release_completeness_witness :
    ((releaseTrajTensors
        { Batcher.init ⟨false, false⟩ 2 2 ["cpu"] 1 with
          traj_tensors_to_release := [[("cpu", ⟨3, 5⟩), ("cpu", ⟨0, 1⟩)]] }
        0).1.traj_tensors_to_release.getD 0 [] = [] ∧
      (∀ d, putPayloads (releaseTrajTensors
          { Batcher.init ⟨false, false⟩ 2 2 ["cpu"] 1 with
            traj_tensors_to_release := [[("cpu", ⟨3, 5⟩), ("cpu", ⟨0, 1⟩)]] }
          0).2 d =
        if d ∈ (({ Batcher.init ⟨false, false⟩ 2 2 ["cpu"] 1 with
            traj_tensors_to_release := [[("cpu", ⟨3, 5⟩), ("cpu", ⟨0, 1⟩)]]
              } : Batcher).traj_tensors_to_release.getD 0 []).map Prod.fst then
          [List.insertionSort (· ≤ ·)
            (pendIdxs (({ Batcher.init ⟨false, false⟩ 2 2 ["cpu"] 1 with
              traj_tensors_to_release := [[("cpu", ⟨3, 5⟩), ("cpu", ⟨0, 1⟩)]]
                } : Batcher).traj_tensors_to_release.getD 0 []) d)]
        else [])) ∧
    putPayloads (releaseTrajTensors
        { Batcher.init ⟨false, false⟩ 2 2 ["cpu"] 1 with
          traj_tensors_to_release := [[("cpu", ⟨3, 5⟩), ("cpu", ⟨0, 1⟩)]] }
        0).2 "cpu" = [[0, 3, 4]] :=
  ⟨⟨(C9_release_completeness (fun _ => ["cpu"])
      { Batcher.init ⟨false, false⟩ 2 2 ["cpu"] 1 with
        traj_tensors_to_release := [[("cpu", ⟨3, 5⟩), ("cpu", ⟨0, 1⟩)]] }
      0 (by decide) (by decide)).1,
    (C9_release_completeness (fun _ => ["cpu"])
      { Batcher.init ⟨false, false⟩ 2 2 ["cpu"] 1 with
        traj_tensors_to_release := [[("cpu", ⟨3, 5⟩), ("cpu", ⟨0, 1⟩)]] }
      0 (by decide) (by decide)).2.1⟩,
    by decide⟩

end SampleFactory
